import Mathlib

/-! # The DBM memory pool (`src/dbm/dbm_mempool.c`)

A shallow embedding of the recycling allocator for host and device memory and
the properties of its three operations: `internal_mempool_malloc` (with its two
entry points `dbm_mempool_host_malloc` and `dbm_mempool_device_malloc`),
`dbm_mempool_free` and `dbm_mempool_clear`.

Conventions of the embedding:

* an address is a natural number and `NULL` is `0`;
* a singly linked list of `dbm_memchunk_t` is a `List`, head first, the `next`
  field being the list structure; a pointer into the list (`indirect`, `hit`,
  `fallback`) is a position in it;
* the three file-level variables form the record `Pool`; next to them the record
  keeps the log of the calls that leave the file (`Call`), so that "no backend
  call" is a statement about the pool;
* a failed `assert` ends the run: every operation returns `Except Fault _`;
* what the file takes from elsewhere (the system allocator behind
  `actual_malloc`, the C library `malloc` for chunk records, the width of the
  counters of `dbm_memstats_t`) is the parameter `Env`.
-/

namespace DbmMempool

/-- The assertions of the file; a run that violates one stops with it. -/
inductive Fault where
  /-- The assertion `assert(memory != NULL)` in `actual_malloc`. -/
  | memory_null
  /-- The assertion `assert(chunk->on_device == on_device)` in `internal_mempool_malloc`. -/
  | kind_mismatch
  /-- The assertion `assert(chunk != NULL)` after `malloc(sizeof(dbm_memchunk_t))`. -/
  | chunk_null
  /-- The assertion `assert(chunk != NULL && chunk->mem == mem)` in `dbm_mempool_free`. -/
  | unknown_address
  /-- The assertion `assert(omp_get_num_threads() == 1)` in `dbm_mempool_clear`. -/
  | not_single_thread
  /-- The assertion `assert(mempool_allocated_head == NULL)` in `dbm_mempool_clear`. -/
  | memory_leak
  /-- The assertion `assert(NULL != memstats)` in `dbm_mempool_statistics`. -/
  | memstats_null
deriving DecidableEq, Repr

/-- Calls that leave the file, in the order they are made.  `chunk` names a
chunk record (see `dbm_memchunk_t.id`); in `backend_alloc` it is the record
whose `mem` field receives the result. -/
inductive Call where
  /-- Call `malloc(sizeof(dbm_memchunk_t))`, which returned the record `chunk`. -/
  | malloc (chunk : Nat)
  /-- Call `free(chunk)` of a chunk record. -/
  | free (chunk : Nat)
  /-- The system allocation inside `actual_malloc(size, on_device)` returned
  `memory` (`offloadMalloc`, `offloadMallocHost` or `dbm_mpi_alloc_mem`). -/
  | backend_alloc (chunk : Nat) (size : Nat) (on_device : Bool) (memory : Nat)
  /-- The system release inside `actual_free(memory, on_device)`
  (`offloadFree`, `offloadFreeHost` or `dbm_mpi_free_mem`). -/
  | backend_free (memory : Nat) (on_device : Bool)
deriving DecidableEq, Repr

/-- What the file uses and does not define. -/
structure Env where
  /-- Width in bits of the four counters of `dbm_memstats_t` (the type is
  declared in `dbm_mempool.h`). -/
  counter_bits : Nat
  /-- Whether `malloc(sizeof(dbm_memchunk_t))` returns a record (and not
  `NULL`), given the calls made so far. -/
  malloc_ok : List Call → Bool
  /-- The address the system allocator returns for `(size, on_device)`, given
  the calls made so far; `0` is `NULL`. -/
  alloc_mem : List Call → Nat → Bool → Nat

/-- The struct `dbm_memchunk_t`.  The field `next` is the position in the list
that holds the record.  `id` stands for the identity of the record as a C
object (two records are two objects even when their fields agree): the number of
calls logged when the record was created. -/
structure dbm_memchunk_t where
  id : Nat
  mem : Nat
  size : Nat
  on_device : Bool
deriving DecidableEq, Repr

/-- The struct `dbm_memstats_t`: the four counters `dbm_mempool.c` reads and
writes.  The struct is declared in `dbm_mempool.h`; the width of its fields is
`Env.counter_bits`, and every update below is reduced modulo
`2 ^ counter_bits`. -/
structure dbm_memstats_t where
  host_size : Nat
  host_mallocs : Nat
  device_size : Nat
  device_mallocs : Nat
deriving DecidableEq, Repr

/-- The file-level state and the log of outside calls. -/
structure Pool where
  mempool_available_head : List dbm_memchunk_t
  mempool_allocated_head : List dbm_memchunk_t
  mempool_stats : dbm_memstats_t
  trace : List Call
deriving DecidableEq, Repr

/-- The state at program start: both heads `NULL`, `mempool_stats = {0}`. -/
def Pool.initial : Pool :=
  ⟨[], [], ⟨0, 0, 0, 0⟩, []⟩

/-- The routine `actual_malloc(size, on_device)`: ask the system, then
`assert(memory != NULL)`.  The argument `chunk` only labels the log entry. -/
def actual_malloc (env : Env) (tr : List Call) (chunk size : Nat) (on_device : Bool) :
    Except Fault (Nat × List Call) :=
  let memory := env.alloc_mem tr size on_device
  if memory = 0 then .error Fault.memory_null
  else .ok (memory, tr ++ [Call.backend_alloc chunk size on_device memory])

/-- The routine `actual_free(memory, on_device)`: nothing for `NULL`, else the
system release. -/
def actual_free (tr : List Call) (memory : Nat) (on_device : Bool) : List Call :=
  if memory = 0 then tr else tr ++ [Call.backend_free memory on_device]

/-- The `for` loop of `internal_mempool_malloc` over the rest of the available
list; `i` is the position of `indirect`, `hit` and `fallback` are a position
together with the chunk found there. -/
def scan (size : Nat) (on_device : Bool) :
    List dbm_memchunk_t → Nat → Option (Nat × dbm_memchunk_t) → Option (Nat × dbm_memchunk_t) →
      Option (Nat × dbm_memchunk_t) × Option (Nat × dbm_memchunk_t)
  | [], _, hit, fallback => (hit, fallback)
  | c :: rest, i, hit, fallback =>
    if c.on_device = on_device then
      if c.size < size then
        match fallback with
        | none => scan size on_device rest (i + 1) hit (some (i, c))
        | some f =>
          if f.2.size < c.size then scan size on_device rest (i + 1) hit (some (i, c))
          else scan size on_device rest (i + 1) hit fallback
      else
        match hit with
        | none =>
          if size = c.size then (some (i, c), fallback)
          else scan size on_device rest (i + 1) (some (i, c)) fallback
        | some h =>
          if c.size < h.2.size then
            if size = c.size then (some (i, c), fallback)
            else scan size on_device rest (i + 1) (some (i, c)) fallback
          else scan size on_device rest (i + 1) hit fallback
    else scan size on_device rest (i + 1) hit fallback

/-- The position the search ends with: `hit`, or `fallback` when
`NULL == hit`. -/
def find_hit (size : Nat) (on_device : Bool) (available : List dbm_memchunk_t) :
    Option (Nat × dbm_memchunk_t) :=
  match scan size on_device available 0 none none with
  | (some h, _) => some h
  | (none, fallback) => fallback

/-- The counters after `+= size - chunk->size` and `++` for the kind. -/
def bump_stats (env : Env) (st : dbm_memstats_t) (size chunk_size : Nat) (on_device : Bool) :
    dbm_memstats_t :=
  if on_device then
    { st with
      device_size := (st.device_size + (size - chunk_size)) % 2 ^ env.counter_bits
      device_mallocs := (st.device_mallocs + 1) % 2 ^ env.counter_bits }
  else
    { st with
      host_size := (st.host_size + (size - chunk_size)) % 2 ^ env.counter_bits
      host_mallocs := (st.host_mallocs + 1) % 2 ^ env.counter_bits }

/-- The second half of the critical region of `internal_mempool_malloc`: the
chunk is put at the head of the allocated list and resized when
`chunk->size < size`; the result is `chunk->mem`. -/
def insert_and_resize (env : Env) (size : Nat) (on_device : Bool) (chunk : dbm_memchunk_t)
    (available allocated : List dbm_memchunk_t) (st : dbm_memstats_t) (tr : List Call) :
    Except Fault (Nat × Pool) :=
  if chunk.size < size then
    let st1 := bump_stats env st size chunk.size on_device
    let tr1 := actual_free tr chunk.mem chunk.on_device
    match actual_malloc env tr1 chunk.id size chunk.on_device with
    | .error e => .error e
    | .ok (memory, tr2) =>
      .ok (memory, ⟨available, { chunk with mem := memory, size := size } :: allocated, st1, tr2⟩)
  else
    .ok (chunk.mem, ⟨available, chunk :: allocated, st, tr⟩)

/-- The routine `internal_mempool_malloc(size, on_device)`. -/
def internal_mempool_malloc (env : Env) (size : Nat) (on_device : Bool) (s : Pool) :
    Except Fault (Nat × Pool) :=
  if size = 0 then .ok (0, s)
  else
    match find_hit size on_device s.mempool_available_head with
    | some (i, c) =>
      -- chunk = *hit; *hit = chunk->next; assert(chunk->on_device == on_device)
      if c.on_device = on_device then
        insert_and_resize env size on_device c (s.mempool_available_head.eraseIdx i)
          s.mempool_allocated_head s.mempool_stats s.trace
      else .error Fault.kind_mismatch
    | none =>
      -- chunk = malloc(sizeof(dbm_memchunk_t)); assert(chunk != NULL)
      if env.malloc_ok s.trace then
        insert_and_resize env size on_device ⟨s.trace.length, 0, 0, on_device⟩
          s.mempool_available_head s.mempool_allocated_head s.mempool_stats
          (s.trace ++ [Call.malloc s.trace.length])
      else .error Fault.chunk_null

/-- The routine `dbm_mempool_host_malloc(size)`. -/
def dbm_mempool_host_malloc (env : Env) (size : Nat) (s : Pool) : Except Fault (Nat × Pool) :=
  internal_mempool_malloc env size false s

/-- The routine `dbm_mempool_device_malloc(size)`. -/
def dbm_mempool_device_malloc (env : Env) (size : Nat) (s : Pool) : Except Fault (Nat × Pool) :=
  internal_mempool_malloc env size true s

/-- The `while` loop of `dbm_mempool_free`: the position at which `indirect`
stops, the length of the list when no chunk holds `mem`. -/
def find_chunk (mem : Nat) : List dbm_memchunk_t → Nat
  | [] => 0
  | c :: rest => if c.mem ≠ mem then find_chunk mem rest + 1 else 0

/-- The routine `dbm_mempool_free(mem)`. -/
def dbm_mempool_free (mem : Nat) (s : Pool) : Except Fault Pool :=
  if mem = 0 then .ok s
  else
    let i := find_chunk mem s.mempool_allocated_head
    match s.mempool_allocated_head[i]? with
    | none => .error Fault.unknown_address
    | some chunk =>
      if chunk.mem = mem then
        .ok { s with
              mempool_allocated_head := s.mempool_allocated_head.eraseIdx i
              mempool_available_head := chunk :: s.mempool_available_head }
      else .error Fault.unknown_address

/-- The `while` loop of `dbm_mempool_clear`: each chunk of the available list
is handed to `actual_free` and its record to `free`. -/
def free_chunks : List dbm_memchunk_t → List Call → List Call
  | [], tr => tr
  | chunk :: rest, tr =>
    free_chunks rest (actual_free tr chunk.mem chunk.on_device ++ [Call.free chunk.id])

/-- The routine `dbm_mempool_clear()`; `num_threads` is the value of
`omp_get_num_threads()`. -/
def dbm_mempool_clear (num_threads : Nat) (s : Pool) : Except Fault Pool :=
  if num_threads ≠ 1 then .error Fault.not_single_thread
  else
    match s.mempool_allocated_head with
    | _ :: _ => .error Fault.memory_leak
    | [] =>
      .ok { s with
            mempool_available_head := []
            trace := free_chunks s.mempool_available_head s.trace }

/-- The routine `dbm_mempool_statistics(memstats)`: the value stored through
the pointer `memstats`. -/
def dbm_mempool_statistics (memstats : Nat) (s : Pool) : Except Fault dbm_memstats_t :=
  if memstats = 0 then .error Fault.memstats_null else .ok s.mempool_stats

/-- One call of the public interface. -/
inductive Op where
  | acquire (size : Nat) (on_device : Bool)
  | release (mem : Nat)
  | drain (num_threads : Nat)
deriving DecidableEq, Repr

/-- The state after one call. -/
def step (env : Env) (op : Op) (s : Pool) : Except Fault Pool :=
  match op with
  | .acquire size on_device =>
    match internal_mempool_malloc env size on_device s with
    | .ok (_, s') => .ok s'
    | .error e => .error e
  | .release mem => dbm_mempool_free mem s
  | .drain n => dbm_mempool_clear n s

/-- The state after a sequence of calls, the first failed assertion ending it. -/
def run (env : Env) : List Op → Pool → Except Fault Pool
  | [], s => .ok s
  | op :: ops, s =>
    match step env op s with
    | .ok s' => run env ops s'
    | .error e => .error e

/-- The states the pool can be in: those a sequence of calls produces from the
state at program start. -/
def Reachable (env : Env) (s : Pool) : Prop :=
  ∃ ops, run env ops Pool.initial = .ok s

/-- The address a logged call of the system allocator returned, `0` for the
other calls. -/
def returned_address : Call → Nat
  | Call.backend_alloc _ _ _ memory => memory
  | _ => 0

/-- An environment for examples: 64-bit counters, `malloc` never fails, and
the system allocator returns an address above every address it returned
before. -/
def demo_env : Env where
  counter_bits := 64
  malloc_ok := fun _ => true
  alloc_mem := fun tr _ _ => 1 + (tr.map returned_address).sum

/-! ## Predicates and example states -/

/-- What the loop knows about `hit` after the chunks `l`: without a hit no
chunk of the kind in `l` is large enough; with a hit `h`, position `h.1` holds
`h.2`, which is of the kind, large enough, and no larger than any chunk of the
kind in `l` that is large enough. -/
def HitInv (size : Nat) (on_device : Bool) (l : List dbm_memchunk_t) :
    Option (Nat × dbm_memchunk_t) → Prop
  | none => ∀ c ∈ l, c.on_device = on_device → c.size < size
  | some h =>
    l[h.1]? = some h.2 ∧ h.2.on_device = on_device ∧ size ≤ h.2.size ∧
      ∀ c ∈ l, c.on_device = on_device → size ≤ c.size → h.2.size ≤ c.size

/-- What the loop knows about `fallback` after the chunks `l`: without a
fallback no chunk of the kind in `l` is too small; with a fallback `f`,
position `f.1` holds `f.2`, which is of the kind, too small, and no smaller
than any chunk of the kind in `l` that is too small. -/
def FallbackInv (size : Nat) (on_device : Bool) (l : List dbm_memchunk_t) :
    Option (Nat × dbm_memchunk_t) → Prop
  | none => ∀ c ∈ l, c.on_device = on_device → size ≤ c.size
  | some f =>
    l[f.1]? = some f.2 ∧ f.2.on_device = on_device ∧ f.2.size < size ∧
      ∀ c ∈ l, c.on_device = on_device → c.size < size → c.size ≤ f.2.size

/-- The grow counter of a kind: `device_mallocs` or `host_mallocs`. -/
def dbm_memstats_t.mallocs_of (st : dbm_memstats_t) (on_device : Bool) : Nat :=
  if on_device then st.device_mallocs else st.host_mallocs

/-- The bytes counter of a kind: `device_size` or `host_size`. -/
def dbm_memstats_t.size_of (st : dbm_memstats_t) (on_device : Bool) : Nat :=
  if on_device then st.device_size else st.host_size

/-- The number of chunk records the pool holds, available plus allocated. -/
def Pool.num_chunks (s : Pool) : Nat :=
  s.mempool_available_head.length + s.mempool_allocated_head.length

/-- A pool whose available list holds host chunks of sizes 50 and 200. -/
def pool_50_200 : Pool :=
  ⟨[⟨0, 7, 50, false⟩, ⟨2, 8, 200, false⟩], [], ⟨250, 2, 0, 0⟩,
    [Call.malloc 0, Call.backend_alloc 0 50 false 7, Call.malloc 2,
      Call.backend_alloc 2 200 false 8]⟩

/-- A pool whose available list holds host chunks of sizes 10 and 40. -/
def pool_10_40 : Pool :=
  ⟨[⟨0, 7, 10, false⟩, ⟨2, 8, 40, false⟩], [], ⟨50, 2, 0, 0⟩,
    [Call.malloc 0, Call.backend_alloc 0 10 false 7, Call.malloc 2,
      Call.backend_alloc 2 40 false 8]⟩

/-- A pool with three chunks lent out and one available. -/
def pool_lent : Pool :=
  ⟨[⟨6, 11, 3, false⟩], [⟨0, 7, 10, false⟩, ⟨2, 8, 40, true⟩, ⟨4, 9, 5, false⟩],
    ⟨18, 3, 40, 1⟩,
    [Call.malloc 0, Call.backend_alloc 0 10 false 7, Call.malloc 2,
      Call.backend_alloc 2 40 true 8, Call.malloc 4, Call.backend_alloc 4 5 false 9,
      Call.malloc 6, Call.backend_alloc 6 3 false 11]⟩

/-- The records of the pool with their kinds: identity and `on_device` of
every chunk, available ones first. -/
def Pool.kinds (s : Pool) : List (Nat × Bool) :=
  (s.mempool_available_head ++ s.mempool_allocated_head).map fun c => (c.id, c.on_device)

/-- All chunk records of the pool, available ones first. -/
def Pool.chunks (s : Pool) : List dbm_memchunk_t :=
  s.mempool_available_head ++ s.mempool_allocated_head

/-- Every chunk of the pool has a non-null address. -/
def NonNull (s : Pool) : Prop :=
  ∀ c ∈ s.chunks, c.mem ≠ 0

/-- One entry of the log read for the record `id`: a backend allocation made
for it replaces what is known. -/
def last_alloc_step (id : Nat) (acc : Option (Nat × Nat)) : Call → Option (Nat × Nat)
  | Call.backend_alloc chunk size _ memory => if chunk = id then some (size, memory) else acc
  | _ => acc

/-- The last backend allocation made for the record `id`, as (size, address
returned), if there was one. -/
def last_alloc (id : Nat) (tr : List Call) : Option (Nat × Nat) :=
  tr.foldl (last_alloc_step id) none

/-- Every chunk of the pool was created by a logged call, no two chunks are the
same record, and the size and address of each chunk are those of the last
backend allocation made for it. -/
def Backed (s : Pool) : Prop :=
  (s.chunks.map fun c => c.id).Nodup ∧
    ∀ c ∈ s.chunks, c.id < s.trace.length ∧ last_alloc c.id s.trace = some (c.size, c.mem)

/-- One entry of the log read for the regions of the system allocator: an
allocation adds its address, a release removes it. -/
def live_step (live : List Nat) : Call → List Nat
  | Call.backend_alloc _ _ _ memory => memory :: live
  | Call.backend_free memory _ => live.erase memory
  | _ => live

/-- The regions allocated and not yet freed, according to the log. -/
def live_regions (tr : List Call) : List Nat :=
  tr.foldl live_step []

/-- The system allocator never returns the address of a region that is
allocated and not yet freed. -/
def FreshBackend (env : Env) : Prop :=
  ∀ tr size on_device, env.alloc_mem tr size on_device ∉ live_regions tr

/-- The regions allocated and not yet freed are exactly the addresses of the
chunks of the pool, and no two chunks have the same address. -/
def Owned (s : Pool) : Prop :=
  (live_regions s.trace).Perm (s.chunks.map fun c => c.mem) ∧
    (s.chunks.map fun c => c.mem).Nodup

/-- Whether a call of the interface is an acquire. -/
def Op.is_acquire : Op → Bool
  | Op.acquire _ _ => true
  | _ => false

/-- The pool after one host chunk of 10 bytes was acquired and released. -/
def pool_released : Pool :=
  ⟨[⟨0, 1, 10, false⟩], [], ⟨10, 1, 0, 0⟩, [Call.malloc 0, Call.backend_alloc 0 10 false 1]⟩

/-- The pool after two host chunks of 10 and 20 bytes were acquired. -/
def pool_two_lent : Pool :=
  ⟨[], [⟨2, 2, 20, false⟩, ⟨0, 1, 10, false⟩], ⟨30, 2, 0, 0⟩,
    [Call.malloc 0, Call.backend_alloc 0 10 false 1, Call.malloc 2,
      Call.backend_alloc 2 20 false 2]⟩

/-- The outside calls the teardown makes for the chunks of a list, in order:
for each chunk `actual_free(chunk->mem, chunk->on_device)`, then
`free(chunk)`. -/
def teardown_calls : List dbm_memchunk_t → List Call
  | [] => []
  | c :: rest => actual_free [] c.mem c.on_device ++ Call.free c.id :: teardown_calls rest

/-- The regions handed to the system release in a log, with the kind given,
in the order of the calls. -/
def backend_frees : List Call → List (Nat × Bool)
  | [] => []
  | Call.backend_free memory on_device :: tr => (memory, on_device) :: backend_frees tr
  | _ :: tr => backend_frees tr

/-- Whether a logged call is a system allocation of the kind `K`. -/
def is_alloc_of (K : Bool) : Call → Bool
  | Call.backend_alloc _ _ on_device _ => on_device == K
  | _ => false

/-- The number of system allocations of the kind `K` in a log. -/
def alloc_count (K : Bool) (tr : List Call) : Nat :=
  tr.countP (is_alloc_of K)

/-- What an acquire of `size` bytes of a kind in the state `s` has to obtain
from the system: nothing when `size` is 0 or when the chunk the search selects
is large enough, else `size` minus the size the selected chunk has before the
call (0 for a record that is yet to be created). -/
def acquire_delta (size : Nat) (on_device : Bool) (s : Pool) : Option Nat :=
  if size = 0 then none
  else
    match find_hit size on_device s.mempool_available_head with
    | some h => if h.2.size < size then some (size - h.2.size) else none
    | none => some (size - 0)

/-- The growth a call of the interface causes for the kind `K`: that of an
acquire of the kind `K`, nothing for the other calls. -/
def op_delta (K : Bool) (op : Op) (s : Pool) : Option Nat :=
  match op with
  | Op.acquire size on_device => if on_device = K then acquire_delta size on_device s else none
  | _ => none

/-- The growths for the kind `K` along a sequence of calls started in `s`, one
entry for each acquire of the kind `K` that went to the system allocator, in
the order of the calls. -/
def run_deltas (env : Env) (K : Bool) : List Op → Pool → List Nat
  | [], _ => []
  | op :: ops, s =>
    match step env op s with
    | .ok s' => (op_delta K op s).toList ++ run_deltas env K ops s'
    | .error _ => []

/-- A sequence of calls for examples: two new chunks, a release, a grown
chunk, one more new chunk. -/
def demo_ops : List Op :=
  [Op.acquire 10 false, Op.acquire 20 true, Op.release 1, Op.acquire 30 false,
    Op.acquire 5 true]

/-- The state `demo_ops` leaves, started at program start in `demo_env`. -/
def pool_after_demo_ops : Pool :=
  ⟨[], [⟨6, 8, 5, true⟩, ⟨0, 4, 30, false⟩, ⟨2, 2, 20, true⟩], ⟨30, 2, 25, 2⟩,
    [Call.malloc 0, Call.backend_alloc 0 10 false 1, Call.malloc 2,
      Call.backend_alloc 2 20 true 2, Call.backend_free 1 false,
      Call.backend_alloc 0 30 false 4, Call.malloc 6, Call.backend_alloc 6 5 true 8]⟩

/-- Whether a logged call, if it is a system release, releases a region that
is allocated and not yet freed. -/
def free_is_live (live : List Nat) : Call → Bool
  | Call.backend_free memory _ => decide (memory ∈ live)
  | _ => true

/-- Whether every system release of a log, read from a state of the system
allocator with the regions `live` in use, releases a region that is in use at
that moment (so none is released twice, and none that was never allocated). -/
def frees_live_from (live : List Nat) : List Call → Bool
  | [] => true
  | e :: tr => free_is_live live e && frees_live_from (live_step live e) tr

/-- Whether every system release of a log releases a region in use. -/
def frees_live (tr : List Call) : Bool :=
  frees_live_from [] tr

/-- One entry of the log read for the chunk records: `malloc` creates a
record, `free` ends it. -/
def record_step (records : List Nat) : Call → List Nat
  | Call.malloc chunk => chunk :: records
  | Call.free chunk => records.erase chunk
  | _ => records

/-- The chunk records that exist according to the log: created and not yet
passed to `free`. -/
def live_records (tr : List Call) : List Nat :=
  tr.foldl record_step []

/-- The records that exist are exactly the chunks of the two lists. -/
def Recorded (s : Pool) : Prop :=
  (live_records s.trace).Perm (s.chunks.map fun c => c.id)

/-- The number of acquisitions outstanding after one more call of a sequence
that returns: an acquire with `0 < size` adds one, a release of a non-null
address takes one away. -/
def outstanding_step (n : Nat) : Op → Nat
  | Op.acquire size _ => if size = 0 then n else n + 1
  | Op.release mem => if mem = 0 then n else n - 1
  | Op.drain _ => n

/-- The largest number of acquisitions outstanding at any point of a sequence
of calls that starts with `n` of them outstanding. -/
def peak_outstanding_from (n : Nat) : List Op → Nat
  | [] => n
  | op :: ops => max n (peak_outstanding_from (outstanding_step n op) ops)

/-- The largest number of acquisitions outstanding at any point of a sequence
of calls that starts with none outstanding. -/
def peak_outstanding (ops : List Op) : Nat :=
  peak_outstanding_from 0 ops

/-- The number of chunks of the kind `K` that are lent out: the acquisitions of
the kind `K` that are outstanding. -/
def Pool.lent_of (K : Bool) (s : Pool) : Nat :=
  s.mempool_allocated_head.countP fun c => c.on_device == K

/-- The number of chunk records of the kind `K`, available plus allocated. -/
def Pool.chunks_of (K : Bool) (s : Pool) : Nat :=
  s.chunks.countP fun c => c.on_device == K

/-- The largest number of chunks of the kind `K` lent out at any point of a
sequence of calls started in `s`. -/
def peak_lent (env : Env) (K : Bool) : List Op → Pool → Nat
  | [], s => s.lent_of K
  | op :: ops, s =>
    match step env op s with
    | .ok s' => max (s.lent_of K) (peak_lent env K ops s')
    | .error _ => s.lent_of K

/-- A host acquire, its release, then a device acquire. -/
def kind_switch_ops : List Op :=
  [Op.acquire 10 false, Op.release 1, Op.acquire 10 true]

/-- The state `kind_switch_ops` leaves, started at program start in
`demo_env`: the host chunk is available, the device chunk is lent. -/
def pool_after_kind_switch : Pool :=
  ⟨[⟨0, 1, 10, false⟩], [⟨2, 2, 10, true⟩], ⟨10, 1, 10, 1⟩,
    [Call.malloc 0, Call.backend_alloc 0 10 false 1, Call.malloc 2,
      Call.backend_alloc 2 10 true 2]⟩

/-- Whether a call of the interface is a teardown. -/
def Op.is_drain : Op → Bool
  | Op.drain _ => true
  | _ => false

/-- The sum of the sizes of the chunks of the kind `K` in a list. -/
def sizes_in (K : Bool) : List dbm_memchunk_t → Nat
  | [] => 0
  | c :: l => (if c.on_device = K then c.size else 0) + sizes_in K l

/-- The sum of the sizes of all chunks of the kind `K`, available plus
allocated. -/
def Pool.sizes_of (K : Bool) (s : Pool) : Nat :=
  sizes_in K s.chunks

/-- The counters of the kind `K` reflect the chunks of the kind: the bytes
counter is the sum of their sizes and the grow counter the number of system
allocations of the kind, both reduced modulo `2 ^ counter_bits`; there are at
most as many chunks of the kind as such allocations; every chunk has a positive
size and a non-null address. -/
def Capacity (env : Env) (K : Bool) (s : Pool) : Prop :=
  s.mempool_stats.size_of K = s.sizes_of K % 2 ^ env.counter_bits ∧
  s.mempool_stats.mallocs_of K = alloc_count K s.trace % 2 ^ env.counter_bits ∧
  s.chunks_of K ≤ alloc_count K s.trace ∧
  ∀ c ∈ s.chunks, 0 < c.size ∧ c.mem ≠ 0

/-! ## The search loop -/

theorem getElem?_snoc_of_some {α : Type} {l : List α} {i : Nat} {a : α} (b : α)
    (h : l[i]? = some a) : (l ++ [b])[i]? = some a := by
  have hi : i < l.length := by
    rcases List.getElem?_eq_some.mp h with ⟨hi, _⟩
    exact hi
  rw [List.getElem?_append_left hi, h]

theorem hitInv_skip {size : Nat} {k : Bool} {pre : List dbm_memchunk_t}
    {hit : Option (Nat × dbm_memchunk_t)} {c : dbm_memchunk_t}
    (h : HitInv size k pre hit)
    (hc : c.on_device = k → size ≤ c.size → ∃ x, hit = some x ∧ x.2.size ≤ c.size) :
    HitInv size k (pre ++ [c]) hit := by
  cases hit with
  | none =>
    intro d hd hk
    rcases List.mem_append.mp hd with hd | hd
    · exact h d hd hk
    · have hdc : d = c := by simpa using hd
      subst hdc
      by_contra hlt
      rcases hc hk (Nat.le_of_not_lt hlt) with ⟨x, hx, _⟩
      cases hx
  | some x =>
    obtain ⟨h1, h2, h3, h4⟩ := h
    refine ⟨getElem?_snoc_of_some c h1, h2, h3, ?_⟩
    intro d hd hk hs
    rcases List.mem_append.mp hd with hd | hd
    · exact h4 d hd hk hs
    · have hdc : d = c := by simpa using hd
      subst hdc
      rcases hc hk hs with ⟨y, hy, hle⟩
      cases hy
      exact hle

theorem hitInv_take {size : Nat} {k : Bool} {pre : List dbm_memchunk_t}
    {hit : Option (Nat × dbm_memchunk_t)} {c : dbm_memchunk_t}
    (h : HitInv size k pre hit) (hk : c.on_device = k) (hs : size ≤ c.size)
    (hc : ∀ x, hit = some x → c.size < x.2.size) :
    HitInv size k (pre ++ [c]) (some (pre.length, c)) := by
  refine ⟨List.getElem?_concat_length pre c, hk, hs, ?_⟩
  intro d hd hdk hds
  rcases List.mem_append.mp hd with hd | hd
  · cases hit with
    | none => exact absurd hds (Nat.not_le_of_lt (h d hd hdk))
    | some x =>
      obtain ⟨_, _, _, h4⟩ := h
      exact Nat.le_trans (Nat.le_of_lt (hc x rfl)) (h4 d hd hdk hds)
  · have hdc : d = c := by simpa using hd
    subst hdc
    exact Nat.le_refl _

theorem hitInv_exact {size : Nat} {k : Bool} (pre rest : List dbm_memchunk_t)
    {c : dbm_memchunk_t} (hk : c.on_device = k) (hs : size = c.size) :
    HitInv size k (pre ++ c :: rest) (some (pre.length, c)) := by
  refine ⟨?_, hk, Nat.le_of_eq hs, ?_⟩
  · show (pre ++ c :: rest)[pre.length]? = some c
    rw [List.getElem?_append_right (Nat.le_refl _)]
    simp
  · intro d _ _ hds
    simpa [← hs] using hds

/-- The loop keeps `HitInv`: started after `pre` it ends with a `hit` that
satisfies it for the whole list. -/
theorem scan_hit (size : Nat) (k : Bool) :
    ∀ (rest pre : List dbm_memchunk_t) (hit fb : Option (Nat × dbm_memchunk_t)),
      HitInv size k pre hit →
        HitInv size k (pre ++ rest) (scan size k rest pre.length hit fb).1 := by
  intro rest
  induction rest with
  | nil =>
    intro pre hit fb h
    simpa [scan] using h
  | cons c rest ih =>
    intro pre hit fb h
    have key : pre ++ c :: rest = (pre ++ [c]) ++ rest := by simp
    have step : ∀ hit' fb', HitInv size k (pre ++ [c]) hit' →
        HitInv size k (pre ++ c :: rest) (scan size k rest (pre.length + 1) hit' fb').1 := by
      intro hit' fb' h'
      have := ih (pre ++ [c]) hit' fb' h'
      rw [key]
      simpa using this
    unfold scan
    by_cases hk : c.on_device = k
    · by_cases hs : c.size < size
      · have hskip : HitInv size k (pre ++ [c]) hit :=
          hitInv_skip h (fun _ hle => absurd hs (Nat.not_lt_of_le hle))
        rw [if_pos hk, if_pos hs]
        cases fb with
        | none => exact step _ _ hskip
        | some f =>
          by_cases hf : f.2.size < c.size
          · simp only [if_pos hf]; exact step _ _ hskip
          · simp only [if_neg hf]; exact step _ _ hskip
      · rw [if_pos hk, if_neg hs]
        have hle : size ≤ c.size := Nat.le_of_not_lt hs
        cases hit with
        | none =>
          by_cases he : size = c.size
          · simp only [if_pos he]; exact hitInv_exact pre rest hk he
          · simp only [if_neg he]
            exact step _ _ (hitInv_take h hk hle (fun x hx => by cases hx))
        | some x =>
          by_cases hx : c.size < x.2.size
          · by_cases he : size = c.size
            · simp only [if_pos hx, if_pos he]; exact hitInv_exact pre rest hk he
            · simp only [if_pos hx, if_neg he]
              exact step _ _ (hitInv_take h hk hle (fun y hy => by cases hy; exact hx))
          · simp only [if_neg hx]
            exact step _ _ (hitInv_skip h (fun _ _ => ⟨x, rfl, Nat.le_of_not_lt hx⟩))
    · rw [if_neg hk]
      exact step _ _ (hitInv_skip h (fun hk' => absurd hk' hk))

theorem fallbackInv_skip {size : Nat} {k : Bool} {pre : List dbm_memchunk_t}
    {fb : Option (Nat × dbm_memchunk_t)} {c : dbm_memchunk_t}
    (h : FallbackInv size k pre fb)
    (hc : c.on_device = k → c.size < size → ∃ x, fb = some x ∧ c.size ≤ x.2.size) :
    FallbackInv size k (pre ++ [c]) fb := by
  cases fb with
  | none =>
    intro d hd hk
    rcases List.mem_append.mp hd with hd | hd
    · exact h d hd hk
    · have hdc : d = c := by simpa using hd
      subst hdc
      by_contra hlt
      rcases hc hk (Nat.lt_of_not_le hlt) with ⟨x, hx, _⟩
      cases hx
  | some x =>
    obtain ⟨h1, h2, h3, h4⟩ := h
    refine ⟨getElem?_snoc_of_some c h1, h2, h3, ?_⟩
    intro d hd hk hs
    rcases List.mem_append.mp hd with hd | hd
    · exact h4 d hd hk hs
    · have hdc : d = c := by simpa using hd
      subst hdc
      rcases hc hk hs with ⟨y, hy, hle⟩
      cases hy
      exact hle

theorem fallbackInv_take {size : Nat} {k : Bool} {pre : List dbm_memchunk_t}
    {fb : Option (Nat × dbm_memchunk_t)} {c : dbm_memchunk_t}
    (h : FallbackInv size k pre fb) (hk : c.on_device = k) (hs : c.size < size)
    (hc : ∀ x, fb = some x → x.2.size < c.size) :
    FallbackInv size k (pre ++ [c]) (some (pre.length, c)) := by
  refine ⟨List.getElem?_concat_length pre c, hk, hs, ?_⟩
  intro d hd hdk hds
  rcases List.mem_append.mp hd with hd | hd
  · cases fb with
    | none => exact absurd hds (Nat.not_lt_of_le (h d hd hdk))
    | some x =>
      obtain ⟨_, _, _, h4⟩ := h
      exact Nat.le_trans (h4 d hd hdk hds) (Nat.le_of_lt (hc x rfl))
  · have hdc : d = c := by simpa using hd
    subst hdc
    exact Nat.le_refl _

/-- The loop keeps `FallbackInv` as long as it does not stop early, and it
stops early only with a hit. -/
theorem scan_fallback (size : Nat) (k : Bool) :
    ∀ (rest pre : List dbm_memchunk_t) (hit fb : Option (Nat × dbm_memchunk_t)),
      FallbackInv size k pre fb →
        (scan size k rest pre.length hit fb).1 = none →
          FallbackInv size k (pre ++ rest) (scan size k rest pre.length hit fb).2 := by
  intro rest
  induction rest with
  | nil =>
    intro pre hit fb h _
    simpa [scan] using h
  | cons c rest ih =>
    intro pre hit fb h
    have key : pre ++ c :: rest = (pre ++ [c]) ++ rest := by simp
    have step : ∀ hit' fb', FallbackInv size k (pre ++ [c]) fb' →
        (scan size k rest (pre.length + 1) hit' fb').1 = none →
        FallbackInv size k (pre ++ c :: rest) (scan size k rest (pre.length + 1) hit' fb').2 := by
      intro hit' fb' h' hn
      have := ih (pre ++ [c]) hit' fb' h' (by simpa using hn)
      rw [key]
      simpa using this
    unfold scan
    by_cases hk : c.on_device = k
    · by_cases hs : c.size < size
      · rw [if_pos hk, if_pos hs]
        cases fb with
        | none => exact step _ _ (fallbackInv_take h hk hs (fun x hx => by cases hx))
        | some f =>
          by_cases hf : f.2.size < c.size
          · simp only [if_pos hf]
            exact step _ _ (fallbackInv_take h hk hs (fun y hy => by cases hy; exact hf))
          · simp only [if_neg hf]
            exact step _ _ (fallbackInv_skip h (fun _ _ => ⟨f, rfl, Nat.le_of_not_lt hf⟩))
      · rw [if_pos hk, if_neg hs]
        have hskip : FallbackInv size k (pre ++ [c]) fb :=
          fallbackInv_skip h (fun _ hlt => absurd hlt hs)
        cases hit with
        | none =>
          by_cases he : size = c.size
          · simp only [if_pos he]; intro hn; cases hn
          · simp only [if_neg he]; exact step _ _ hskip
        | some x =>
          by_cases hx : c.size < x.2.size
          · by_cases he : size = c.size
            · simp only [if_pos hx, if_pos he]; intro hn; cases hn
            · simp only [if_pos hx, if_neg he]; exact step _ _ hskip
          · simp only [if_neg hx]; exact step _ _ hskip
    · rw [if_neg hk]
      exact step _ _ (fallbackInv_skip h (fun hk' => absurd hk' hk))

/-- A hit is kept when no later chunk of the kind is large enough and
smaller. -/
theorem scan_keeps_hit (size : Nat) (k : Bool) (h : Nat × dbm_memchunk_t) :
    ∀ (rest : List dbm_memchunk_t) (i : Nat) (fb : Option (Nat × dbm_memchunk_t)),
      (∀ c ∈ rest, c.on_device = k → size ≤ c.size → h.2.size ≤ c.size) →
        (scan size k rest i (some h) fb).1 = some h := by
  intro rest
  induction rest with
  | nil => intro i fb _; simp [scan]
  | cons c rest ih =>
    intro i fb hmin
    have hrest : ∀ d ∈ rest, d.on_device = k → size ≤ d.size → h.2.size ≤ d.size :=
      fun d hd => hmin d (List.mem_cons_of_mem c hd)
    unfold scan
    by_cases hk : c.on_device = k
    · by_cases hs : c.size < size
      · rw [if_pos hk, if_pos hs]
        cases fb with
        | none => exact ih _ _ hrest
        | some f =>
          by_cases hf : f.2.size < c.size
          · simp only [if_pos hf]; exact ih _ _ hrest
          · simp only [if_neg hf]; exact ih _ _ hrest
      · rw [if_pos hk, if_neg hs]
        have hx : ¬ c.size < h.2.size :=
          Nat.not_lt_of_le (hmin c (List.mem_cons_self c rest) hk (Nat.le_of_not_lt hs))
        simp only [if_neg hx]
        exact ih _ _ hrest
    · rw [if_neg hk]
      exact ih _ _ hrest

/-- The search finds a best fit whenever some chunk of the kind is large
enough. -/
theorem find_hit_of_fit {size : Nat} {k : Bool} {l : List dbm_memchunk_t}
    (hex : ∃ c ∈ l, c.on_device = k ∧ size ≤ c.size) :
    ∃ h, find_hit size k l = some h ∧ HitInv size k l (some h) := by
  have h := scan_hit size k l [] none none (by intro c hc; cases hc)
  simp only [List.nil_append, List.length_nil] at h
  unfold find_hit
  rcases hscan : scan size k l 0 none none with ⟨hit, fb⟩
  rw [hscan] at h
  cases hit with
  | none =>
    rcases hex with ⟨c, hc, hk, hs⟩
    exact absurd hs (Nat.not_le_of_lt (h c hc hk))
  | some x => exact ⟨x, rfl, h⟩

/-- Without a chunk of the kind that is large enough the search ends with the
fallback. -/
theorem find_hit_of_small {size : Nat} {k : Bool} {l : List dbm_memchunk_t}
    (hsmall : ∀ c ∈ l, c.on_device = k → c.size < size) :
    FallbackInv size k l (find_hit size k l) := by
  have h := scan_hit size k l [] none none (by intro c hc; cases hc)
  have hf := scan_fallback size k l [] none none (by intro c hc; cases hc)
  simp only [List.nil_append, List.length_nil] at h hf
  unfold find_hit
  rcases hscan : scan size k l 0 none none with ⟨hit, fb⟩
  rw [hscan] at h hf
  cases hit with
  | none => exact hf rfl
  | some x =>
    obtain ⟨h1, h2, h3, _⟩ := h
    exact absurd h3 (Nat.not_le_of_lt (hsmall x.2 (List.getElem?_mem h1) h2))

/-- Whatever the search returns is a chunk of the requested kind at the
returned position. -/
theorem find_hit_some {size : Nat} {k : Bool} {l : List dbm_memchunk_t}
    {h : Nat × dbm_memchunk_t} (hh : find_hit size k l = some h) :
    l[h.1]? = some h.2 ∧ h.2.on_device = k := by
  by_cases hex : ∃ c ∈ l, c.on_device = k ∧ size ≤ c.size
  · rcases find_hit_of_fit hex with ⟨x, hx, h1, h2, _⟩
    rw [hx] at hh
    cases hh
    exact ⟨h1, h2⟩
  · have hsmall : ∀ c ∈ l, c.on_device = k → c.size < size := by
      intro c hc hk
      by_contra hlt
      exact hex ⟨c, hc, hk, Nat.le_of_not_lt hlt⟩
    have := find_hit_of_small hsmall
    rw [hh] at this
    exact ⟨this.1, this.2.1⟩

/-- The search returns nothing exactly when the list has no chunk of the
kind. -/
theorem find_hit_none_iff {size : Nat} {k : Bool} {l : List dbm_memchunk_t} :
    find_hit size k l = none ↔ ∀ c ∈ l, c.on_device ≠ k := by
  constructor
  · intro hn c hc hk
    by_cases hs : size ≤ c.size
    · rcases find_hit_of_fit ⟨c, hc, hk, hs⟩ with ⟨x, hx, _⟩
      rw [hn] at hx
      cases hx
    · by_cases hex : ∃ d ∈ l, d.on_device = k ∧ size ≤ d.size
      · rcases find_hit_of_fit hex with ⟨x, hx, _⟩
        rw [hn] at hx
        cases hx
      · have hsmall : ∀ d ∈ l, d.on_device = k → d.size < size := by
          intro d hd hdk
          by_contra hlt
          exact hex ⟨d, hd, hdk, Nat.le_of_not_lt hlt⟩
        have := find_hit_of_small hsmall
        rw [hn] at this
        exact hs (this c hc hk)
  · intro hno
    cases hh : find_hit size k l with
    | none => rfl
    | some x =>
      have := find_hit_some hh
      exact absurd this.2 (hno x.2 (List.getElem?_mem this.1))

/-- A chunk of the kind at the head of the list that is large enough, and no
larger than the later chunks of the kind that are large enough, is what the
search returns. -/
theorem find_hit_head {size : Nat} {k : Bool} {c : dbm_memchunk_t} {rest : List dbm_memchunk_t}
    (hk : c.on_device = k) (hle : size ≤ c.size)
    (hmin : ∀ d ∈ rest, d.on_device = k → size ≤ d.size → c.size ≤ d.size) :
    find_hit size k (c :: rest) = some (0, c) := by
  unfold find_hit scan
  rw [if_pos hk, if_neg (Nat.not_lt_of_le hle)]
  by_cases he : size = c.size
  · simp [he]
  · simp only [if_neg he]
    have := scan_keeps_hit size k (0, c) rest (0 + 1) none hmin
    rcases hscan : scan size k rest (0 + 1) (some (0, c)) none with ⟨hit, fb⟩
    rw [hscan] at this
    simp only at this
    subst this
    rfl

/-- A position that holds `c` splits the list around `c`, and erasing the
position joins the two parts. -/
theorem split_at_getElem? {α : Type} {l : List α} {i : Nat} {c : α} (h : l[i]? = some c) :
    ∃ pre post, l = pre ++ c :: post ∧ pre.length = i ∧ l.eraseIdx i = pre ++ post := by
  induction l generalizing i with
  | nil => simp at h
  | cons a l ih =>
    cases i with
    | zero =>
      simp only [List.getElem?_cons_zero, Option.some.injEq] at h
      subst h
      exact ⟨[], l, rfl, rfl, rfl⟩
    | succ i =>
      simp only [List.getElem?_cons_succ] at h
      rcases ih h with ⟨pre, post, h1, h2, h3⟩
      refine ⟨a :: pre, post, ?_, ?_, ?_⟩
      · rw [h1]; rfl
      · simp [h2]
      · simp [List.eraseIdx_cons_succ, h3]

theorem eraseIdx_split {α : Type} (pre post : List α) (c : α) :
    (pre ++ c :: post).eraseIdx pre.length = pre ++ post := by
  rw [List.eraseIdx_append_of_length_le (Nat.le_refl _)]
  simp

theorem getElem?_split {α : Type} (pre post : List α) (c : α) :
    (pre ++ c :: post)[pre.length]? = some c := by
  rw [List.getElem?_append_right (Nat.le_refl _)]
  simp

/-! ## The acquire path -/

theorem insert_and_resize_fits (env : Env) {size : Nat} (k : Bool) {chunk : dbm_memchunk_t}
    (available allocated : List dbm_memchunk_t) (st : dbm_memstats_t) (tr : List Call)
    (h : size ≤ chunk.size) :
    insert_and_resize env size k chunk available allocated st tr =
      .ok (chunk.mem, ⟨available, chunk :: allocated, st, tr⟩) := by
  unfold insert_and_resize
  rw [if_neg (Nat.not_lt_of_le h)]

theorem insert_and_resize_null (env : Env) {size : Nat} (k : Bool) {chunk : dbm_memchunk_t}
    (available allocated : List dbm_memchunk_t) (st : dbm_memstats_t) (tr : List Call)
    (h : chunk.size < size)
    (hm : env.alloc_mem (actual_free tr chunk.mem chunk.on_device) size chunk.on_device = 0) :
    insert_and_resize env size k chunk available allocated st tr = .error Fault.memory_null := by
  unfold insert_and_resize
  rw [if_pos h]
  simp [actual_malloc, hm]

theorem insert_and_resize_grows (env : Env) {size : Nat} (k : Bool) {chunk : dbm_memchunk_t}
    (available allocated : List dbm_memchunk_t) (st : dbm_memstats_t) (tr : List Call)
    (h : chunk.size < size) {memory : Nat}
    (hm : env.alloc_mem (actual_free tr chunk.mem chunk.on_device) size chunk.on_device = memory)
    (hne : memory ≠ 0) :
    insert_and_resize env size k chunk available allocated st tr =
      .ok (memory,
        ⟨available, ⟨chunk.id, memory, size, chunk.on_device⟩ :: allocated,
          bump_stats env st size chunk.size k,
          actual_free tr chunk.mem chunk.on_device ++
            [Call.backend_alloc chunk.id size chunk.on_device memory]⟩) := by
  unfold insert_and_resize
  rw [if_pos h]
  simp [actual_malloc, hm, hne]

theorem bump_stats_same (env : Env) (st : dbm_memstats_t) (size chunk_size : Nat) (k : Bool) :
    (bump_stats env st size chunk_size k).mallocs_of k =
        (st.mallocs_of k + 1) % 2 ^ env.counter_bits ∧
      (bump_stats env st size chunk_size k).size_of k =
        (st.size_of k + (size - chunk_size)) % 2 ^ env.counter_bits := by
  cases k <;> simp [bump_stats, dbm_memstats_t.mallocs_of, dbm_memstats_t.size_of]

theorem bump_stats_other (env : Env) (st : dbm_memstats_t) (size chunk_size : Nat) (k : Bool) :
    (bump_stats env st size chunk_size k).mallocs_of (!k) = st.mallocs_of (!k) ∧
      (bump_stats env st size chunk_size k).size_of (!k) = st.size_of (!k) := by
  cases k <;> simp [bump_stats, dbm_memstats_t.mallocs_of, dbm_memstats_t.size_of]

/-- The acquire path when the search returns the chunk `c` at position `i`. -/
theorem malloc_of_find_some (env : Env) {size : Nat} {k : Bool} {s : Pool}
    (hsize : 0 < size) {i : Nat} {c : dbm_memchunk_t}
    (hfind : find_hit size k s.mempool_available_head = some (i, c)) :
    ∃ pre post, s.mempool_available_head = pre ++ c :: post ∧ pre.length = i ∧
      c.on_device = k ∧
      internal_mempool_malloc env size k s =
        insert_and_resize env size k c (pre ++ post) s.mempool_allocated_head
          s.mempool_stats s.trace := by
  obtain ⟨hat, hk⟩ := find_hit_some hfind
  obtain ⟨pre, post, hsplit, hlen, herase⟩ := split_at_getElem? hat
  have hk' : c.on_device = k := hk
  have herase' : s.mempool_available_head.eraseIdx i = pre ++ post := herase
  refine ⟨pre, post, hsplit, hlen, hk', ?_⟩
  unfold internal_mempool_malloc
  rw [if_neg (Nat.pos_iff_ne_zero.mp hsize), hfind]
  simp only []
  rw [if_pos hk', herase']

/-- The acquire path when the search returns nothing. -/
theorem malloc_of_find_none (env : Env) {size : Nat} {k : Bool} {s : Pool}
    (hsize : 0 < size) (hfind : find_hit size k s.mempool_available_head = none) :
    internal_mempool_malloc env size k s =
      if env.malloc_ok s.trace then
        insert_and_resize env size k ⟨s.trace.length, 0, 0, k⟩ s.mempool_available_head
          s.mempool_allocated_head s.mempool_stats (s.trace ++ [Call.malloc s.trace.length])
      else .error Fault.chunk_null := by
  unfold internal_mempool_malloc
  rw [if_neg (Nat.pos_iff_ne_zero.mp hsize), hfind]

theorem malloc_zero (env : Env) (k : Bool) (s : Pool) :
    internal_mempool_malloc env 0 k s = .ok (0, s) := by
  simp [internal_mempool_malloc]

/-- The three ways a call of `internal_mempool_malloc` with `0 < size` returns:
a best fit reused as it is, a chunk of the kind grown, a new record. -/
theorem malloc_cases (env : Env) {size : Nat} {k : Bool} {s s' : Pool} {r : Nat}
    (hsize : 0 < size) (hok : internal_mempool_malloc env size k s = .ok (r, s')) :
    (∃ pre c post, s.mempool_available_head = pre ++ c :: post ∧ c.on_device = k ∧
      size ≤ c.size ∧
      (∀ d ∈ s.mempool_available_head, d.on_device = k → size ≤ d.size → c.size ≤ d.size) ∧
      r = c.mem ∧
      s' = ⟨pre ++ post, c :: s.mempool_allocated_head, s.mempool_stats, s.trace⟩) ∨
    (∃ pre c post, s.mempool_available_head = pre ++ c :: post ∧ c.on_device = k ∧
      c.size < size ∧ r ≠ 0 ∧
      r = env.alloc_mem (actual_free s.trace c.mem k) size k ∧
      s' = ⟨pre ++ post, ⟨c.id, r, size, k⟩ :: s.mempool_allocated_head,
        bump_stats env s.mempool_stats size c.size k,
        actual_free s.trace c.mem k ++ [Call.backend_alloc c.id size k r]⟩) ∨
    ((∀ c ∈ s.mempool_available_head, c.on_device ≠ k) ∧ r ≠ 0 ∧
      r = env.alloc_mem (s.trace ++ [Call.malloc s.trace.length]) size k ∧
      s' = ⟨s.mempool_available_head,
        ⟨s.trace.length, r, size, k⟩ :: s.mempool_allocated_head,
        bump_stats env s.mempool_stats size 0 k,
        s.trace ++ [Call.malloc s.trace.length, Call.backend_alloc s.trace.length size k r]⟩) := by
  cases hfind : find_hit size k s.mempool_available_head with
  | none =>
    have hno := find_hit_none_iff.mp hfind
    rw [malloc_of_find_none env hsize hfind] at hok
    cases hmal : env.malloc_ok s.trace with
    | false =>
      rw [hmal] at hok
      cases hok
    | true =>
      rw [hmal, if_pos rfl] at hok
      have hfree : actual_free (s.trace ++ [Call.malloc s.trace.length])
          (⟨s.trace.length, 0, 0, k⟩ : dbm_memchunk_t).mem
          (⟨s.trace.length, 0, 0, k⟩ : dbm_memchunk_t).on_device =
          s.trace ++ [Call.malloc s.trace.length] := by
        simp [actual_free]
      by_cases hm : env.alloc_mem (s.trace ++ [Call.malloc s.trace.length]) size k = 0
      · rw [insert_and_resize_null env k _ _ _ _ hsize (by rw [hfree]; exact hm)] at hok
        cases hok
      · rw [@insert_and_resize_grows env size k ⟨s.trace.length, 0, 0, k⟩ _ _ _ _ hsize _
          (by rw [hfree]) hm] at hok
        rw [hfree] at hok
        cases hok
        exact Or.inr (Or.inr ⟨hno, hm, rfl, by simp⟩)
  | some x =>
    obtain ⟨i, c⟩ := x
    obtain ⟨pre, post, hsplit, _, hk, hrun⟩ := malloc_of_find_some env hsize hfind
    rw [hrun] at hok
    have hc : c ∈ s.mempool_available_head := by rw [hsplit]; simp
    by_cases hlt : c.size < size
    · by_cases hm : env.alloc_mem (actual_free s.trace c.mem c.on_device) size c.on_device = 0
      · rw [insert_and_resize_null env k _ _ _ _ hlt hm] at hok
        cases hok
      · rw [insert_and_resize_grows env k _ _ _ _ hlt rfl hm] at hok
        cases hok
        subst hk
        exact Or.inr (Or.inl ⟨pre, c, post, hsplit, rfl, hlt, hm, rfl, rfl⟩)
    · have hle : size ≤ c.size := Nat.le_of_not_lt hlt
      rw [insert_and_resize_fits env k _ _ _ _ hle] at hok
      cases hok
      obtain ⟨y, hy, _, _, _, hmin⟩ := find_hit_of_fit ⟨c, hc, hk, hle⟩
      rw [hfind] at hy
      cases hy
      exact Or.inl ⟨pre, c, post, hsplit, hk, hle, hmin, rfl, rfl⟩

/-- The only assertions `internal_mempool_malloc` can stop in are the two on
the results of the outside allocators. -/
theorem malloc_fault (env : Env) {size : Nat} {k : Bool} {s : Pool} {e : Fault}
    (herr : internal_mempool_malloc env size k s = .error e) :
    e = Fault.memory_null ∨ e = Fault.chunk_null := by
  have hins : ∀ (c : dbm_memchunk_t) (av al : List dbm_memchunk_t) (st : dbm_memstats_t)
      (tr : List Call), insert_and_resize env size k c av al st tr = .error e →
      e = Fault.memory_null := by
    intro c av al st tr h
    by_cases hlt : c.size < size
    · by_cases hm : env.alloc_mem (actual_free tr c.mem c.on_device) size c.on_device = 0
      · rw [insert_and_resize_null env k _ _ _ _ hlt hm] at h
        cases h
        rfl
      · rw [insert_and_resize_grows env k _ _ _ _ hlt rfl hm] at h
        cases h
    · rw [insert_and_resize_fits env k _ _ _ _ (Nat.le_of_not_lt hlt)] at h
      cases h
  by_cases hsize : size = 0
  · subst hsize
    simp [internal_mempool_malloc] at herr
  · have hpos : 0 < size := Nat.pos_of_ne_zero hsize
    cases hfind : find_hit size k s.mempool_available_head with
    | none =>
      rw [malloc_of_find_none env hpos hfind] at herr
      cases hmal : env.malloc_ok s.trace with
      | false =>
        rw [hmal] at herr
        cases herr
        exact Or.inr rfl
      | true =>
        rw [hmal, if_pos rfl] at herr
        exact Or.inl (hins _ _ _ _ _ herr)
    | some x =>
      obtain ⟨i, c⟩ := x
      obtain ⟨pre, post, _, _, _, hrun⟩ := malloc_of_find_some env hpos hfind
      rw [hrun] at herr
      exact Or.inl (hins _ _ _ _ _ herr)

/-- With allocators that never return `NULL` an acquire always returns. -/
theorem malloc_total (env : Env) (hmal : ∀ tr, env.malloc_ok tr = true)
    (halloc : ∀ tr size k, env.alloc_mem tr size k ≠ 0) (size : Nat) (k : Bool) (s : Pool) :
    ∃ r s', internal_mempool_malloc env size k s = .ok (r, s') := by
  by_cases hsize : size = 0
  · subst hsize
    exact ⟨0, s, malloc_zero env k s⟩
  · have hpos : 0 < size := Nat.pos_of_ne_zero hsize
    have hins : ∀ (c : dbm_memchunk_t) (av al : List dbm_memchunk_t) (st : dbm_memstats_t)
        (tr : List Call), ∃ r s', insert_and_resize env size k c av al st tr = .ok (r, s') := by
      intro c av al st tr
      by_cases hlt : c.size < size
      · exact ⟨_, _, insert_and_resize_grows env k _ _ _ _ hlt rfl (halloc _ _ _)⟩
      · exact ⟨_, _, insert_and_resize_fits env k _ _ _ _ (Nat.le_of_not_lt hlt)⟩
    cases hfind : find_hit size k s.mempool_available_head with
    | none =>
      rw [malloc_of_find_none env hpos hfind, hmal, if_pos rfl]
      exact hins _ _ _ _ _
    | some x =>
      obtain ⟨i, c⟩ := x
      obtain ⟨pre, post, _, _, _, hrun⟩ := malloc_of_find_some env hpos hfind
      rw [hrun]
      exact hins _ _ _ _ _

/-- A successful acquire that found a chunk in the available list keeps the
number of chunk records. -/
theorem num_chunks_of_find_some (env : Env) {size : Nat} {k : Bool} {s : Pool}
    (hsize : 0 < size) {x : Nat × dbm_memchunk_t}
    (hfind : find_hit size k s.mempool_available_head = some x) :
    internal_mempool_malloc env size k s ≠ .error Fault.chunk_null ∧
    ∀ r s', internal_mempool_malloc env size k s = .ok (r, s') →
      s'.num_chunks = s.num_chunks ∧
      ∀ id, Call.malloc id ∈ s'.trace → Call.malloc id ∈ s.trace := by
  obtain ⟨i, c⟩ := x
  obtain ⟨pre, post, hsplit, _, hk, hrun⟩ := malloc_of_find_some env hsize hfind
  have hlen : (pre ++ post).length + (s.mempool_allocated_head.length + 1) = s.num_chunks := by
    simp [Pool.num_chunks, hsplit]
    omega
  rw [hrun]
  by_cases hlt : c.size < size
  · by_cases hm : env.alloc_mem (actual_free s.trace c.mem c.on_device) size c.on_device = 0
    · rw [insert_and_resize_null env k _ _ _ _ hlt hm]
      refine ⟨(by intro h; cases h), ?_⟩
      intro r s' h
      cases h
    · rw [insert_and_resize_grows env k _ _ _ _ hlt rfl hm]
      refine ⟨(by intro h; cases h), ?_⟩
      intro r s' h
      cases h
      refine ⟨hlen, ?_⟩
      intro id hid
      simp only [List.mem_append, List.mem_singleton] at hid
      rcases hid with hid | hid
      · unfold actual_free at hid
        split at hid
        · exact hid
        · simp only [List.mem_append, List.mem_singleton] at hid
          rcases hid with hid | hid
          · exact hid
          · cases hid
      · cases hid
  · rw [insert_and_resize_fits env k _ _ _ _ (Nat.le_of_not_lt hlt)]
    refine ⟨(by intro h; cases h), ?_⟩
    intro r s' h
    cases h
    exact ⟨hlen, fun id hid => hid⟩

/-! ## The release path -/

theorem find_chunk_found (mem : Nat) :
    ∀ l : List dbm_memchunk_t, (∃ c ∈ l, c.mem = mem) →
      ∃ pre c post, l = pre ++ c :: post ∧ c.mem = mem ∧ (∀ d ∈ pre, d.mem ≠ mem) ∧
        find_chunk mem l = pre.length := by
  intro l
  induction l with
  | nil => rintro ⟨c, hc, _⟩; cases hc
  | cons a l ih =>
    intro hex
    by_cases ha : a.mem = mem
    · refine ⟨[], a, l, rfl, ha, ?_, ?_⟩
      · intro d hd; cases hd
      · simp [find_chunk, ha]
    · have hex' : ∃ c ∈ l, c.mem = mem := by
        obtain ⟨c, hc, hm⟩ := hex
        rcases List.mem_cons.mp hc with hc | hc
        · subst hc; exact absurd hm ha
        · exact ⟨c, hc, hm⟩
      obtain ⟨pre, c, post, h1, h2, h3, h4⟩ := ih hex'
      refine ⟨a :: pre, c, post, by rw [h1]; rfl, h2, ?_, ?_⟩
      · intro d hd
        rcases List.mem_cons.mp hd with hd | hd
        · subst hd; exact ha
        · exact h3 d hd
      · simp [find_chunk, ha, h4]

theorem find_chunk_missing (mem : Nat) :
    ∀ l : List dbm_memchunk_t, (∀ c ∈ l, c.mem ≠ mem) → find_chunk mem l = l.length := by
  intro l
  induction l with
  | nil => intro _; rfl
  | cons a l ih =>
    intro h
    have ha : a.mem ≠ mem := h a (List.mem_cons_self a l)
    simp [find_chunk, ha, ih (fun c hc => h c (List.mem_cons_of_mem a hc))]

/-- The release of an address held by the chunk `c` of the allocated list, the
first one to hold it. -/
theorem free_found {mem : Nat} {s : Pool} (hmem : mem ≠ 0) {pre post : List dbm_memchunk_t}
    {c : dbm_memchunk_t} (hsplit : s.mempool_allocated_head = pre ++ c :: post)
    (hc : c.mem = mem) (hpre : ∀ d ∈ pre, d.mem ≠ mem) :
    dbm_mempool_free mem s =
      .ok ⟨c :: s.mempool_available_head, pre ++ post, s.mempool_stats, s.trace⟩ := by
  have hidx : find_chunk mem s.mempool_allocated_head = pre.length := by
    obtain ⟨pre', c', post', h1, h2, h3, h4⟩ :=
      find_chunk_found mem s.mempool_allocated_head ⟨c, by rw [hsplit]; simp, hc⟩
    rw [h4]
    rw [hsplit] at h1
    by_contra hne
    rcases Nat.lt_or_gt_of_ne hne with hlt | hgt
    · have h5 : (pre ++ c :: post)[pre'.length]? = some c' := by
        rw [h1]; exact getElem?_split pre' post' c'
      rw [List.getElem?_append_left hlt] at h5
      exact hpre c' (List.getElem?_mem h5) h2
    · have h5 : (pre' ++ c' :: post')[pre.length]? = some c := by
        rw [← h1]; exact getElem?_split pre post c
      rw [List.getElem?_append_left hgt] at h5
      exact h3 c (List.getElem?_mem h5) hc
  unfold dbm_mempool_free
  rw [if_neg hmem]
  simp only [hidx]
  rw [hsplit, getElem?_split, eraseIdx_split]
  simp [hc]

/-- The release of an address that no chunk of the allocated list holds. -/
theorem free_missing {mem : Nat} {s : Pool} (hmem : mem ≠ 0)
    (hno : ∀ c ∈ s.mempool_allocated_head, c.mem ≠ mem) :
    dbm_mempool_free mem s = .error Fault.unknown_address := by
  unfold dbm_mempool_free
  rw [if_neg hmem]
  simp only [find_chunk_missing mem _ hno]
  rw [List.getElem?_eq_none (Nat.le_refl _)]

/-- The two ways `dbm_mempool_free` returns. -/
theorem free_cases {mem : Nat} {s s' : Pool} (hok : dbm_mempool_free mem s = .ok s') :
    (mem = 0 ∧ s' = s) ∨
    (mem ≠ 0 ∧ ∃ pre c post, s.mempool_allocated_head = pre ++ c :: post ∧ c.mem = mem ∧
      (∀ d ∈ pre, d.mem ≠ mem) ∧
      s' = ⟨c :: s.mempool_available_head, pre ++ post, s.mempool_stats, s.trace⟩) := by
  by_cases hmem : mem = 0
  · subst hmem
    have : dbm_mempool_free 0 s = .ok s := by simp [dbm_mempool_free]
    rw [this] at hok
    cases hok
    exact Or.inl ⟨rfl, rfl⟩
  · by_cases hheld : ∃ c ∈ s.mempool_allocated_head, c.mem = mem
    · obtain ⟨pre, c, post, h1, h2, h3, _⟩ := find_chunk_found mem s.mempool_allocated_head hheld
      rw [free_found hmem h1 h2 h3] at hok
      cases hok
      exact Or.inr ⟨hmem, pre, c, post, h1, h2, h3, rfl⟩
    · rw [free_missing hmem (fun c hc hm => hheld ⟨c, hc, hm⟩)] at hok
      cases hok

/-- A chunk `c` just lent out, released at once and asked for again with the
same request, is lent out again and the state is the one after the first
acquire. -/
theorem reacquire (env : Env) {size : Nat} {k : Bool} {c : dbm_memchunk_t}
    (av al : List dbm_memchunk_t) (st : dbm_memstats_t) (tr : List Call)
    (hsize : 0 < size) (hmem : c.mem ≠ 0) (hk : c.on_device = k) (hle : size ≤ c.size)
    (hmin : ∀ d ∈ av, d.on_device = k → size ≤ d.size → c.size ≤ d.size) :
    dbm_mempool_free c.mem ⟨av, c :: al, st, tr⟩ = .ok ⟨c :: av, al, st, tr⟩ ∧
    internal_mempool_malloc env size k ⟨c :: av, al, st, tr⟩ =
      .ok (c.mem, ⟨av, c :: al, st, tr⟩) := by
  constructor
  · have := @free_found c.mem ⟨av, c :: al, st, tr⟩ hmem [] al c rfl rfl
      (by intro d hd; cases hd)
    simpa using this
  · have hfind : find_hit size k (c :: av) = some (0, c) := find_hit_head hk hle hmin
    obtain ⟨pre, post, hsplit, hlen, _, hrun⟩ :=
      @malloc_of_find_some env size k ⟨c :: av, al, st, tr⟩ hsize 0 c hfind
    have hpre : pre = [] := List.length_eq_zero.mp hlen
    subst hpre
    have hpost : post = av := by
      have : c :: av = c :: post := hsplit
      exact (List.cons.inj this).2.symm
    subst hpost
    rw [hrun, insert_and_resize_fits env k _ _ _ _ hle]
    rfl

/-! ## Teardown -/

/-- The one way `dbm_mempool_clear` returns. -/
theorem clear_cases {n : Nat} {s s' : Pool} (hok : dbm_mempool_clear n s = .ok s') :
    n = 1 ∧ s.mempool_allocated_head = [] ∧
      s' = ⟨[], [], s.mempool_stats, free_chunks s.mempool_available_head s.trace⟩ := by
  unfold dbm_mempool_clear at hok
  by_cases hn : n = 1
  · rw [if_neg (not_not.mpr hn)] at hok
    cases hl : s.mempool_allocated_head with
    | nil =>
      rw [hl] at hok
      cases hok
      exact ⟨hn, rfl, rfl⟩
    | cons a l =>
      rw [hl] at hok
      cases hok
  · rw [if_pos hn] at hok
    cases hok

/-! ## The chunks of the pool across a call -/

theorem perm_move {α : Type} (pre post rest : List α) (a : α) :
    ((pre ++ post) ++ a :: rest).Perm ((pre ++ a :: post) ++ rest) := by
  have h1 : ((pre ++ post) ++ a :: rest).Perm (a :: ((pre ++ post) ++ rest)) := List.perm_middle
  have h2 : ((pre ++ a :: post) ++ rest).Perm (a :: ((pre ++ post) ++ rest)) := by
    have : (pre ++ a :: post) ++ rest = pre ++ a :: (post ++ rest) := by simp
    rw [this, List.append_assoc]
    exact List.perm_middle
  exact h1.trans h2.symm

theorem perm_move_back {α : Type} (av pre post : List α) (a : α) :
    ((a :: av) ++ (pre ++ post)).Perm (av ++ (pre ++ a :: post)) := by
  have h2 : (av ++ (pre ++ a :: post)).Perm (a :: (av ++ (pre ++ post))) := by
    have : av ++ (pre ++ a :: post) = (av ++ pre) ++ a :: post := by simp
    rw [this]
    have h3 : ((av ++ pre) ++ a :: post).Perm (a :: ((av ++ pre) ++ post)) := List.perm_middle
    simpa using h3
  exact h2.symm

/-- An acquire keeps every record with its kind and adds at most one record, of
the requested kind. -/
theorem malloc_kinds (env : Env) {size : Nat} {k : Bool} {s s' : Pool} {r : Nat}
    (hok : internal_mempool_malloc env size k s = .ok (r, s')) :
    s'.kinds.Perm s.kinds ∨ s'.kinds.Perm ((s.trace.length, k) :: s.kinds) := by
  by_cases hsize : size = 0
  · subst hsize
    simp [internal_mempool_malloc] at hok
    rw [hok.2]
    exact Or.inl (List.Perm.refl _)
  · rcases malloc_cases env (Nat.pos_of_ne_zero hsize) hok with
      ⟨pre, c, post, hsplit, _, _, _, _, rfl⟩ | ⟨pre, c, post, hsplit, hk, _, _, _, rfl⟩ |
      ⟨_, _, _, rfl⟩
    · left
      unfold Pool.kinds
      rw [hsplit]
      exact (perm_move pre post s.mempool_allocated_head c).map _
    · left
      unfold Pool.kinds
      rw [hsplit]
      have := (perm_move pre post s.mempool_allocated_head c).map
        (fun c : dbm_memchunk_t => (c.id, c.on_device))
      simpa [hk] using this
    · right
      unfold Pool.kinds
      have : (s.mempool_available_head ++
          (⟨s.trace.length, r, size, k⟩ : dbm_memchunk_t) :: s.mempool_allocated_head).Perm
          ((⟨s.trace.length, r, size, k⟩ : dbm_memchunk_t) ::
            (s.mempool_available_head ++ s.mempool_allocated_head)) := List.perm_middle
      exact this.map _

/-- What an acquire with `0 < size` that returns does to the chunks and to the
log: nothing but a move, or one chunk regrown, or one record added. -/
theorem malloc_chunks (env : Env) {size : Nat} {k : Bool} {s s' : Pool} {r : Nat}
    (hsize : 0 < size) (hok : internal_mempool_malloc env size k s = .ok (r, s')) :
    (s'.chunks.Perm s.chunks ∧ s'.trace = s.trace) ∨
    (∃ c rest, s.chunks.Perm (c :: rest) ∧
      s'.chunks.Perm ((⟨c.id, r, size, k⟩ : dbm_memchunk_t) :: rest) ∧ r ≠ 0 ∧
      r = env.alloc_mem (actual_free s.trace c.mem k) size k ∧
      s'.trace = actual_free s.trace c.mem k ++ [Call.backend_alloc c.id size k r]) ∨
    (s'.chunks.Perm ((⟨s.trace.length, r, size, k⟩ : dbm_memchunk_t) :: s.chunks) ∧ r ≠ 0 ∧
      r = env.alloc_mem (s.trace ++ [Call.malloc s.trace.length]) size k ∧
      s'.trace = s.trace ++
        [Call.malloc s.trace.length, Call.backend_alloc s.trace.length size k r]) := by
  rcases malloc_cases env hsize hok with
    ⟨pre, c, post, hsplit, _, _, _, _, rfl⟩ | ⟨pre, c, post, hsplit, _, _, hne, hr, rfl⟩ |
    ⟨_, hne, hr, rfl⟩
  · left
    refine ⟨?_, rfl⟩
    unfold Pool.chunks
    rw [hsplit]
    exact perm_move pre post s.mempool_allocated_head c
  · right; left
    refine ⟨c, pre ++ post ++ s.mempool_allocated_head, ?_, ?_, hne, hr, rfl⟩
    · unfold Pool.chunks
      rw [hsplit]
      have : (pre ++ c :: post) ++ s.mempool_allocated_head =
          pre ++ c :: (post ++ s.mempool_allocated_head) := by simp
      rw [this, List.append_assoc]
      exact List.perm_middle
    · unfold Pool.chunks
      exact List.perm_middle
  · right; right
    refine ⟨?_, hne, hr, rfl⟩
    unfold Pool.chunks
    exact List.perm_middle

/-- A release that returns only moves a chunk. -/
theorem free_chunks_perm {mem : Nat} {s s' : Pool} (hok : dbm_mempool_free mem s = .ok s') :
    s'.chunks.Perm s.chunks ∧ s'.trace = s.trace := by
  rcases free_cases hok with ⟨_, rfl⟩ | ⟨_, pre, c, post, hsplit, _, _, rfl⟩
  · exact ⟨List.Perm.refl _, rfl⟩
  · refine ⟨?_, rfl⟩
    unfold Pool.chunks
    rw [hsplit]
    exact perm_move_back s.mempool_available_head pre post c

/-! ## Sequences of calls -/

/-- The ways one call of the interface returns. -/
theorem step_cases {env : Env} {op : Op} {s s' : Pool} (hok : step env op s = .ok s') :
    (∃ size k r, op = Op.acquire size k ∧ internal_mempool_malloc env size k s = .ok (r, s')) ∨
    (∃ mem, op = Op.release mem ∧ dbm_mempool_free mem s = .ok s') ∨
    (∃ n, op = Op.drain n ∧ dbm_mempool_clear n s = .ok s') := by
  cases op with
  | acquire size k =>
    left
    simp only [step] at hok
    cases hm : internal_mempool_malloc env size k s with
    | error e =>
      rw [hm] at hok
      cases hok
    | ok v =>
      obtain ⟨r, t⟩ := v
      rw [hm] at hok
      simp only [Except.ok.injEq] at hok
      subst hok
      exact ⟨size, k, r, rfl, hm⟩
  | release mem => exact Or.inr (Or.inl ⟨mem, rfl, hok⟩)
  | drain n => exact Or.inr (Or.inr ⟨n, rfl, hok⟩)

/-- A property that every call keeps holds after every sequence of calls. -/
theorem run_invariant (env : Env) (P : Pool → Prop)
    (hstep : ∀ op s s', P s → step env op s = .ok s' → P s') :
    ∀ ops s s', P s → run env ops s = .ok s' → P s' := by
  intro ops
  induction ops with
  | nil =>
    intro s s' hs hrun
    simp only [run, Except.ok.injEq] at hrun
    subst hrun
    exact hs
  | cons op ops ih =>
    intro s s' hs hrun
    unfold run at hrun
    cases hst : step env op s with
    | error e =>
      rw [hst] at hrun
      cases hrun
    | ok t =>
      rw [hst] at hrun
      exact ih t s' (hstep op s t hs hst) hrun

/-- A state reached from a reachable state by one more acquire. -/
theorem reachable_acquire {env : Env} {s s' : Pool} {size r : Nat} {k : Bool}
    (h : Reachable env s) (hok : internal_mempool_malloc env size k s = .ok (r, s')) :
    Reachable env s' := by
  obtain ⟨ops, hrun⟩ := h
  refine ⟨ops ++ [Op.acquire size k], ?_⟩
  have happ : ∀ (l : List Op) (a b : Pool), run env l a = .ok b →
      run env (l ++ [Op.acquire size k]) a = run env [Op.acquire size k] b := by
    intro l
    induction l with
    | nil =>
      intro a b hab
      simp only [run, Except.ok.injEq] at hab
      subst hab
      rfl
    | cons op l ih =>
      intro a b hab
      simp only [List.cons_append, run] at hab ⊢
      cases hst : step env op a with
      | error e =>
        rw [hst] at hab
        cases hab
      | ok t =>
        rw [hst] at hab
        simp only
        exact ih t b hab
  rw [happ ops Pool.initial s hrun]
  simp [run, step, hok]

/-- A release or a teardown never lends a chunk out: an address held by no
lent chunk stays so. -/
theorem not_held_run (env : Env) (p : Nat) :
    ∀ (ops : List Op) (s s' : Pool), (∀ op ∈ ops, op.is_acquire = false) →
      (∀ c ∈ s.mempool_allocated_head, c.mem ≠ p) → run env ops s = .ok s' →
      ∀ c ∈ s'.mempool_allocated_head, c.mem ≠ p := by
  intro ops
  induction ops with
  | nil =>
    intro s s' _ hs hrun
    simp only [run, Except.ok.injEq] at hrun
    subst hrun
    exact hs
  | cons op ops ih =>
    intro s s' hops hs hrun
    unfold run at hrun
    cases hst : step env op s with
    | error e =>
      rw [hst] at hrun
      cases hrun
    | ok t =>
      rw [hst] at hrun
      refine ih t s' (fun o ho => hops o (List.mem_cons_of_mem _ ho)) ?_ hrun
      rcases step_cases hst with ⟨size, k, r, hop, _⟩ | ⟨mem, _, hf⟩ | ⟨n, _, hc⟩
      · have := hops op (List.mem_cons_self _ _)
        rw [hop] at this
        cases this
      · rcases free_cases hf with ⟨_, rfl⟩ | ⟨_, pre, c, post, hsplit, _, _, rfl⟩
        · exact hs
        · intro d hd
          apply hs d
          rw [hsplit]
          rcases List.mem_append.mp hd with hd | hd
          · exact List.mem_append_left _ hd
          · exact List.mem_append_right _ (List.mem_cons_of_mem _ hd)
      · obtain ⟨_, _, rfl⟩ := clear_cases hc
        intro d hd
        cases hd

/-! ## Invariants of the reachable states -/

theorem nonNull_step (env : Env) (op : Op) (s s' : Pool) (h : NonNull s)
    (hok : step env op s = .ok s') : NonNull s' := by
  rcases step_cases hok with ⟨size, k, r, _, hm⟩ | ⟨mem, _, hf⟩ | ⟨n, _, hc⟩
  · by_cases hsize : size = 0
    · subst hsize
      rw [malloc_zero] at hm
      cases hm
      exact h
    · rcases malloc_chunks env (Nat.pos_of_ne_zero hsize) hm with
        ⟨hp, _⟩ | ⟨c, rest, hp, hp', hne, _, _⟩ | ⟨hp', hne, _, _⟩
      · intro d hd
        exact h d (hp.mem_iff.mp hd)
      · intro d hd
        rcases List.mem_cons.mp (hp'.mem_iff.mp hd) with hd | hd
        · subst hd; exact hne
        · exact h d (hp.mem_iff.mpr (List.mem_cons_of_mem _ hd))
      · intro d hd
        rcases List.mem_cons.mp (hp'.mem_iff.mp hd) with hd | hd
        · subst hd; exact hne
        · exact h d hd
  · intro d hd
    exact h d ((free_chunks_perm hf).1.mem_iff.mp hd)
  · obtain ⟨_, _, rfl⟩ := clear_cases hc
    intro d hd
    cases hd

/-- Every chunk of a reachable state has a non-null address. -/
theorem reachable_nonnull {env : Env} {s : Pool} (h : Reachable env s) : NonNull s := by
  obtain ⟨ops, hrun⟩ := h
  exact run_invariant env NonNull (nonNull_step env) ops Pool.initial s
    (by intro c hc; cases hc) hrun

theorem last_alloc_snoc (id : Nat) (tr : List Call) (e : Call) :
    last_alloc id (tr ++ [e]) = last_alloc_step id (last_alloc id tr) e := by
  simp [last_alloc, List.foldl_append]

theorem last_alloc_actual_free (id : Nat) (tr : List Call) (m : Nat) (k : Bool) :
    last_alloc id (actual_free tr m k) = last_alloc id tr := by
  unfold actual_free
  split
  · rfl
  · rw [last_alloc_snoc]
    rfl

theorem length_actual_free (tr : List Call) (m : Nat) (k : Bool) :
    tr.length ≤ (actual_free tr m k).length := by
  unfold actual_free
  split
  · exact Nat.le_refl _
  · simp

theorem backed_step (env : Env) (op : Op) (s s' : Pool) (h : Backed s)
    (hok : step env op s = .ok s') : Backed s' := by
  obtain ⟨hnd, hall⟩ := h
  have hperm : ∀ t : Pool, t.chunks.Perm s.chunks → t.trace = s.trace → Backed t := by
    intro t hp ht
    refine ⟨(hp.map _).nodup_iff.mpr hnd, ?_⟩
    intro d hd
    rw [ht]
    exact hall d (hp.mem_iff.mp hd)
  rcases step_cases hok with ⟨size, k, r, _, hm⟩ | ⟨mem, _, hf⟩ | ⟨n, _, hc⟩
  · by_cases hsize : size = 0
    · subst hsize
      rw [malloc_zero] at hm
      cases hm
      exact ⟨hnd, hall⟩
    · rcases malloc_chunks env (Nat.pos_of_ne_zero hsize) hm with
        ⟨hp, ht⟩ | ⟨c, rest, hp, hp', _, _, ht⟩ | ⟨hp', _, _, ht⟩
      · exact hperm s' hp ht
      · have hnd1 : (c.id :: rest.map fun c => c.id).Nodup := by
          have := (hp.map fun c : dbm_memchunk_t => c.id).nodup_iff.mp hnd
          simpa using this
        refine ⟨?_, ?_⟩
        · have := (hp'.map fun c : dbm_memchunk_t => c.id).nodup_iff.mpr
            (by simpa using hnd1)
          exact this
        · intro d hd
          rw [ht]
          rcases List.mem_cons.mp (hp'.mem_iff.mp hd) with hd | hd
          · subst hd
            have hc := (hall c (hp.mem_iff.mpr (List.mem_cons_self _ _))).1
            refine ⟨?_, ?_⟩
            · have := length_actual_free s.trace c.mem k
              simp only [List.length_append, List.length_singleton]
              omega
            · rw [last_alloc_snoc]
              simp [last_alloc_step]
          · have hds := hall d (hp.mem_iff.mpr (List.mem_cons_of_mem _ hd))
            have hne : c.id ≠ d.id := by
              intro heq
              have hmem : d.id ∈ rest.map fun c => c.id := List.mem_map_of_mem _ hd
              rw [← heq] at hmem
              exact (List.nodup_cons.mp hnd1).1 hmem
            refine ⟨?_, ?_⟩
            · have := length_actual_free s.trace c.mem k
              simp only [List.length_append, List.length_singleton]
              omega
            · rw [last_alloc_snoc, last_alloc_actual_free]
              simp only [last_alloc_step, if_neg hne]
              exact hds.2
      · have hfreshid : s.trace.length ∉ s.chunks.map fun c => c.id := by
          intro hmem
          obtain ⟨d, hd, hid⟩ := List.mem_map.mp hmem
          have := (hall d hd).1
          omega
        refine ⟨?_, ?_⟩
        · have := (hp'.map fun c : dbm_memchunk_t => c.id).nodup_iff.mpr
            (by simpa using List.nodup_cons.mpr ⟨hfreshid, hnd⟩)
          exact this
        · intro d hd
          rw [ht]
          have happ : s.trace ++ [Call.malloc s.trace.length,
              Call.backend_alloc s.trace.length size k r] =
              (s.trace ++ [Call.malloc s.trace.length]) ++
                [Call.backend_alloc s.trace.length size k r] := by simp
          rcases List.mem_cons.mp (hp'.mem_iff.mp hd) with hd | hd
          · subst hd
            refine ⟨by simp, ?_⟩
            rw [happ, last_alloc_snoc]
            simp [last_alloc_step]
          · have hds := hall d hd
            have hne : s.trace.length ≠ d.id := by omega
            refine ⟨by simp; omega, ?_⟩
            rw [happ, last_alloc_snoc, last_alloc_snoc]
            simp only [last_alloc_step, if_neg hne]
            exact hds.2
  · obtain ⟨hp, ht⟩ := free_chunks_perm hf
    exact hperm s' hp ht
  · obtain ⟨_, _, rfl⟩ := clear_cases hc
    refine ⟨by simp [Pool.chunks], ?_⟩
    intro d hd
    cases hd

/-- In a reachable state the size and the address of every chunk are those of
the last backend allocation made for it. -/
theorem reachable_backed {env : Env} {s : Pool} (h : Reachable env s) : Backed s := by
  obtain ⟨ops, hrun⟩ := h
  refine run_invariant env Backed (backed_step env) ops Pool.initial s ?_ hrun
  refine ⟨by simp [Pool.chunks, Pool.initial], ?_⟩
  intro c hc
  cases hc

theorem live_regions_snoc (tr : List Call) (e : Call) :
    live_regions (tr ++ [e]) = live_step (live_regions tr) e := by
  simp [live_regions, List.foldl_append]

theorem live_regions_actual_free (tr : List Call) {m : Nat} (k : Bool) (hm : m ≠ 0) :
    live_regions (actual_free tr m k) = (live_regions tr).erase m := by
  unfold actual_free
  rw [if_neg hm, live_regions_snoc]
  rfl

/-- The teardown loop releases the regions of the chunks it walks over. -/
theorem live_regions_free_chunks :
    ∀ (l : List dbm_memchunk_t) (tr : List Call) (others : List Nat),
      (∀ c ∈ l, c.mem ≠ 0) →
      (live_regions tr).Perm ((l.map fun c => c.mem) ++ others) →
      (live_regions (free_chunks l tr)).Perm others := by
  intro l
  induction l with
  | nil =>
    intro tr others _ hp
    simpa [free_chunks] using hp
  | cons c l ih =>
    intro tr others hne hp
    unfold free_chunks
    apply ih _ others (fun d hd => hne d (List.mem_cons_of_mem _ hd))
    rw [live_regions_snoc]
    show (live_regions (actual_free tr c.mem c.on_device)).Perm _
    rw [live_regions_actual_free tr c.on_device (hne c (List.mem_cons_self _ _))]
    have := hp.erase c.mem
    simpa using this

theorem owned_step (env : Env) (hfresh : FreshBackend env) (op : Op) (s s' : Pool)
    (hn : NonNull s) (h : Owned s) (hok : step env op s = .ok s') : Owned s' := by
  obtain ⟨hlive, hnd⟩ := h
  have hperm : ∀ t : Pool, t.chunks.Perm s.chunks → t.trace = s.trace → Owned t := by
    intro t hp ht
    refine ⟨?_, (hp.map _).nodup_iff.mpr hnd⟩
    rw [ht]
    exact hlive.trans (hp.map _).symm
  rcases step_cases hok with ⟨size, k, r, _, hm⟩ | ⟨mem, _, hf⟩ | ⟨n, _, hc⟩
  · by_cases hsize : size = 0
    · subst hsize
      rw [malloc_zero] at hm
      cases hm
      exact ⟨hlive, hnd⟩
    · rcases malloc_chunks env (Nat.pos_of_ne_zero hsize) hm with
        ⟨hp, ht⟩ | ⟨c, rest, hp, hp', _, hr, ht⟩ | ⟨hp', _, hr, ht⟩
      · exact hperm s' hp ht
      · have hcne : c.mem ≠ 0 := hn c (hp.mem_iff.mpr (List.mem_cons_self _ _))
        have hmems : (s.chunks.map fun c => c.mem).Perm (c.mem :: rest.map fun c => c.mem) := by
          simpa using hp.map fun c : dbm_memchunk_t => c.mem
        have hnd1 : (c.mem :: rest.map fun c => c.mem).Nodup := hmems.nodup_iff.mp hnd
        have hfreed : (live_regions (actual_free s.trace c.mem k)).Perm
            (rest.map fun c => c.mem) := by
          rw [live_regions_actual_free s.trace k hcne]
          have := (hlive.trans hmems).erase c.mem
          simpa using this
        have hrnew : r ∉ rest.map fun c => c.mem := by
          intro hmem
          apply hfresh (actual_free s.trace c.mem k) size k
          rw [← hr]
          exact hfreed.mem_iff.mpr hmem
        have hmems' : (s'.chunks.map fun c => c.mem).Perm (r :: rest.map fun c => c.mem) := by
          simpa using hp'.map fun c : dbm_memchunk_t => c.mem
        refine ⟨?_, hmems'.nodup_iff.mpr (List.nodup_cons.mpr ⟨hrnew, (List.nodup_cons.mp hnd1).2⟩)⟩
        rw [ht, live_regions_snoc]
        exact (List.Perm.cons r hfreed).trans hmems'.symm
      · have hlive1 : live_regions (s.trace ++ [Call.malloc s.trace.length]) =
            live_regions s.trace := by
          rw [live_regions_snoc]
          rfl
        have hrnew : r ∉ s.chunks.map fun c => c.mem := by
          intro hmem
          apply hfresh (s.trace ++ [Call.malloc s.trace.length]) size k
          rw [← hr, hlive1]
          exact hlive.mem_iff.mpr hmem
        have hmems' : (s'.chunks.map fun c => c.mem).Perm (r :: s.chunks.map fun c => c.mem) := by
          simpa using hp'.map fun c : dbm_memchunk_t => c.mem
        refine ⟨?_, hmems'.nodup_iff.mpr (List.nodup_cons.mpr ⟨hrnew, hnd⟩)⟩
        have happ : s.trace ++ [Call.malloc s.trace.length,
            Call.backend_alloc s.trace.length size k r] =
            (s.trace ++ [Call.malloc s.trace.length]) ++
              [Call.backend_alloc s.trace.length size k r] := by simp
        rw [ht, happ, live_regions_snoc, hlive1]
        exact (List.Perm.cons r hlive).trans hmems'.symm
  · obtain ⟨hp, ht⟩ := free_chunks_perm hf
    exact hperm s' hp ht
  · obtain ⟨_, hal, rfl⟩ := clear_cases hc
    refine ⟨?_, by simp [Pool.chunks]⟩
    have hch : s.chunks = s.mempool_available_head := by
      unfold Pool.chunks
      rw [hal, List.append_nil]
    have := live_regions_free_chunks s.mempool_available_head s.trace []
      (fun c hc => hn c (by rw [hch]; exact hc)) (by simpa [hch] using hlive)
    simpa [Pool.chunks] using this

/-- With a system allocator that never returns a region still in use, the
regions in use are the addresses of the chunks of a reachable state, and no two
chunks share an address. -/
theorem reachable_owned {env : Env} (hfresh : FreshBackend env) {s : Pool}
    (h : Reachable env s) : Owned s := by
  obtain ⟨ops, hrun⟩ := h
  have := run_invariant env (fun t => NonNull t ∧ Owned t)
    (fun op t t' ht hst => ⟨nonNull_step env op t t' ht.1 hst,
      owned_step env hfresh op t t' ht.1 ht.2 hst⟩)
    ops Pool.initial s
    ⟨(by intro c hc; cases hc), (by simp [Owned, Pool.chunks, Pool.initial, live_regions])⟩ hrun
  exact this.2

theorem live_regions_le_sum (tr : List Call) :
    ∀ m ∈ live_regions tr, m ≤ (tr.map returned_address).sum := by
  induction tr using List.reverseRecOn with
  | nil =>
    intro m hm
    cases hm
  | append_singleton l e ih =>
    intro m hm
    rw [live_regions_snoc] at hm
    have hsum : ((l ++ [e]).map returned_address).sum =
        (l.map returned_address).sum + returned_address e := by simp
    rw [hsum]
    cases e with
    | malloc c => exact Nat.le_trans (ih m hm) (Nat.le_add_right _ _)
    | free c => exact Nat.le_trans (ih m hm) (Nat.le_add_right _ _)
    | backend_alloc c sz k a =>
      rcases List.mem_cons.mp hm with hm | hm
      · subst hm
        exact Nat.le_add_left _ _
      · exact Nat.le_trans (ih m hm) (Nat.le_add_right _ _)
    | backend_free a k =>
      exact Nat.le_trans (ih m (List.mem_of_mem_erase hm)) (Nat.le_add_right _ _)

/-- The allocator of `demo_env` never returns a region still in use. -/
theorem demo_env_fresh : FreshBackend demo_env := by
  intro tr size k hmem
  have := live_regions_le_sum tr _ hmem
  simp only [demo_env] at this
  omega

/-! ## The calls of the teardown -/

theorem actual_free_eq_append (tr : List Call) (m : Nat) (k : Bool) :
    actual_free tr m k = tr ++ actual_free [] m k := by
  unfold actual_free
  split <;> simp

/-- The teardown loop appends `teardown_calls` to the log. -/
theorem free_chunks_eq_append :
    ∀ (l : List dbm_memchunk_t) (tr : List Call), free_chunks l tr = tr ++ teardown_calls l := by
  intro l
  induction l with
  | nil => intro tr; simp [free_chunks, teardown_calls]
  | cons c l ih =>
    intro tr
    unfold free_chunks teardown_calls
    rw [ih, actual_free_eq_append tr]
    simp

theorem backend_frees_append (a b : List Call) :
    backend_frees (a ++ b) = backend_frees a ++ backend_frees b := by
  induction a with
  | nil => rfl
  | cons e a ih =>
    cases e <;> simp [backend_frees, ih]

theorem backend_frees_teardown (l : List dbm_memchunk_t) :
    backend_frees (teardown_calls l) =
      (l.filter fun c => decide (c.mem ≠ 0)).map fun c => (c.mem, c.on_device) := by
  induction l with
  | nil => rfl
  | cons c l ih =>
    unfold teardown_calls
    rw [backend_frees_append]
    by_cases hm : c.mem = 0
    · simp [actual_free, hm, backend_frees, ih]
    · simp [actual_free, hm, backend_frees, ih]

theorem alloc_count_teardown (K : Bool) (l : List dbm_memchunk_t) :
    alloc_count K (teardown_calls l) = 0 := by
  induction l with
  | nil => rfl
  | cons c l ih =>
    unfold alloc_count at ih ⊢
    unfold teardown_calls
    by_cases hm : c.mem = 0
    · simp [actual_free, hm, is_alloc_of, ih]
    · simp [actual_free, hm, is_alloc_of, ih]

/-! ## The counters along a sequence of calls -/

theorem alloc_count_snoc (K : Bool) (tr : List Call) (e : Call) :
    alloc_count K (tr ++ [e]) = alloc_count K tr + (if is_alloc_of K e then 1 else 0) := by
  unfold alloc_count
  rw [List.countP_append]
  by_cases h : is_alloc_of K e = true
  · simp [List.countP_cons, h]
  · simp [List.countP_cons, h]

theorem alloc_count_actual_free (K : Bool) (tr : List Call) (m : Nat) (k : Bool) :
    alloc_count K (actual_free tr m k) = alloc_count K tr := by
  unfold actual_free
  split
  · rfl
  · rw [alloc_count_snoc]
    simp [is_alloc_of]

/-- What `insert_and_resize` does to the counters and to the log. -/
theorem insert_and_resize_effect (env : Env) {size : Nat} {k : Bool} {c : dbm_memchunk_t}
    {av al : List dbm_memchunk_t} {st : dbm_memstats_t} {tr : List Call} {r : Nat} {s' : Pool}
    (hok : insert_and_resize env size k c av al st tr = .ok (r, s')) :
    (size ≤ c.size ∧ s'.mempool_stats = st ∧ s'.trace = tr) ∨
    (c.size < size ∧ s'.mempool_stats = bump_stats env st size c.size k ∧
      s'.trace = actual_free tr c.mem c.on_device ++
        [Call.backend_alloc c.id size c.on_device r]) := by
  by_cases hlt : c.size < size
  · by_cases hm : env.alloc_mem (actual_free tr c.mem c.on_device) size c.on_device = 0
    · rw [insert_and_resize_null env k _ _ _ _ hlt hm] at hok
      cases hok
    · rw [insert_and_resize_grows env k _ _ _ _ hlt rfl hm] at hok
      cases hok
      exact Or.inr ⟨hlt, rfl, rfl⟩
  · rw [insert_and_resize_fits env k _ _ _ _ (Nat.le_of_not_lt hlt)] at hok
    cases hok
    exact Or.inl ⟨Nat.le_of_not_lt hlt, rfl, rfl⟩

/-- An acquire that returns changes the counters and the number of logged
system allocations exactly as `acquire_delta` says. -/
theorem malloc_delta (env : Env) {size : Nat} {k : Bool} {s s' : Pool} {r : Nat}
    (hok : internal_mempool_malloc env size k s = .ok (r, s')) :
    (acquire_delta size k s = none ∧ s'.mempool_stats = s.mempool_stats ∧
      ∀ K, alloc_count K s'.trace = alloc_count K s.trace) ∨
    (∃ old, acquire_delta size k s = some (size - old) ∧ old < size ∧
      s'.mempool_stats = bump_stats env s.mempool_stats size old k ∧
      ∀ K, alloc_count K s'.trace = alloc_count K s.trace + (if k = K then 1 else 0)) := by
  by_cases hsize : size = 0
  · subst hsize
    rw [malloc_zero] at hok
    cases hok
    exact Or.inl ⟨by simp [acquire_delta], rfl, fun _ => rfl⟩
  · have hpos : 0 < size := Nat.pos_of_ne_zero hsize
    cases hfind : find_hit size k s.mempool_available_head with
    | none =>
      rw [malloc_of_find_none env hpos hfind] at hok
      cases hmal : env.malloc_ok s.trace with
      | false =>
        rw [hmal] at hok
        cases hok
      | true =>
        rw [hmal, if_pos rfl] at hok
        rcases insert_and_resize_effect env hok with ⟨hle, _, _⟩ | ⟨_, hst, htr⟩
        · exact absurd hle (Nat.not_le_of_lt hpos)
        · right
          refine ⟨0, by simp [acquire_delta, hsize, hfind], hpos, hst, ?_⟩
          intro K
          rw [htr, alloc_count_snoc, alloc_count_actual_free, alloc_count_snoc]
          by_cases hk : k = K
          · simp [is_alloc_of, hk]
          · simp [is_alloc_of, hk]
    | some x =>
      obtain ⟨i, c⟩ := x
      obtain ⟨pre, post, _, _, hk, hrun⟩ := malloc_of_find_some env hpos hfind
      rw [hrun] at hok
      rcases insert_and_resize_effect env hok with ⟨hle, hst, htr⟩ | ⟨hlt, hst, htr⟩
      · left
        refine ⟨by simp [acquire_delta, hsize, hfind, Nat.not_lt_of_le hle], hst, ?_⟩
        intro K
        rw [htr]
      · right
        refine ⟨c.size, by simp [acquire_delta, hsize, hfind, hlt], hlt, hst, ?_⟩
        intro K
        rw [htr, alloc_count_snoc, alloc_count_actual_free, hk]
        by_cases hkK : k = K
        · simp [is_alloc_of, hkK]
        · simp [is_alloc_of, hkK]

/-- One call of the interface changes the two counters of the kind `K` and the
number of logged system allocations of that kind exactly as `op_delta` says. -/
theorem step_delta (env : Env) (K : Bool) {op : Op} {s s' : Pool}
    (hok : step env op s = .ok s') :
    (op_delta K op s = none ∧
      s'.mempool_stats.mallocs_of K = s.mempool_stats.mallocs_of K ∧
      s'.mempool_stats.size_of K = s.mempool_stats.size_of K ∧
      alloc_count K s'.trace = alloc_count K s.trace) ∨
    (∃ d, op_delta K op s = some d ∧
      s'.mempool_stats.mallocs_of K =
        (s.mempool_stats.mallocs_of K + 1) % 2 ^ env.counter_bits ∧
      s'.mempool_stats.size_of K =
        (s.mempool_stats.size_of K + d) % 2 ^ env.counter_bits ∧
      alloc_count K s'.trace = alloc_count K s.trace + 1) := by
  rcases step_cases hok with ⟨size, k, r, hop, hm⟩ | ⟨mem, hop, hf⟩ | ⟨n, hop, hc⟩
  · subst hop
    rcases malloc_delta env hm with ⟨hd, hst, htr⟩ | ⟨old, hd, hlt, hst, htr⟩
    · left
      refine ⟨?_, by rw [hst], by rw [hst], htr K⟩
      simp only [op_delta]
      split
      · exact hd
      · rfl
    · by_cases hk : k = K
      · right
        subst hk
        have hsame := bump_stats_same env s.mempool_stats size old k
        refine ⟨size - old, by simp [op_delta, hd], ?_, ?_, ?_⟩
        · rw [hst]; exact hsame.1
        · rw [hst]; exact hsame.2
        · rw [htr k]; simp
      · left
        have hK : K = !k := by
          cases k <;> cases K <;> simp at hk ⊢
        have hother := bump_stats_other env s.mempool_stats size old k
        refine ⟨by simp [op_delta, hk], ?_, ?_, ?_⟩
        · rw [hst, hK]; exact hother.1
        · rw [hst, hK]; exact hother.2
        · rw [htr K]; simp [hk]
  · subst hop
    left
    rcases free_cases hf with ⟨_, rfl⟩ | ⟨_, pre, c, post, _, _, _, rfl⟩
    · exact ⟨rfl, rfl, rfl, rfl⟩
    · exact ⟨rfl, rfl, rfl, rfl⟩
  · subst hop
    left
    obtain ⟨_, _, rfl⟩ := clear_cases hc
    refine ⟨rfl, rfl, rfl, ?_⟩
    show alloc_count K (free_chunks s.mempool_available_head s.trace) = _
    rw [free_chunks_eq_append]
    have := alloc_count_teardown K s.mempool_available_head
    unfold alloc_count at this ⊢
    rw [List.countP_append, this, Nat.add_zero]

/-- Along a sequence of calls that returns, the two counters of the kind `K`
either did not move (no growth for `K`) or are the starting values plus the
number, respectively the sum, of the growths, reduced modulo
`2 ^ counter_bits`; the number of logged system allocations of the kind went up
by the number of growths. -/
theorem run_delta (env : Env) (K : Bool) :
    ∀ (ops : List Op) (s s' : Pool), run env ops s = .ok s' →
      ((run_deltas env K ops s = [] ∧
          s'.mempool_stats.mallocs_of K = s.mempool_stats.mallocs_of K ∧
          s'.mempool_stats.size_of K = s.mempool_stats.size_of K) ∨
        (s'.mempool_stats.mallocs_of K =
            (s.mempool_stats.mallocs_of K + (run_deltas env K ops s).length) %
              2 ^ env.counter_bits ∧
          s'.mempool_stats.size_of K =
            (s.mempool_stats.size_of K + (run_deltas env K ops s).sum) %
              2 ^ env.counter_bits)) ∧
      alloc_count K s'.trace = alloc_count K s.trace + (run_deltas env K ops s).length := by
  intro ops
  induction ops with
  | nil =>
    intro s s' hrun
    simp only [run, Except.ok.injEq] at hrun
    subst hrun
    exact ⟨Or.inl ⟨rfl, rfl, rfl⟩, rfl⟩
  | cons op ops ih =>
    intro s s' hrun
    unfold run at hrun
    cases hst : step env op s with
    | error e =>
      rw [hst] at hrun
      cases hrun
    | ok t =>
      rw [hst] at hrun
      obtain ⟨hcnt, hlog⟩ := ih t s' hrun
      have hds : run_deltas env K (op :: ops) s =
          (op_delta K op s).toList ++ run_deltas env K ops t := by
        simp [run_deltas, hst]
      rw [hds]
      rcases step_delta env K hst with ⟨hd, hm, hz, ha⟩ | ⟨d, hd, hm, hz, ha⟩
      · rw [hd]
        simp only [Option.toList, List.nil_append]
        rw [← hm, ← hz, ← ha]
        exact ⟨hcnt, hlog⟩
      · rw [hd]
        simp only [Option.toList, List.singleton_append, List.length_cons, List.sum_cons]
        refine ⟨Or.inr ?_, by rw [hlog, ha]; omega⟩
        rcases hcnt with ⟨hnil, hm', hz'⟩ | ⟨hm', hz'⟩
        · rw [hnil, hm', hz', hm, hz]
          simp
        · rw [hm', hz', hm, hz]
          constructor
          · rw [Nat.mod_add_mod]
            congr 1
            omega
          · rw [Nat.mod_add_mod]
            congr 1
            omega

/-! ## The regions of the system allocator -/

theorem run_snoc (env : Env) (op : Op) :
    ∀ (l : List Op) (a b : Pool), run env l a = .ok b →
      run env (l ++ [op]) a = step env op b := by
  intro l
  induction l with
  | nil =>
    intro a b hab
    simp only [run, Except.ok.injEq] at hab
    subst hab
    simp only [List.nil_append, run]
    cases step env op a <;> rfl
  | cons o l ih =>
    intro a b hab
    simp only [List.cons_append, run] at hab ⊢
    cases hst : step env o a with
    | error e =>
      rw [hst] at hab
      cases hab
    | ok t =>
      rw [hst] at hab
      simp only
      exact ih t b hab

/-- A state reached from a reachable state by one more call. -/
theorem reachable_step {env : Env} {op : Op} {s s' : Pool} (h : Reachable env s)
    (hok : step env op s = .ok s') : Reachable env s' := by
  obtain ⟨ops, hrun⟩ := h
  exact ⟨ops ++ [op], by rw [run_snoc env op ops Pool.initial s hrun, hok]⟩

theorem frees_live_from_snoc (e : Call) :
    ∀ (tr : List Call) (live : List Nat),
      frees_live_from live (tr ++ [e]) =
        (frees_live_from live tr && free_is_live (tr.foldl live_step live) e) := by
  intro tr
  induction tr with
  | nil => intro live; simp [frees_live_from]
  | cons a tr ih =>
    intro live
    show (free_is_live live a && frees_live_from (live_step live a) (tr ++ [e])) =
      ((free_is_live live a && frees_live_from (live_step live a) tr) &&
        free_is_live (tr.foldl live_step (live_step live a)) e)
    rw [ih, Bool.and_assoc]

theorem frees_live_snoc (tr : List Call) (e : Call) :
    frees_live (tr ++ [e]) = (frees_live tr && free_is_live (live_regions tr) e) :=
  frees_live_from_snoc e tr []

theorem frees_live_actual_free {tr : List Call} {m : Nat} (k : Bool)
    (hm : m = 0 ∨ m ∈ live_regions tr) (h : frees_live tr = true) :
    frees_live (actual_free tr m k) = true := by
  unfold actual_free
  split
  · exact h
  · rename_i hne
    rcases hm with h0 | hlive
    · exact absurd h0 hne
    · rw [frees_live_snoc, h]
      simp [free_is_live, hlive]

/-- The teardown loop only releases regions in use. -/
theorem frees_live_free_chunks :
    ∀ (l : List dbm_memchunk_t) (tr : List Call) (others : List Nat),
      (∀ c ∈ l, c.mem ≠ 0) →
      (live_regions tr).Perm ((l.map fun c => c.mem) ++ others) →
      frees_live tr = true → frees_live (free_chunks l tr) = true := by
  intro l
  induction l with
  | nil =>
    intro tr others _ _ h
    simpa [free_chunks] using h
  | cons c l ih =>
    intro tr others hne hp h
    unfold free_chunks
    have hc : c.mem ∈ live_regions tr := hp.mem_iff.mpr (by simp)
    apply ih _ others (fun d hd => hne d (List.mem_cons_of_mem _ hd))
    · rw [live_regions_snoc]
      show (live_regions (actual_free tr c.mem c.on_device)).Perm _
      rw [live_regions_actual_free tr c.on_device (hne c (List.mem_cons_self _ _))]
      have := hp.erase c.mem
      simpa using this
    · rw [frees_live_snoc, frees_live_actual_free c.on_device (Or.inr hc) h]
      rfl

theorem frees_live_step (env : Env) (op : Op) (s s' : Pool)
    (hn : NonNull s) (ho : Owned s) (h : frees_live s.trace = true)
    (hok : step env op s = .ok s') : frees_live s'.trace = true := by
  rcases step_cases hok with ⟨size, k, r, _, hm⟩ | ⟨mem, _, hf⟩ | ⟨n, _, hc⟩
  · by_cases hsize : size = 0
    · subst hsize
      rw [malloc_zero] at hm
      cases hm
      exact h
    · rcases malloc_chunks env (Nat.pos_of_ne_zero hsize) hm with
        ⟨_, ht⟩ | ⟨c, rest, hp, _, _, _, ht⟩ | ⟨_, _, _, ht⟩
      · rw [ht]; exact h
      · have hc : c ∈ s.chunks := hp.mem_iff.mpr (List.mem_cons_self _ _)
        have hlive : c.mem ∈ live_regions s.trace :=
          ho.1.mem_iff.mpr (List.mem_map_of_mem _ hc)
        rw [ht, frees_live_snoc, frees_live_actual_free k (Or.inr hlive) h]
        rfl
      · have happ : s.trace ++ [Call.malloc s.trace.length,
            Call.backend_alloc s.trace.length size k r] =
            (s.trace ++ [Call.malloc s.trace.length]) ++
              [Call.backend_alloc s.trace.length size k r] := by simp
        rw [ht, happ, frees_live_snoc, frees_live_snoc, h]
        rfl
  · rw [(free_chunks_perm hf).2]
    exact h
  · obtain ⟨_, hal, rfl⟩ := clear_cases hc
    have hch : s.chunks = s.mempool_available_head := by
      unfold Pool.chunks
      rw [hal, List.append_nil]
    exact frees_live_free_chunks s.mempool_available_head s.trace []
      (fun c hc => hn c (by rw [hch]; exact hc)) (by simpa [hch] using ho.1) h

/-- With a system allocator that never returns a region still in use, every
system release of a reachable state's log releases a region in use. -/
theorem reachable_frees_live {env : Env} (hfresh : FreshBackend env) {s : Pool}
    (h : Reachable env s) : frees_live s.trace = true := by
  obtain ⟨ops, hrun⟩ := h
  have := run_invariant env (fun t => NonNull t ∧ Owned t ∧ frees_live t.trace = true)
    (fun op t t' ht hst => ⟨nonNull_step env op t t' ht.1 hst,
      owned_step env hfresh op t t' ht.1 ht.2.1 hst,
      frees_live_step env op t t' ht.1 ht.2.1 ht.2.2 hst⟩)
    ops Pool.initial s
    ⟨(by intro c hc; cases hc),
      (by simp [Owned, Pool.chunks, Pool.initial, live_regions]), rfl⟩ hrun
  exact this.2.2

/-! ## The chunk records -/

theorem live_records_snoc (tr : List Call) (e : Call) :
    live_records (tr ++ [e]) = record_step (live_records tr) e := by
  simp [live_records, List.foldl_append]

theorem live_records_actual_free (tr : List Call) (m : Nat) (k : Bool) :
    live_records (actual_free tr m k) = live_records tr := by
  unfold actual_free
  split
  · rfl
  · rw [live_records_snoc]
    rfl

/-- The teardown loop ends the records of the chunks it walks over. -/
theorem live_records_free_chunks :
    ∀ (l : List dbm_memchunk_t) (tr : List Call) (others : List Nat),
      (live_records tr).Perm ((l.map fun c => c.id) ++ others) →
      (live_records (free_chunks l tr)).Perm others := by
  intro l
  induction l with
  | nil =>
    intro tr others hp
    simpa [free_chunks] using hp
  | cons c l ih =>
    intro tr others hp
    unfold free_chunks
    apply ih _ others
    rw [live_records_snoc, live_records_actual_free]
    show ((live_records tr).erase c.id).Perm _
    have := hp.erase c.id
    simpa using this

theorem recorded_step (env : Env) (op : Op) (s s' : Pool) (h : Recorded s)
    (hok : step env op s = .ok s') : Recorded s' := by
  have hperm : ∀ t : Pool, t.chunks.Perm s.chunks → t.trace = s.trace → Recorded t := by
    intro t hp ht
    unfold Recorded
    rw [ht]
    exact h.trans (hp.map _).symm
  rcases step_cases hok with ⟨size, k, r, _, hm⟩ | ⟨mem, _, hf⟩ | ⟨n, _, hc⟩
  · by_cases hsize : size = 0
    · subst hsize
      rw [malloc_zero] at hm
      cases hm
      exact h
    · rcases malloc_chunks env (Nat.pos_of_ne_zero hsize) hm with
        ⟨hp, ht⟩ | ⟨c, rest, hp, hp', _, _, ht⟩ | ⟨hp', _, _, ht⟩
      · exact hperm s' hp ht
      · unfold Recorded
        rw [ht, live_records_snoc, live_records_actual_free]
        show (live_records s.trace).Perm _
        have h1 : (s.chunks.map fun c => c.id).Perm (c.id :: rest.map fun c => c.id) := by
          simpa using hp.map fun c : dbm_memchunk_t => c.id
        have h2 : (s'.chunks.map fun c => c.id).Perm (c.id :: rest.map fun c => c.id) := by
          simpa using hp'.map fun c : dbm_memchunk_t => c.id
        exact (h.trans h1).trans h2.symm
      · unfold Recorded
        have happ : s.trace ++ [Call.malloc s.trace.length,
            Call.backend_alloc s.trace.length size k r] =
            (s.trace ++ [Call.malloc s.trace.length]) ++
              [Call.backend_alloc s.trace.length size k r] := by simp
        rw [ht, happ, live_records_snoc, live_records_snoc]
        show (s.trace.length :: live_records s.trace).Perm _
        have h2 : (s'.chunks.map fun c => c.id).Perm
            (s.trace.length :: s.chunks.map fun c => c.id) := by
          simpa using hp'.map fun c : dbm_memchunk_t => c.id
        exact (List.Perm.cons _ h).trans h2.symm
  · obtain ⟨hp, ht⟩ := free_chunks_perm hf
    exact hperm s' hp ht
  · obtain ⟨_, hal, rfl⟩ := clear_cases hc
    have hch : s.chunks = s.mempool_available_head := by
      unfold Pool.chunks
      rw [hal, List.append_nil]
    have h0 : (live_records s.trace).Perm (s.chunks.map fun c => c.id) := h
    have := live_records_free_chunks s.mempool_available_head s.trace []
      (by simpa [hch] using h0)
    unfold Recorded
    simpa [Pool.chunks] using this

/-- In a reachable state the records that exist are the chunks of the two
lists. -/
theorem reachable_recorded {env : Env} {s : Pool} (h : Reachable env s) : Recorded s := by
  obtain ⟨ops, hrun⟩ := h
  exact run_invariant env Recorded (recorded_step env) ops Pool.initial s
    (by simp [Recorded, Pool.chunks, Pool.initial, live_records]) hrun

/-! ## The number of chunks -/

theorem countP_kinds (l : List dbm_memchunk_t) :
    (l.countP fun c => c.on_device == false) + (l.countP fun c => c.on_device == true) =
      l.length := by
  induction l with
  | nil => rfl
  | cons c l ih =>
    rw [List.countP_cons, List.countP_cons, List.length_cons]
    have h1 : (if (c.on_device == false) = true then 1 else 0) +
        (if (c.on_device == true) = true then 1 else 0) = 1 := by
      cases c.on_device <;> rfl
    omega

theorem num_chunks_eq_kinds (s : Pool) :
    s.num_chunks = s.chunks_of false + s.chunks_of true := by
  unfold Pool.num_chunks Pool.chunks_of Pool.chunks
  rw [countP_kinds, List.length_append]

/-- One call that returns changes the number of lent chunks as
`outstanding_step` says. -/
theorem step_outstanding (env : Env) {op : Op} {s s' : Pool} (hok : step env op s = .ok s') :
    s'.mempool_allocated_head.length = outstanding_step s.mempool_allocated_head.length op := by
  rcases step_cases hok with ⟨size, k, r, hop, hm⟩ | ⟨mem, hop, hf⟩ | ⟨n, hop, hc⟩
  · subst hop
    by_cases hsize : size = 0
    · subst hsize
      rw [malloc_zero] at hm
      cases hm
      rfl
    · simp only [outstanding_step, if_neg hsize]
      rcases malloc_cases env (Nat.pos_of_ne_zero hsize) hm with
        ⟨_, _, _, _, _, _, _, _, rfl⟩ | ⟨_, _, _, _, _, _, _, _, rfl⟩ | ⟨_, _, _, rfl⟩ <;> rfl
  · subst hop
    rcases free_cases hf with ⟨h0, rfl⟩ | ⟨hne, pre, c, post, hsplit, _, _, rfl⟩
    · simp [outstanding_step, h0]
    · simp only [outstanding_step, if_neg hne, hsplit, List.length_append, List.length_cons]
      omega
  · subst hop
    obtain ⟨_, hal, rfl⟩ := clear_cases hc
    simp [outstanding_step, hal]

/-- One call that returns leaves at most as many chunks of a kind as there were
before or as are lent after it. -/
theorem chunks_of_step (env : Env) (K : Bool) {op : Op} {s s' : Pool}
    (hok : step env op s = .ok s') :
    s'.chunks_of K ≤ max (s.chunks_of K) (s'.lent_of K) := by
  have hperm : ∀ t : Pool, t.chunks.Perm s.chunks → t.chunks_of K = s.chunks_of K := by
    intro t hp
    exact hp.countP_eq _
  rcases step_cases hok with ⟨size, k, r, _, hm⟩ | ⟨mem, _, hf⟩ | ⟨n, _, hc⟩
  · by_cases hsize : size = 0
    · subst hsize
      rw [malloc_zero] at hm
      cases hm
      exact Nat.le_max_left _ _
    · rcases malloc_cases env (Nat.pos_of_ne_zero hsize) hm with
        ⟨pre, c, post, hsplit, _, _, _, _, rfl⟩ | ⟨pre, c, post, hsplit, hk, _, _, _, rfl⟩ |
        ⟨hno, _, _, rfl⟩
      · have : Pool.chunks_of K ⟨pre ++ post, c :: s.mempool_allocated_head,
            s.mempool_stats, s.trace⟩ = s.chunks_of K := by
          apply hperm
          unfold Pool.chunks
          rw [hsplit]
          exact perm_move pre post s.mempool_allocated_head c
        rw [this]
        exact Nat.le_max_left _ _
      · have : Pool.chunks_of K ⟨pre ++ post, ⟨c.id, r, size, k⟩ :: s.mempool_allocated_head,
            bump_stats env s.mempool_stats size c.size k,
            actual_free s.trace c.mem k ++ [Call.backend_alloc c.id size k r]⟩ =
            s.chunks_of K := by
          unfold Pool.chunks_of Pool.chunks
          rw [hsplit]
          simp only [List.countP_append, List.countP_cons, hk]
          omega
        rw [this]
        exact Nat.le_max_left _ _
      · by_cases hkK : k = K
        · subst hkK
          have h0 : s.mempool_available_head.countP (fun c => c.on_device == k) = 0 := by
            apply List.countP_eq_zero.mpr
            intro c hc
            simpa using hno c hc
          have : Pool.chunks_of k ⟨s.mempool_available_head,
              ⟨s.trace.length, r, size, k⟩ :: s.mempool_allocated_head,
              bump_stats env s.mempool_stats size 0 k,
              s.trace ++ [Call.malloc s.trace.length,
                Call.backend_alloc s.trace.length size k r]⟩ =
              Pool.lent_of k ⟨s.mempool_available_head,
                ⟨s.trace.length, r, size, k⟩ :: s.mempool_allocated_head,
                bump_stats env s.mempool_stats size 0 k,
                s.trace ++ [Call.malloc s.trace.length,
                  Call.backend_alloc s.trace.length size k r]⟩ := by
            unfold Pool.chunks_of Pool.lent_of Pool.chunks
            simp only [List.countP_append, h0, Nat.zero_add]
          rw [this]
          exact Nat.le_max_right _ _
        · have : Pool.chunks_of K ⟨s.mempool_available_head,
              ⟨s.trace.length, r, size, k⟩ :: s.mempool_allocated_head,
              bump_stats env s.mempool_stats size 0 k,
              s.trace ++ [Call.malloc s.trace.length,
                Call.backend_alloc s.trace.length size k r]⟩ = s.chunks_of K := by
            unfold Pool.chunks_of Pool.chunks
            simp [List.countP_append, List.countP_cons, hkK]
          rw [this]
          exact Nat.le_max_left _ _
  · rw [hperm s' (free_chunks_perm hf).1]
    exact Nat.le_max_left _ _
  · obtain ⟨_, _, rfl⟩ := clear_cases hc
    exact Nat.zero_le _

theorem lent_le_peak (env : Env) (K : Bool) (ops : List Op) (s : Pool) :
    s.lent_of K ≤ peak_lent env K ops s := by
  cases ops with
  | nil => exact Nat.le_refl _
  | cons op ops =>
    unfold peak_lent
    cases step env op s with
    | error e => exact Nat.le_refl _
    | ok t => exact Nat.le_max_left _ _

/-- Along a sequence of calls that returns, the chunks of a kind never
outnumber those there were at the start or the largest number of chunks of the
kind lent out at a time. -/
theorem chunks_of_run (env : Env) (K : Bool) :
    ∀ (ops : List Op) (s s' : Pool), run env ops s = .ok s' →
      s'.chunks_of K ≤ max (s.chunks_of K) (peak_lent env K ops s) := by
  intro ops
  induction ops with
  | nil =>
    intro s s' hrun
    simp only [run, Except.ok.injEq] at hrun
    subst hrun
    exact Nat.le_max_left _ _
  | cons op ops ih =>
    intro s s' hrun
    unfold run at hrun
    cases hst : step env op s with
    | error e =>
      rw [hst] at hrun
      cases hrun
    | ok t =>
      rw [hst] at hrun
      have h1 := ih t s' hrun
      have h2 := chunks_of_step env K hst
      have h3 := lent_le_peak env K ops t
      have hpk : peak_lent env K (op :: ops) s = max (s.lent_of K) (peak_lent env K ops t) := by
        simp [peak_lent, hst]
      rw [hpk]
      omega

/-- The chunks of one kind lent out at a time never outnumber the
acquisitions outstanding at a time. -/
theorem peak_lent_le_outstanding (env : Env) (K : Bool) :
    ∀ (ops : List Op) (s s' : Pool), run env ops s = .ok s' →
      peak_lent env K ops s ≤ peak_outstanding_from s.mempool_allocated_head.length ops := by
  intro ops
  induction ops with
  | nil =>
    intro s s' _
    exact List.countP_le_length _
  | cons op ops ih =>
    intro s s' hrun
    unfold run at hrun
    cases hst : step env op s with
    | error e =>
      rw [hst] at hrun
      cases hrun
    | ok t =>
      rw [hst] at hrun
      have h1 := ih t s' hrun
      rw [step_outstanding env hst] at h1
      have h2 : s.lent_of K ≤ s.mempool_allocated_head.length := List.countP_le_length _
      have hpk : peak_lent env K (op :: ops) s = max (s.lent_of K) (peak_lent env K ops t) := by
        simp [peak_lent, hst]
      rw [hpk]
      unfold peak_outstanding_from
      omega

/-! ## The counters and the capacity of the pool -/

theorem sizes_in_append (K : Bool) (a b : List dbm_memchunk_t) :
    sizes_in K (a ++ b) = sizes_in K a + sizes_in K b := by
  induction a with
  | nil => simp [sizes_in]
  | cons c a ih =>
    show (if c.on_device = K then c.size else 0) + sizes_in K (a ++ b) =
      (if c.on_device = K then c.size else 0) + sizes_in K a + sizes_in K b
    rw [ih]
    omega

theorem sizes_in_cons (K : Bool) (c : dbm_memchunk_t) (l : List dbm_memchunk_t) :
    sizes_in K (c :: l) = (if c.on_device = K then c.size else 0) + sizes_in K l :=
  rfl

/-- A property that every call of a kind of calls keeps holds after every
sequence of such calls. -/
theorem run_invariant_of (env : Env) (Q : Op → Prop) (P : Pool → Prop)
    (hstep : ∀ op s s', Q op → P s → step env op s = .ok s' → P s') :
    ∀ ops s s', (∀ op ∈ ops, Q op) → P s → run env ops s = .ok s' → P s' := by
  intro ops
  induction ops with
  | nil =>
    intro s s' _ hs hrun
    simp only [run, Except.ok.injEq] at hrun
    subst hrun
    exact hs
  | cons op ops ih =>
    intro s s' hq hs hrun
    unfold run at hrun
    cases hst : step env op s with
    | error e =>
      rw [hst] at hrun
      cases hrun
    | ok t =>
      rw [hst] at hrun
      exact ih t s' (fun o ho => hq o (List.mem_cons_of_mem _ ho))
        (hstep op s t (hq op (List.mem_cons_self _ _)) hs hst) hrun

theorem capacity_step (env : Env) (K : Bool) (op : Op) (s s' : Pool)
    (hop : op.is_drain = false) (h : Capacity env K s) (hok : step env op s = .ok s') :
    Capacity env K s' := by
  obtain ⟨hsz, hml, hle, hpos⟩ := h
  rcases step_cases hok with ⟨size, k, r, _, hm⟩ | ⟨mem, _, hf⟩ | ⟨n, hd, _⟩
  · by_cases hsize : size = 0
    · subst hsize
      rw [malloc_zero] at hm
      cases hm
      exact ⟨hsz, hml, hle, hpos⟩
    · have hsizepos : 0 < size := Nat.pos_of_ne_zero hsize
      rcases malloc_cases env hsizepos hm with
        ⟨pre, c, post, hsplit, _, _, _, _, rfl⟩ |
        ⟨pre, c, post, hsplit, hk, hlt, hne, _, rfl⟩ | ⟨hno, hne, _, rfl⟩
      · refine ⟨?_, hml, ?_, ?_⟩
        · rw [hsz]
          congr 1
          unfold Pool.sizes_of Pool.chunks
          rw [hsplit]
          simp only [sizes_in_append, sizes_in_cons]
          omega
        · have : Pool.chunks_of K ⟨pre ++ post, c :: s.mempool_allocated_head,
              s.mempool_stats, s.trace⟩ = s.chunks_of K := by
            unfold Pool.chunks_of Pool.chunks
            rw [hsplit]
            simp only [List.countP_append, List.countP_cons]
            omega
          rw [this]
          exact hle
        · intro d hd
          apply hpos d
          unfold Pool.chunks at hd ⊢
          rw [hsplit]
          simp only [List.mem_append, List.mem_cons] at hd ⊢
          tauto
      · have hcnt : Pool.chunks_of K ⟨pre ++ post,
            ⟨c.id, r, size, k⟩ :: s.mempool_allocated_head,
            bump_stats env s.mempool_stats size c.size k,
            actual_free s.trace c.mem k ++ [Call.backend_alloc c.id size k r]⟩ =
            s.chunks_of K := by
          unfold Pool.chunks_of Pool.chunks
          rw [hsplit]
          simp only [List.countP_append, List.countP_cons, hk]
          omega
        have hall : ∀ d ∈ Pool.chunks ⟨pre ++ post,
            ⟨c.id, r, size, k⟩ :: s.mempool_allocated_head,
            bump_stats env s.mempool_stats size c.size k,
            actual_free s.trace c.mem k ++ [Call.backend_alloc c.id size k r]⟩,
            0 < d.size ∧ d.mem ≠ 0 := by
          intro d hd
          unfold Pool.chunks at hd
          simp only [List.mem_append, List.mem_cons] at hd
          rcases hd with (hd | hd) | hd | hd
          · exact hpos d (by unfold Pool.chunks; rw [hsplit]; simp [hd])
          · exact hpos d (by unfold Pool.chunks; rw [hsplit]; simp [hd])
          · subst hd
            exact ⟨hsizepos, hne⟩
          · exact hpos d (by unfold Pool.chunks; simp [hd])
        by_cases hkK : k = K
        · subst hkK
          have hsame := bump_stats_same env s.mempool_stats size c.size k
          have hsum : Pool.sizes_of k ⟨pre ++ post,
              ⟨c.id, r, size, k⟩ :: s.mempool_allocated_head,
              bump_stats env s.mempool_stats size c.size k,
              actual_free s.trace c.mem k ++ [Call.backend_alloc c.id size k r]⟩ =
              s.sizes_of k + (size - c.size) := by
            unfold Pool.sizes_of Pool.chunks
            rw [hsplit]
            simp only [sizes_in_append, sizes_in_cons, hk, if_true]
            omega
          refine ⟨?_, ?_, ?_, hall⟩
          · rw [hsum]
            show (bump_stats env s.mempool_stats size c.size k).size_of k = _
            rw [hsame.2, hsz, Nat.mod_add_mod]
          · show (bump_stats env s.mempool_stats size c.size k).mallocs_of k = _
            rw [hsame.1, hml, Nat.mod_add_mod, alloc_count_snoc, alloc_count_actual_free]
            simp [is_alloc_of]
          · rw [hcnt, alloc_count_snoc, alloc_count_actual_free]
            simp only [is_alloc_of, beq_self_eq_true, if_true]
            omega
        · have hK : K = !k := by
            cases k <;> cases K <;> simp at hkK ⊢
          have hother := bump_stats_other env s.mempool_stats size c.size k
          have hcK : ¬ c.on_device = K := by rw [hk]; exact hkK
          have hsum : Pool.sizes_of K ⟨pre ++ post,
              ⟨c.id, r, size, k⟩ :: s.mempool_allocated_head,
              bump_stats env s.mempool_stats size c.size k,
              actual_free s.trace c.mem k ++ [Call.backend_alloc c.id size k r]⟩ =
              s.sizes_of K := by
            unfold Pool.sizes_of Pool.chunks
            rw [hsplit]
            simp only [sizes_in_append, sizes_in_cons, if_neg hcK, if_neg hkK]
            omega
          have hlog : alloc_count K (actual_free s.trace c.mem k ++
              [Call.backend_alloc c.id size k r]) = alloc_count K s.trace := by
            rw [alloc_count_snoc, alloc_count_actual_free]
            simp [is_alloc_of, hkK]
          refine ⟨?_, ?_, ?_, hall⟩
          · rw [hsum]
            show (bump_stats env s.mempool_stats size c.size k).size_of K = _
            rw [hK, hother.2, ← hK, hsz]
          · show (bump_stats env s.mempool_stats size c.size k).mallocs_of K = _
            rw [hlog, hK, hother.1, ← hK, hml]
          · rw [hcnt]
            show s.chunks_of K ≤ alloc_count K (actual_free s.trace c.mem k ++
              [Call.backend_alloc c.id size k r])
            rw [hlog]
            exact hle
      · have hall : ∀ d ∈ Pool.chunks ⟨s.mempool_available_head,
            ⟨s.trace.length, r, size, k⟩ :: s.mempool_allocated_head,
            bump_stats env s.mempool_stats size 0 k,
            s.trace ++ [Call.malloc s.trace.length,
              Call.backend_alloc s.trace.length size k r]⟩, 0 < d.size ∧ d.mem ≠ 0 := by
          intro d hd
          unfold Pool.chunks at hd
          simp only [List.mem_append, List.mem_cons] at hd
          rcases hd with hd | hd | hd
          · exact hpos d (by unfold Pool.chunks; simp [hd])
          · subst hd
            exact ⟨hsizepos, hne⟩
          · exact hpos d (by unfold Pool.chunks; simp [hd])
        have happ : s.trace ++ [Call.malloc s.trace.length,
            Call.backend_alloc s.trace.length size k r] =
            (s.trace ++ [Call.malloc s.trace.length]) ++
              [Call.backend_alloc s.trace.length size k r] := by simp
        have hlog : alloc_count K (s.trace ++ [Call.malloc s.trace.length,
            Call.backend_alloc s.trace.length size k r]) =
            alloc_count K s.trace + if k = K then 1 else 0 := by
          rw [happ, alloc_count_snoc, alloc_count_snoc]
          by_cases hkK : k = K
          · simp [is_alloc_of, hkK]
          · simp [is_alloc_of, hkK]
        have hcnt : Pool.chunks_of K ⟨s.mempool_available_head,
            ⟨s.trace.length, r, size, k⟩ :: s.mempool_allocated_head,
            bump_stats env s.mempool_stats size 0 k,
            s.trace ++ [Call.malloc s.trace.length,
              Call.backend_alloc s.trace.length size k r]⟩ =
            s.chunks_of K + if k = K then 1 else 0 := by
          unfold Pool.chunks_of Pool.chunks
          simp only [List.countP_append, List.countP_cons, beq_iff_eq]
          omega
        have hsum : Pool.sizes_of K ⟨s.mempool_available_head,
            ⟨s.trace.length, r, size, k⟩ :: s.mempool_allocated_head,
            bump_stats env s.mempool_stats size 0 k,
            s.trace ++ [Call.malloc s.trace.length,
              Call.backend_alloc s.trace.length size k r]⟩ =
            s.sizes_of K + if k = K then size else 0 := by
          unfold Pool.sizes_of Pool.chunks
          simp only [sizes_in_append, sizes_in_cons]
          omega
        by_cases hkK : k = K
        · subst hkK
          have hsame := bump_stats_same env s.mempool_stats size 0 k
          refine ⟨?_, ?_, ?_, hall⟩
          · rw [hsum]
            show (bump_stats env s.mempool_stats size 0 k).size_of k = _
            rw [hsame.2, hsz, Nat.mod_add_mod]
            simp
          · show (bump_stats env s.mempool_stats size 0 k).mallocs_of k = _
            rw [hsame.1, hml, Nat.mod_add_mod]
            show _ = alloc_count k (s.trace ++ [Call.malloc s.trace.length,
              Call.backend_alloc s.trace.length size k r]) % _
            rw [hlog]
            simp
          · rw [hcnt]
            show _ ≤ alloc_count k (s.trace ++ [Call.malloc s.trace.length,
              Call.backend_alloc s.trace.length size k r])
            rw [hlog]
            simp only [if_true]
            omega
        · have hK : K = !k := by
            cases k <;> cases K <;> simp at hkK ⊢
          have hother := bump_stats_other env s.mempool_stats size 0 k
          refine ⟨?_, ?_, ?_, hall⟩
          · rw [hsum]
            show (bump_stats env s.mempool_stats size 0 k).size_of K = _
            rw [hK, hother.2, ← hK, hsz]
            simp [hkK]
          · show (bump_stats env s.mempool_stats size 0 k).mallocs_of K =
              alloc_count K (s.trace ++ [Call.malloc s.trace.length,
                Call.backend_alloc s.trace.length size k r]) % _
            rw [hlog, hK, hother.1, ← hK, hml]
            simp [hkK]
          · rw [hcnt]
            show _ ≤ alloc_count K (s.trace ++ [Call.malloc s.trace.length,
              Call.backend_alloc s.trace.length size k r])
            rw [hlog]
            simp only [if_neg hkK]
            omega
  · rcases free_cases hf with ⟨_, rfl⟩ | ⟨_, pre, c, post, hsplit, _, _, rfl⟩
    · exact ⟨hsz, hml, hle, hpos⟩
    · refine ⟨?_, hml, ?_, ?_⟩
      · rw [hsz]
        congr 1
        unfold Pool.sizes_of Pool.chunks
        rw [hsplit]
        simp only [List.cons_append, sizes_in_append, sizes_in_cons]
        omega
      · have : Pool.chunks_of K ⟨c :: s.mempool_available_head, pre ++ post,
            s.mempool_stats, s.trace⟩ = s.chunks_of K := by
          unfold Pool.chunks_of Pool.chunks
          rw [hsplit]
          simp only [List.cons_append, List.countP_append, List.countP_cons]
          omega
        rw [this]
        exact hle
      · intro d hd
        apply hpos d
        unfold Pool.chunks at hd ⊢
        rw [hsplit]
        simp only [List.cons_append, List.mem_append, List.mem_cons] at hd ⊢
        tauto
  · rw [hd] at hop
    cases hop

/-! ## The states a sequence of calls passes through -/

/-- A sequence of calls that returns passes, after each of its calls, through
a state that the calls made so far produce: every such state is reachable when
the sequence starts at program start. -/
theorem run_prefix (env : Env) :
    ∀ (pre post : List Op) (s s' : Pool), run env (pre ++ post) s = .ok s' →
      ∃ t, run env pre s = .ok t ∧ run env post t = .ok s' := by
  intro pre
  induction pre with
  | nil =>
    intro post s s' hrun
    exact ⟨s, rfl, hrun⟩
  | cons op pre ih =>
    intro post s s' hrun
    simp only [List.cons_append, run] at hrun ⊢
    cases hst : step env op s with
    | error e =>
      rw [hst] at hrun
      cases hrun
    | ok t =>
      rw [hst] at hrun
      exact ih post t s' hrun

/-! ## The claims -/

/-- C1 (best fit).  When the available list holds a chunk of the requested
kind with `size ≤ chunk.size`, `internal_mempool_malloc` takes out of the list
a chunk of that kind whose size is the least among the chunks of the kind that
are large enough, puts it unchanged (same address, same size) at the head of
the allocated list and returns its address; the log of backend calls and the
four counters stay as they were. -/
theorem best_fit_is_selected (env : Env) (s : Pool) (size : Nat) (on_device : Bool)
    (hsize : 0 < size)
    (hfit : ∃ c ∈ s.mempool_available_head, c.on_device = on_device ∧ size ≤ c.size) :
    ∃ pre chunk post,
      s.mempool_available_head = pre ++ chunk :: post ∧
      chunk.on_device = on_device ∧ size ≤ chunk.size ∧
      (∀ c ∈ s.mempool_available_head,
        c.on_device = on_device → size ≤ c.size → chunk.size ≤ c.size) ∧
      internal_mempool_malloc env size on_device s =
        .ok (chunk.mem,
          ⟨pre ++ post, chunk :: s.mempool_allocated_head, s.mempool_stats, s.trace⟩) := by
  obtain ⟨⟨i, c⟩, hfind, _, hk, hle, hmin⟩ := find_hit_of_fit hfit
  obtain ⟨pre, post, hsplit, _, _, hrun⟩ := malloc_of_find_some env hsize hfind
  refine ⟨pre, c, post, hsplit, hk, hle, hmin, ?_⟩
  rw [hrun, insert_and_resize_fits env on_device _ _ _ _ hle]

/-- The example of the best-fit rule: sizes 50 and 200, request 100. -/
theorem best_fit_is_selected_witness :
    (0 < 100 ∧ ∃ c ∈ pool_50_200.mempool_available_head, c.on_device = false ∧ 100 ≤ c.size) ∧
    ∃ pre chunk post,
      pool_50_200.mempool_available_head = pre ++ chunk :: post ∧
      chunk.on_device = false ∧ 100 ≤ chunk.size ∧
      (∀ c ∈ pool_50_200.mempool_available_head,
        c.on_device = false → 100 ≤ c.size → chunk.size ≤ c.size) ∧
      internal_mempool_malloc demo_env 100 false pool_50_200 =
        .ok (chunk.mem,
          ⟨pre ++ post, chunk :: pool_50_200.mempool_allocated_head,
            pool_50_200.mempool_stats, pool_50_200.trace⟩) :=
  ⟨⟨by decide, ⟨2, 8, 200, false⟩, by decide, rfl, by decide⟩,
    best_fit_is_selected demo_env pool_50_200 100 false (by decide)
      ⟨⟨2, 8, 200, false⟩, by decide, rfl, by decide⟩⟩

/-- Sizes 50 and 200, request 100: the chunk of size 200 (address 8) is
returned, nothing else changes. -/
theorem best_fit_example :
    internal_mempool_malloc demo_env 100 false pool_50_200 =
      .ok (8, ⟨[⟨0, 7, 50, false⟩], [⟨2, 8, 200, false⟩], pool_50_200.mempool_stats,
        pool_50_200.trace⟩) := by
  rfl

/-- C2 (fallback grow).  When the available list holds chunks of the requested
kind but none with `size ≤ chunk.size`, `internal_mempool_malloc` takes out of
the list a chunk of that kind of the greatest size; it hands the chunk's old
region to `actual_free` and asks `actual_malloc` for `size` bytes.  If the
system returns `NULL` the run stops in `actual_malloc`; otherwise the chunk, now
with the new address and with size exactly `size`, is at the head of the
allocated list, the new address is returned, the grow counter of the kind went
up by 1 and its bytes counter by `size - chunk.size` (in the arithmetic of the
counters, modulo `2 ^ counter_bits`, hence exactly when the sum fits), the
counters of the other kind and the number of chunk records are unchanged and
no record was created. -/
theorem fallback_is_grown (env : Env) (s : Pool) (size : Nat) (on_device : Bool)
    (hsize : 0 < size)
    (hsmall : ∀ c ∈ s.mempool_available_head, c.on_device = on_device → c.size < size)
    (hkind : ∃ c ∈ s.mempool_available_head, c.on_device = on_device) :
    ∃ pre chunk post,
      s.mempool_available_head = pre ++ chunk :: post ∧
      chunk.on_device = on_device ∧ chunk.size < size ∧
      (∀ c ∈ s.mempool_available_head, c.on_device = on_device → c.size ≤ chunk.size) ∧
      ∀ memory, env.alloc_mem (actual_free s.trace chunk.mem on_device) size on_device = memory →
        (memory = 0 → internal_mempool_malloc env size on_device s = .error Fault.memory_null) ∧
        (memory ≠ 0 → ∃ s',
          internal_mempool_malloc env size on_device s = .ok (memory, s') ∧
          s'.mempool_available_head = pre ++ post ∧
          s'.mempool_allocated_head =
            ⟨chunk.id, memory, size, on_device⟩ :: s.mempool_allocated_head ∧
          s'.trace = actual_free s.trace chunk.mem on_device ++
            [Call.backend_alloc chunk.id size on_device memory] ∧
          s'.mempool_stats.mallocs_of on_device =
            (s.mempool_stats.mallocs_of on_device + 1) % 2 ^ env.counter_bits ∧
          s'.mempool_stats.size_of on_device =
            (s.mempool_stats.size_of on_device + (size - chunk.size)) % 2 ^ env.counter_bits ∧
          (s.mempool_stats.mallocs_of on_device + 1 < 2 ^ env.counter_bits →
            s'.mempool_stats.mallocs_of on_device = s.mempool_stats.mallocs_of on_device + 1) ∧
          (s.mempool_stats.size_of on_device + (size - chunk.size) < 2 ^ env.counter_bits →
            s'.mempool_stats.size_of on_device =
              s.mempool_stats.size_of on_device + (size - chunk.size)) ∧
          s'.mempool_stats.mallocs_of (!on_device) = s.mempool_stats.mallocs_of (!on_device) ∧
          s'.mempool_stats.size_of (!on_device) = s.mempool_stats.size_of (!on_device) ∧
          s'.num_chunks = s.num_chunks) := by
  have hinv := find_hit_of_small hsmall
  cases hfind : find_hit size on_device s.mempool_available_head with
  | none =>
    obtain ⟨c, hc, hk⟩ := hkind
    exact absurd hk (find_hit_none_iff.mp hfind c hc)
  | some x =>
    obtain ⟨i, c⟩ := x
    rw [hfind] at hinv
    obtain ⟨_, hk, hlt, hmax⟩ := hinv
    have hk' : c.on_device = on_device := hk
    have hlt' : c.size < size := hlt
    obtain ⟨pre, post, hsplit, _, _, hrun⟩ := malloc_of_find_some env hsize hfind
    refine ⟨pre, c, post, hsplit, hk', hlt', fun d hd hdk => hmax d hd hdk (hsmall d hd hdk), ?_⟩
    intro memory hmem
    rw [← hk'] at hmem
    constructor
    · intro h0
      rw [hrun]
      exact insert_and_resize_null env on_device _ _ _ _ hlt' (by rw [hmem, h0])
    · intro hne
      have hgrow := insert_and_resize_grows env on_device (pre ++ post) s.mempool_allocated_head
        s.mempool_stats s.trace hlt' hmem hne
      rw [hk'] at hgrow
      have hsame := bump_stats_same env s.mempool_stats size c.size on_device
      have hother := bump_stats_other env s.mempool_stats size c.size on_device
      refine ⟨_, hrun.trans hgrow, rfl, rfl, rfl, hsame.1, hsame.2, ?_, ?_, hother.1, hother.2, ?_⟩
      · intro hfits
        show (bump_stats env s.mempool_stats size c.size on_device).mallocs_of on_device = _
        rw [hsame.1, Nat.mod_eq_of_lt hfits]
      · intro hfits
        show (bump_stats env s.mempool_stats size c.size on_device).size_of on_device = _
        rw [hsame.2, Nat.mod_eq_of_lt hfits]
      · simp [Pool.num_chunks, hsplit]
        omega

/-- The example of the fallback rule: sizes 10 and 40, request 100. -/
theorem fallback_is_grown_witness :
    (0 < 100 ∧
      (∀ c ∈ pool_10_40.mempool_available_head, c.on_device = false → c.size < 100) ∧
      ∃ c ∈ pool_10_40.mempool_available_head, c.on_device = false) ∧
    ∃ pre chunk post,
      pool_10_40.mempool_available_head = pre ++ chunk :: post ∧
      chunk.on_device = false ∧ chunk.size < 100 ∧
      (∀ c ∈ pool_10_40.mempool_available_head, c.on_device = false → c.size ≤ chunk.size) ∧
      ∀ memory,
        demo_env.alloc_mem (actual_free pool_10_40.trace chunk.mem false) 100 false = memory →
        (memory = 0 →
          internal_mempool_malloc demo_env 100 false pool_10_40 = .error Fault.memory_null) ∧
        (memory ≠ 0 → ∃ s',
          internal_mempool_malloc demo_env 100 false pool_10_40 = .ok (memory, s') ∧
          s'.mempool_available_head = pre ++ post ∧
          s'.mempool_allocated_head =
            ⟨chunk.id, memory, 100, false⟩ :: pool_10_40.mempool_allocated_head ∧
          s'.trace = actual_free pool_10_40.trace chunk.mem false ++
            [Call.backend_alloc chunk.id 100 false memory] ∧
          s'.mempool_stats.mallocs_of false =
            (pool_10_40.mempool_stats.mallocs_of false + 1) % 2 ^ demo_env.counter_bits ∧
          s'.mempool_stats.size_of false =
            (pool_10_40.mempool_stats.size_of false + (100 - chunk.size)) %
              2 ^ demo_env.counter_bits ∧
          (pool_10_40.mempool_stats.mallocs_of false + 1 < 2 ^ demo_env.counter_bits →
            s'.mempool_stats.mallocs_of false = pool_10_40.mempool_stats.mallocs_of false + 1) ∧
          (pool_10_40.mempool_stats.size_of false + (100 - chunk.size) <
              2 ^ demo_env.counter_bits →
            s'.mempool_stats.size_of false =
              pool_10_40.mempool_stats.size_of false + (100 - chunk.size)) ∧
          s'.mempool_stats.mallocs_of (!false) = pool_10_40.mempool_stats.mallocs_of (!false) ∧
          s'.mempool_stats.size_of (!false) = pool_10_40.mempool_stats.size_of (!false) ∧
          s'.num_chunks = pool_10_40.num_chunks) :=
  ⟨⟨by decide, by decide, ⟨0, 7, 10, false⟩, by decide, rfl⟩,
    fallback_is_grown demo_env pool_10_40 100 false (by decide) (by decide)
      ⟨⟨0, 7, 10, false⟩, by decide, rfl⟩⟩

/-- Sizes 10 and 40, request 100: the chunk of size 40 is grown to 100, its
region 8 is released and a new one of 100 bytes obtained, `host_mallocs` goes
from 2 to 3 and `host_size` from 50 to 110. -/
theorem fallback_example :
    internal_mempool_malloc demo_env 100 false pool_10_40 =
      .ok (16, ⟨[⟨0, 7, 10, false⟩], [⟨2, 16, 100, false⟩], ⟨110, 3, 0, 0⟩,
        pool_10_40.trace ++ [Call.backend_free 8 false, Call.backend_alloc 2 100 false 16]⟩) := by
  rfl

/-- C3 (fresh allocation only on total miss).  For a request with `0 < size`:
when the available list holds no chunk of the requested kind,
`internal_mempool_malloc` asks `malloc` for a record (and stops if it gets
`NULL`), asks `actual_malloc` for `size` bytes (and stops if the system returns
`NULL`) and otherwise returns with the available list as it was, the new record
of the requested kind and of size exactly `size` at the head of the allocated
list, the grow counter of the kind up by 1 and its bytes counter up by `size`
(in the arithmetic of the counters, modulo `2 ^ counter_bits`, hence exactly
when the sum fits), the counters of the other kind unchanged.  When the
available list holds a chunk of the kind, no record is requested from `malloc`
and a call that returns leaves the number of chunk records unchanged.  Hence a
call that returns has added a record if and only if no available chunk was of
the requested kind. -/
theorem fresh_chunk_only_on_miss (env : Env) (s : Pool) (size : Nat) (on_device : Bool)
    (hsize : 0 < size) :
    ((∀ c ∈ s.mempool_available_head, c.on_device ≠ on_device) →
      (env.malloc_ok s.trace = false →
        internal_mempool_malloc env size on_device s = .error Fault.chunk_null) ∧
      (env.malloc_ok s.trace = true →
        ∀ memory,
          env.alloc_mem (s.trace ++ [Call.malloc s.trace.length]) size on_device = memory →
          (memory = 0 →
            internal_mempool_malloc env size on_device s = .error Fault.memory_null) ∧
          (memory ≠ 0 → ∃ s',
            internal_mempool_malloc env size on_device s = .ok (memory, s') ∧
            s'.mempool_available_head = s.mempool_available_head ∧
            s'.mempool_allocated_head =
              ⟨s.trace.length, memory, size, on_device⟩ :: s.mempool_allocated_head ∧
            s'.trace = s.trace ++
              [Call.malloc s.trace.length,
                Call.backend_alloc s.trace.length size on_device memory] ∧
            s'.mempool_stats.mallocs_of on_device =
              (s.mempool_stats.mallocs_of on_device + 1) % 2 ^ env.counter_bits ∧
            s'.mempool_stats.size_of on_device =
              (s.mempool_stats.size_of on_device + size) % 2 ^ env.counter_bits ∧
            (s.mempool_stats.mallocs_of on_device + 1 < 2 ^ env.counter_bits →
              s'.mempool_stats.mallocs_of on_device =
                s.mempool_stats.mallocs_of on_device + 1) ∧
            (s.mempool_stats.size_of on_device + size < 2 ^ env.counter_bits →
              s'.mempool_stats.size_of on_device = s.mempool_stats.size_of on_device + size) ∧
            s'.mempool_stats.mallocs_of (!on_device) =
              s.mempool_stats.mallocs_of (!on_device) ∧
            s'.mempool_stats.size_of (!on_device) = s.mempool_stats.size_of (!on_device) ∧
            s'.num_chunks = s.num_chunks + 1))) ∧
    ((∃ c ∈ s.mempool_available_head, c.on_device = on_device) →
      internal_mempool_malloc env size on_device s ≠ .error Fault.chunk_null ∧
      ∀ r s', internal_mempool_malloc env size on_device s = .ok (r, s') →
        s'.num_chunks = s.num_chunks ∧
        ∀ id, Call.malloc id ∈ s'.trace → Call.malloc id ∈ s.trace) ∧
    (∀ r s', internal_mempool_malloc env size on_device s = .ok (r, s') →
      (s'.num_chunks = s.num_chunks + 1 ↔
        ∀ c ∈ s.mempool_available_head, c.on_device ≠ on_device)) := by
  refine ⟨?_, ?_, ?_⟩
  · intro hno
    have hrun := malloc_of_find_none env hsize (find_hit_none_iff.mpr hno)
    constructor
    · intro hfail
      rw [hrun, hfail]
      rfl
    · intro hok memory hmem
      rw [hrun, hok, if_pos rfl]
      have hfree : actual_free (s.trace ++ [Call.malloc s.trace.length])
          (⟨s.trace.length, 0, 0, on_device⟩ : dbm_memchunk_t).mem
          (⟨s.trace.length, 0, 0, on_device⟩ : dbm_memchunk_t).on_device =
          s.trace ++ [Call.malloc s.trace.length] := by
        simp [actual_free]
      constructor
      · intro h0
        exact insert_and_resize_null env on_device _ _ _ _ hsize (by rw [hfree, hmem, h0])
      · intro hne
        have hgrow := @insert_and_resize_grows env size on_device ⟨s.trace.length, 0, 0, on_device⟩
          s.mempool_available_head s.mempool_allocated_head s.mempool_stats
          (s.trace ++ [Call.malloc s.trace.length]) hsize memory (by rw [hfree]; exact hmem) hne
        rw [hfree] at hgrow
        have hsame := bump_stats_same env s.mempool_stats size 0 on_device
        have hother := bump_stats_other env s.mempool_stats size 0 on_device
        refine ⟨_, hgrow, rfl, rfl, by simp, hsame.1, hsame.2, ?_, ?_, hother.1, hother.2, ?_⟩
        · intro hfits
          show (bump_stats env s.mempool_stats size 0 on_device).mallocs_of on_device = _
          rw [hsame.1, Nat.mod_eq_of_lt hfits]
        · intro hfits
          show (bump_stats env s.mempool_stats size 0 on_device).size_of on_device = _
          rw [hsame.2, Nat.sub_zero, Nat.mod_eq_of_lt hfits]
        · simp [Pool.num_chunks]
          omega
  · intro hex
    cases hfind : find_hit size on_device s.mempool_available_head with
    | none =>
      obtain ⟨c, hc, hk⟩ := hex
      exact absurd hk (find_hit_none_iff.mp hfind c hc)
    | some x => exact num_chunks_of_find_some env hsize hfind
  · intro r s' hok
    rcases malloc_cases env hsize hok with
      ⟨pre, c, post, hsplit, hk, _, _, _, rfl⟩ | ⟨pre, c, post, hsplit, hk, _, _, _, rfl⟩ |
      ⟨hno, _, _, rfl⟩
    · have hc : c ∈ s.mempool_available_head := by rw [hsplit]; simp
      constructor
      · intro hnum
        simp [Pool.num_chunks, hsplit] at hnum
        omega
      · intro hno
        exact absurd hk (hno c hc)
    · have hc : c ∈ s.mempool_available_head := by rw [hsplit]; simp
      constructor
      · intro hnum
        simp [Pool.num_chunks, hsplit] at hnum
        omega
      · intro hno
        exact absurd hk (hno c hc)
    · constructor
      · intro _
        exact hno
      · intro _
        simp [Pool.num_chunks]
        omega

/-- A device request of 100 bytes on a pool that holds host chunks only: a
record is created, the available list is untouched. -/
theorem fresh_chunk_only_on_miss_witness :
    0 < 100 ∧
    (∀ c ∈ pool_10_40.mempool_available_head, c.on_device ≠ true) ∧
    demo_env.malloc_ok pool_10_40.trace = true ∧
    demo_env.alloc_mem (pool_10_40.trace ++ [Call.malloc pool_10_40.trace.length]) 100 true = 16 ∧
    ∃ s',
      internal_mempool_malloc demo_env 100 true pool_10_40 = .ok (16, s') ∧
      s'.mempool_available_head = pool_10_40.mempool_available_head ∧
      s'.mempool_allocated_head = ⟨4, 16, 100, true⟩ :: pool_10_40.mempool_allocated_head ∧
      s'.trace = pool_10_40.trace ++ [Call.malloc 4, Call.backend_alloc 4 100 true 16] ∧
      s'.mempool_stats.mallocs_of true = (0 + 1) % 2 ^ 64 ∧
      s'.mempool_stats.size_of true = (0 + 100) % 2 ^ 64 ∧
      (0 + 1 < 2 ^ 64 → s'.mempool_stats.mallocs_of true = 0 + 1) ∧
      (0 + 100 < 2 ^ 64 → s'.mempool_stats.size_of true = 0 + 100) ∧
      s'.mempool_stats.mallocs_of (!true) = 2 ∧
      s'.mempool_stats.size_of (!true) = 50 ∧
      s'.num_chunks = pool_10_40.num_chunks + 1 :=
  ⟨by decide, by decide, rfl, rfl,
    ((((fresh_chunk_only_on_miss demo_env pool_10_40 100 true (by decide)).1 (by decide)).2
      rfl 16 rfl).2 (by decide))⟩

/-- A device request of 100 bytes on a pool that holds host chunks of sizes 10
and 40: both stay available, the new device chunk is the only allocated one,
`device_mallocs` is 1 and `device_size` is 100. -/
theorem fresh_chunk_example :
    internal_mempool_malloc demo_env 100 true pool_10_40 =
      .ok (16, ⟨[⟨0, 7, 10, false⟩, ⟨2, 8, 40, false⟩], [⟨4, 16, 100, true⟩],
        ⟨50, 2, 100, 1⟩,
        pool_10_40.trace ++ [Call.malloc 4, Call.backend_alloc 4 100 true 16]⟩) := by
  rfl

/-- C4 (acquire postcondition).  In a state the pool reaches from the state at
program start by acquires, releases and teardowns, a call of
`internal_mempool_malloc` that returns gives `NULL` if and only if `size` is
0; for `0 < size` the address returned is that of the chunk now at the head of
the allocated list, whose recorded size is at least `size` and is the size of
the last backend allocation made for that chunk, the one that returned this
address.  The call can only stop in the assertions on the results of the two
allocators, and it returns whenever these never give `NULL`. -/
theorem acquire_postcondition (env : Env) (s : Pool) (hreach : Reachable env s)
    (size : Nat) (on_device : Bool) :
    (∀ r s', internal_mempool_malloc env size on_device s = .ok (r, s') →
      (r = 0 ↔ size = 0) ∧
      (0 < size → ∃ chunk rest,
        s'.mempool_allocated_head = chunk :: rest ∧ r = chunk.mem ∧ size ≤ chunk.size ∧
        last_alloc chunk.id s'.trace = some (chunk.size, r))) ∧
    (∀ e, internal_mempool_malloc env size on_device s = .error e →
      e = Fault.memory_null ∨ e = Fault.chunk_null) ∧
    ((∀ tr, env.malloc_ok tr = true) → (∀ tr sz kd, env.alloc_mem tr sz kd ≠ 0) →
      ∃ r s', internal_mempool_malloc env size on_device s = .ok (r, s')) := by
  refine ⟨?_, fun e herr => malloc_fault env herr,
    fun hmal halloc => malloc_total env hmal halloc size on_device s⟩
  intro r s' hok
  have hpost : 0 < size → ∃ chunk rest,
      s'.mempool_allocated_head = chunk :: rest ∧ r = chunk.mem ∧ size ≤ chunk.size ∧
      last_alloc chunk.id s'.trace = some (chunk.size, r) ∧ r ≠ 0 := by
    intro hsize
    have hreach' := reachable_acquire hreach hok
    have hb := (reachable_backed hreach').2
    have hn := reachable_nonnull hreach'
    have key : ∀ chunk rest, s'.mempool_allocated_head = chunk :: rest → r = chunk.mem →
        size ≤ chunk.size → ∃ chunk rest,
          s'.mempool_allocated_head = chunk :: rest ∧ r = chunk.mem ∧ size ≤ chunk.size ∧
          last_alloc chunk.id s'.trace = some (chunk.size, r) ∧ r ≠ 0 := by
      intro chunk rest hhead hr hle
      have hmem : chunk ∈ s'.chunks := by
        unfold Pool.chunks
        rw [hhead]
        simp
      refine ⟨chunk, rest, hhead, hr, hle, ?_, ?_⟩
      · rw [hr]; exact (hb chunk hmem).2
      · rw [hr]; exact hn chunk hmem
    rcases malloc_cases env hsize hok with
      ⟨_, c, _, _, _, hle, _, hr, hs'⟩ | ⟨_, c, _, _, _, _, _, _, hs'⟩ | ⟨_, _, _, hs'⟩
    · exact key c _ (by rw [hs']) hr hle
    · exact key _ _ (by rw [hs']) rfl (Nat.le_refl _)
    · exact key _ _ (by rw [hs']) rfl (Nat.le_refl _)
  constructor
  · constructor
    · intro hr
      by_contra hsize
      obtain ⟨_, _, _, _, _, _, hne⟩ := hpost (Nat.pos_of_ne_zero hsize)
      exact hne hr
    · intro hsize
      subst hsize
      rw [malloc_zero] at hok
      cases hok
      rfl
  · intro hsize
    obtain ⟨chunk, rest, h1, h2, h3, h4, _⟩ := hpost hsize
    exact ⟨chunk, rest, h1, h2, h3, h4⟩

/-- The released chunk of 10 bytes serves a request of 5 bytes: the address 1
is returned, the chunk keeps the 10 bytes of its last backend allocation. -/
theorem acquire_postcondition_witness :
    Reachable demo_env pool_released ∧
    internal_mempool_malloc demo_env 5 false pool_released =
      .ok (1, ⟨[], [⟨0, 1, 10, false⟩], ⟨10, 1, 0, 0⟩, pool_released.trace⟩) ∧
    ((1 = 0 ↔ 5 = 0) ∧
      (0 < 5 → ∃ chunk rest,
        [(⟨0, 1, 10, false⟩ : dbm_memchunk_t)] = chunk :: rest ∧ 1 = chunk.mem ∧
        5 ≤ chunk.size ∧ last_alloc chunk.id pool_released.trace = some (chunk.size, 1))) :=
  ⟨⟨[Op.acquire 10 false, Op.release 1], rfl⟩, rfl,
    (acquire_postcondition demo_env pool_released
      ⟨[Op.acquire 10 false, Op.release 1], rfl⟩ 5 false).1 1 _ rfl⟩

/-- C5 (round trip).  In a pool state whose available chunks all have a
non-null address (every state the pool reaches is such a state, see
`reachable_nonnull`), if `internal_mempool_malloc(size, on_device)` returns `p`
and leaves the state `s1`, then `dbm_mempool_free(p)` returns, leaving some
state `s2` with the same log of outside calls and the same counters, and a
second `internal_mempool_malloc(size, on_device)` in `s2` returns the same `p`
and leaves exactly `s1`: no outside call, no chunk resized, no counter
changed. -/
theorem round_trip (env : Env) (s : Pool) (size : Nat) (on_device : Bool)
    (hnonnull : ∀ c ∈ s.mempool_available_head, c.mem ≠ 0) (p : Nat) (s1 : Pool)
    (h1 : internal_mempool_malloc env size on_device s = .ok (p, s1)) :
    ∃ s2, dbm_mempool_free p s1 = .ok s2 ∧
      s2.trace = s1.trace ∧ s2.mempool_stats = s1.mempool_stats ∧
      internal_mempool_malloc env size on_device s2 = .ok (p, s1) := by
  by_cases hsize : size = 0
  · subst hsize
    have h0 : ∀ t : Pool, internal_mempool_malloc env 0 on_device t = .ok (0, t) := by
      intro t; simp [internal_mempool_malloc]
    rw [h0 s] at h1
    cases h1
    exact ⟨s, by simp [dbm_mempool_free], rfl, rfl, h0 s⟩
  · have hpos : 0 < size := Nat.pos_of_ne_zero hsize
    rcases malloc_cases env hpos h1 with
      ⟨pre, c, post, hsplit, hk, hle, hmin, hr, rfl⟩ |
      ⟨pre, c, post, hsplit, hk, hlt, hne, hr, rfl⟩ | ⟨hno, hne, hr, rfl⟩
    · have hc : c ∈ s.mempool_available_head := by rw [hsplit]; simp
      have hmin' : ∀ d ∈ pre ++ post, d.on_device = on_device → size ≤ d.size →
          c.size ≤ d.size := by
        intro d hd
        apply hmin d
        rw [hsplit]
        rcases List.mem_append.mp hd with hd | hd
        · exact List.mem_append_left _ hd
        · exact List.mem_append_right _ (List.mem_cons_of_mem _ hd)
      obtain ⟨hfree, hagain⟩ := reacquire env (pre ++ post) s.mempool_allocated_head
        s.mempool_stats s.trace hpos (hnonnull c hc) hk hle hmin'
      subst hr
      exact ⟨_, hfree, rfl, rfl, hagain⟩
    · obtain ⟨hfree, hagain⟩ := @reacquire env size on_device
        ⟨c.id, p, size, on_device⟩ (pre ++ post) s.mempool_allocated_head
        (bump_stats env s.mempool_stats size c.size on_device)
        (actual_free s.trace c.mem on_device ++ [Call.backend_alloc c.id size on_device p])
        hpos hne rfl (Nat.le_refl _) (fun d _ _ hd => hd)
      exact ⟨_, hfree, rfl, rfl, hagain⟩
    · obtain ⟨hfree, hagain⟩ := @reacquire env size on_device
        ⟨s.trace.length, p, size, on_device⟩ s.mempool_available_head s.mempool_allocated_head
        (bump_stats env s.mempool_stats size 0 on_device)
        (s.trace ++ [Call.malloc s.trace.length,
          Call.backend_alloc s.trace.length size on_device p])
        hpos hne rfl (Nat.le_refl _) (fun d _ _ hd => hd)
      exact ⟨_, hfree, rfl, rfl, hagain⟩

/-- The round trip on the pool with host chunks of sizes 50 and 200 and a
request of 100 bytes: the address 8 comes back. -/
theorem round_trip_witness :
    (∀ c ∈ pool_50_200.mempool_available_head, c.mem ≠ 0) ∧
    internal_mempool_malloc demo_env 100 false pool_50_200 =
      .ok (8, ⟨[⟨0, 7, 50, false⟩], [⟨2, 8, 200, false⟩], pool_50_200.mempool_stats,
        pool_50_200.trace⟩) ∧
    ∃ s2, dbm_mempool_free 8 ⟨[⟨0, 7, 50, false⟩], [⟨2, 8, 200, false⟩],
        pool_50_200.mempool_stats, pool_50_200.trace⟩ = .ok s2 ∧
      s2.trace = pool_50_200.trace ∧ s2.mempool_stats = pool_50_200.mempool_stats ∧
      internal_mempool_malloc demo_env 100 false s2 =
        .ok (8, ⟨[⟨0, 7, 50, false⟩], [⟨2, 8, 200, false⟩], pool_50_200.mempool_stats,
          pool_50_200.trace⟩) :=
  ⟨by decide, rfl, round_trip demo_env pool_50_200 100 false (by decide) 8 _ rfl⟩

/-- A round trip that starts with a new record, from the state at program
start: acquire, release, acquire again. -/
theorem round_trip_example :
    run demo_env [Op.acquire 10 true, Op.release 1] Pool.initial =
      .ok ⟨[⟨0, 1, 10, true⟩], [], ⟨0, 0, 10, 1⟩,
        [Call.malloc 0, Call.backend_alloc 0 10 true 1]⟩ ∧
    internal_mempool_malloc demo_env 10 true ⟨[⟨0, 1, 10, true⟩], [], ⟨0, 0, 10, 1⟩,
        [Call.malloc 0, Call.backend_alloc 0 10 true 1]⟩ =
      .ok (1, ⟨[], [⟨0, 1, 10, true⟩], ⟨0, 0, 10, 1⟩,
        [Call.malloc 0, Call.backend_alloc 0 10 true 1]⟩) :=
  ⟨rfl, rfl⟩

/-- C6 (kind isolation).  Whatever the available list holds,
`internal_mempool_malloc` never stops in `assert(chunk->on_device ==
on_device)`; when it returns for `0 < size`, the chunk whose address it returns
is the new head of the allocated list and is of the requested kind, so
`dbm_mempool_host_malloc` returns host chunks and `dbm_mempool_device_malloc`
device chunks.  No operation changes the kind of a record: after an acquire the
records with their kinds are those before it, plus at most one new record of
the requested kind; after a release they are those before it; after a teardown
there is none. -/
theorem kind_isolation (env : Env) (s : Pool) :
    (∀ size on_device,
      internal_mempool_malloc env size on_device s ≠ .error Fault.kind_mismatch) ∧
    (∀ size on_device r s', 0 < size →
      internal_mempool_malloc env size on_device s = .ok (r, s') →
        ∃ chunk, s'.mempool_allocated_head = chunk :: s.mempool_allocated_head ∧
          chunk.mem = r ∧ chunk.on_device = on_device) ∧
    (∀ size r s', 0 < size → dbm_mempool_host_malloc env size s = .ok (r, s') →
      ∃ chunk, s'.mempool_allocated_head = chunk :: s.mempool_allocated_head ∧
        chunk.mem = r ∧ chunk.on_device = false) ∧
    (∀ size r s', 0 < size → dbm_mempool_device_malloc env size s = .ok (r, s') →
      ∃ chunk, s'.mempool_allocated_head = chunk :: s.mempool_allocated_head ∧
        chunk.mem = r ∧ chunk.on_device = true) ∧
    (∀ size on_device r s', internal_mempool_malloc env size on_device s = .ok (r, s') →
      s'.kinds.Perm s.kinds ∨ s'.kinds.Perm ((s.trace.length, on_device) :: s.kinds)) ∧
    (∀ mem s', dbm_mempool_free mem s = .ok s' → s'.kinds.Perm s.kinds) ∧
    (∀ n s', dbm_mempool_clear n s = .ok s' → s'.kinds = []) := by
  have hhead : ∀ size on_device r s', 0 < size →
      internal_mempool_malloc env size on_device s = .ok (r, s') →
        ∃ chunk, s'.mempool_allocated_head = chunk :: s.mempool_allocated_head ∧
          chunk.mem = r ∧ chunk.on_device = on_device := by
    intro size k r s' hsize hok
    rcases malloc_cases env hsize hok with
      ⟨_, c, _, _, hk, _, _, hr, rfl⟩ | ⟨_, c, _, _, _, _, _, _, rfl⟩ | ⟨_, _, _, rfl⟩
    · exact ⟨c, rfl, hr.symm, hk⟩
    · exact ⟨_, rfl, rfl, rfl⟩
    · exact ⟨_, rfl, rfl, rfl⟩
  refine ⟨?_, hhead, fun size => hhead size false, fun size => hhead size true, ?_, ?_, ?_⟩
  · intro size k herr
    rcases malloc_fault env herr with h | h <;> cases h
  · intro size k r s' hok
    exact malloc_kinds env hok
  · intro mem s' hok
    rcases free_cases hok with ⟨_, rfl⟩ | ⟨_, pre, c, post, hsplit, _, _, rfl⟩
    · exact List.Perm.refl _
    · unfold Pool.kinds
      rw [hsplit]
      exact (perm_move_back s.mempool_available_head pre post c).map _
  · intro n s' hok
    obtain ⟨_, _, rfl⟩ := clear_cases hok
    rfl

/-- A device request on a pool whose available chunks are all host chunks:
the returned chunk is a device chunk, the host chunks stay available. -/
theorem kind_isolation_witness :
    0 < 5 ∧
    dbm_mempool_device_malloc demo_env 5 pool_10_40 =
      .ok (16, ⟨[⟨0, 7, 10, false⟩, ⟨2, 8, 40, false⟩], [⟨4, 16, 5, true⟩], ⟨50, 2, 5, 1⟩,
        pool_10_40.trace ++ [Call.malloc 4, Call.backend_alloc 4 5 true 16]⟩) ∧
    ∃ chunk, [(⟨4, 16, 5, true⟩ : dbm_memchunk_t)] = chunk :: pool_10_40.mempool_allocated_head ∧
      chunk.mem = 16 ∧ chunk.on_device = true :=
  ⟨by decide, rfl,
    (kind_isolation demo_env pool_10_40).2.2.2.1 5 16 _ (by decide) rfl⟩

/-- C7 (release effect and frame).  For a non-null address held by a chunk of
the allocated list, `dbm_mempool_free` returns; the first chunk of the allocated
list that holds the address is taken out of it and put, with all its fields as
they were, at the head of the available list; the other chunks stay where they
are, in the same order; the log of outside calls and the four counters are as
before. -/
theorem release_moves_chunk (s : Pool) (mem : Nat) (hmem : mem ≠ 0)
    (hheld : ∃ c ∈ s.mempool_allocated_head, c.mem = mem) :
    ∃ pre chunk post,
      s.mempool_allocated_head = pre ++ chunk :: post ∧
      chunk.mem = mem ∧ (∀ c ∈ pre, c.mem ≠ mem) ∧
      dbm_mempool_free mem s =
        .ok ⟨chunk :: s.mempool_available_head, pre ++ post, s.mempool_stats, s.trace⟩ := by
  obtain ⟨pre, c, post, h1, h2, h3, _⟩ := find_chunk_found mem s.mempool_allocated_head hheld
  exact ⟨pre, c, post, h1, h2, h3, free_found hmem h1 h2 h3⟩

/-- The release of address 8, held by the second of three lent chunks. -/
theorem release_moves_chunk_witness :
    ((8 : Nat) ≠ 0 ∧ ∃ c ∈ pool_lent.mempool_allocated_head, c.mem = 8) ∧
    ∃ pre chunk post,
      pool_lent.mempool_allocated_head = pre ++ chunk :: post ∧
      chunk.mem = 8 ∧ (∀ c ∈ pre, c.mem ≠ 8) ∧
      dbm_mempool_free 8 pool_lent =
        .ok ⟨chunk :: pool_lent.mempool_available_head, pre ++ post,
          pool_lent.mempool_stats, pool_lent.trace⟩ :=
  ⟨⟨by decide, ⟨2, 8, 40, true⟩, by decide, rfl⟩,
    release_moves_chunk pool_lent 8 (by decide) ⟨⟨2, 8, 40, true⟩, by decide, rfl⟩⟩

/-- The release of address 8 moves the device chunk of size 40 to the head of
the available list and keeps the order of the two chunks that stay lent. -/
theorem release_example :
    dbm_mempool_free 8 pool_lent =
      .ok ⟨[⟨2, 8, 40, true⟩, ⟨6, 11, 3, false⟩], [⟨0, 7, 10, false⟩, ⟨4, 9, 5, false⟩],
        pool_lent.mempool_stats, pool_lent.trace⟩ := by
  rfl

/-- C8 (release fails exactly on unknown addresses).  `dbm_mempool_free(mem)`
stops in its assertion if and only if `mem` is not `NULL` and no chunk of the
allocated list holds `mem`; it has no other way to fail, so in every other case
it returns; an address held only by a chunk of the available list is rejected;
for `NULL` it returns with the state unchanged. -/
theorem release_fails_iff_unknown (s : Pool) (mem : Nat) :
    (dbm_mempool_free mem s = .error Fault.unknown_address ↔
      mem ≠ 0 ∧ ∀ c ∈ s.mempool_allocated_head, c.mem ≠ mem) ∧
    ((∃ s', dbm_mempool_free mem s = .ok s') ↔
      ¬ (mem ≠ 0 ∧ ∀ c ∈ s.mempool_allocated_head, c.mem ≠ mem)) ∧
    (∀ e, dbm_mempool_free mem s = .error e → e = Fault.unknown_address) ∧
    (mem ≠ 0 → (∃ c ∈ s.mempool_available_head, c.mem = mem) →
      (∀ c ∈ s.mempool_allocated_head, c.mem ≠ mem) →
        dbm_mempool_free mem s = .error Fault.unknown_address) ∧
    dbm_mempool_free 0 s = .ok s := by
  have hnull : dbm_mempool_free 0 s = .ok s := by simp [dbm_mempool_free]
  have hcases : (mem ≠ 0 ∧ ∀ c ∈ s.mempool_allocated_head, c.mem ≠ mem) ∨
      ∃ s', dbm_mempool_free mem s = .ok s' := by
    by_cases hmem : mem = 0
    · subst hmem
      exact Or.inr ⟨s, hnull⟩
    · by_cases hheld : ∃ c ∈ s.mempool_allocated_head, c.mem = mem
      · obtain ⟨pre, c, post, h1, h2, h3, _⟩ :=
          find_chunk_found mem s.mempool_allocated_head hheld
        exact Or.inr ⟨_, free_found hmem h1 h2 h3⟩
      · exact Or.inl ⟨hmem, fun c hc hm => hheld ⟨c, hc, hm⟩⟩
  refine ⟨⟨?_, ?_⟩, ⟨?_, ?_⟩, ?_, ?_, hnull⟩
  · intro herr
    rcases hcases with h | ⟨s', h⟩
    · exact h
    · rw [h] at herr
      cases herr
  · rintro ⟨hmem, hno⟩
    exact free_missing hmem hno
  · rintro ⟨s', hok⟩ ⟨hmem, hno⟩
    rw [free_missing hmem hno] at hok
    cases hok
  · intro hnot
    rcases hcases with h | h
    · exact absurd h hnot
    · exact h
  · intro e herr
    rcases hcases with ⟨hmem, hno⟩ | ⟨s', h⟩
    · rw [free_missing hmem hno] at herr
      cases herr
      rfl
    · rw [h] at herr
      cases herr
  · intro hmem _ hno
    exact free_missing hmem hno

/-- Address 11 is held by an available chunk of `pool_lent` and by no lent
one: its release stops in the assertion. -/
theorem release_of_available_example :
    dbm_mempool_free 11 pool_lent = .error Fault.unknown_address := by
  rfl

/-- C9 (double release is detected).  With a system allocator that never
returns the address of a region still in use, in a state the pool reaches from
the state at program start: after `dbm_mempool_free(p)` returned for a non-null
`p`, a second `dbm_mempool_free(p)` stops in the assertion, whether it is
called at once or after further releases and teardowns that returned, as long
as no acquire came in between. -/
theorem double_release_detected (env : Env) (hfresh : FreshBackend env) (s : Pool)
    (hreach : Reachable env s) (p : Nat) (hp : p ≠ 0) (s1 : Pool)
    (h1 : dbm_mempool_free p s = .ok s1) :
    dbm_mempool_free p s1 = .error Fault.unknown_address ∧
    ∀ ops s2, (∀ op ∈ ops, op.is_acquire = false) → run env ops s1 = .ok s2 →
      dbm_mempool_free p s2 = .error Fault.unknown_address := by
  have hnd := (reachable_owned hfresh hreach).2
  have hgone : ∀ c ∈ s1.mempool_allocated_head, c.mem ≠ p := by
    rcases free_cases h1 with ⟨h0, _⟩ | ⟨_, pre, c, post, hsplit, hc, _, rfl⟩
    · exact absurd h0 hp
    · unfold Pool.chunks at hnd
      rw [hsplit] at hnd
      have hnd2 : ((pre ++ c :: post).map fun c => c.mem).Nodup := by
        rw [List.map_append] at hnd
        exact (List.nodup_append.mp hnd).2.1
      have hnd3 : (c.mem :: (pre ++ post).map fun c => c.mem).Nodup := by
        have hpm : (pre ++ c :: post).Perm (c :: (pre ++ post)) := List.perm_middle
        have := (hpm.map fun c : dbm_memchunk_t => c.mem).nodup_iff.mp hnd2
        simpa using this
      intro d hd hdp
      apply (List.nodup_cons.mp hnd3).1
      rw [hc, ← hdp]
      exact List.mem_map_of_mem _ hd
  refine ⟨free_missing hp hgone, ?_⟩
  intro ops s2 hops hrun
  exact free_missing hp (not_held_run env p ops s1 s2 hops hgone hrun)

/-- Two chunks lent out, the first one released twice in a row. -/
theorem double_release_detected_witness :
    FreshBackend demo_env ∧ Reachable demo_env pool_two_lent ∧ (1 : Nat) ≠ 0 ∧
    dbm_mempool_free 1 pool_two_lent =
      .ok ⟨[⟨0, 1, 10, false⟩], [⟨2, 2, 20, false⟩], ⟨30, 2, 0, 0⟩, pool_two_lent.trace⟩ ∧
    dbm_mempool_free 1
      ⟨[⟨0, 1, 10, false⟩], [⟨2, 2, 20, false⟩], ⟨30, 2, 0, 0⟩, pool_two_lent.trace⟩ =
      .error Fault.unknown_address :=
  ⟨demo_env_fresh, ⟨[Op.acquire 10 false, Op.acquire 20 false], rfl⟩, by decide, rfl,
    (double_release_detected demo_env demo_env_fresh pool_two_lent
      ⟨[Op.acquire 10 false, Op.acquire 20 false], rfl⟩ 1 (by decide) _ rfl).1⟩

/-- C10 (leak detection).  Called from a single thread, `dbm_mempool_clear`
stops in the assertion `mempool_allocated_head == NULL` if and only if the
allocated list is not empty, and it returns if and only if the list is empty;
so it never returns while a chunk is lent out.  In particular, after one call
of `internal_mempool_malloc` with `0 < size` that returned, `dbm_mempool_clear`
stops in that assertion. -/
theorem clear_fails_iff_leak (s : Pool) :
    (dbm_mempool_clear 1 s = .error Fault.memory_leak ↔ s.mempool_allocated_head ≠ []) ∧
    ((∃ s', dbm_mempool_clear 1 s = .ok s') ↔ s.mempool_allocated_head = []) ∧
    (∀ (env : Env) (size : Nat) (on_device : Bool) (r : Nat) (s1 : Pool),
      0 < size → internal_mempool_malloc env size on_device s = .ok (r, s1) →
        dbm_mempool_clear 1 s1 = .error Fault.memory_leak) := by
  have hleak : ∀ t : Pool, t.mempool_allocated_head ≠ [] →
      dbm_mempool_clear 1 t = .error Fault.memory_leak := by
    intro t ht
    unfold dbm_mempool_clear
    cases hl : t.mempool_allocated_head with
    | nil => exact absurd hl ht
    | cons a l => simp
  have hempty : s.mempool_allocated_head = [] → ∃ s', dbm_mempool_clear 1 s = .ok s' := by
    intro hs
    unfold dbm_mempool_clear
    rw [hs]
    exact ⟨_, rfl⟩
  refine ⟨⟨?_, hleak s⟩, ⟨?_, hempty⟩, ?_⟩
  · intro herr hs
    obtain ⟨s', hok⟩ := hempty hs
    rw [hok] at herr
    cases herr
  · rintro ⟨s', hok⟩
    by_contra hs
    rw [hleak s hs] at hok
    cases hok
  · intro env size on_device r s1 hsize hok
    apply hleak
    rcases malloc_cases env hsize hok with
      ⟨_, _, _, _, _, _, _, _, rfl⟩ | ⟨_, _, _, _, _, _, _, _, rfl⟩ | ⟨_, _, _, rfl⟩ <;> simp

/-- One acquire of 10 host bytes on the pool at program start, not released:
the teardown stops in the leak assertion. -/
theorem clear_fails_iff_leak_witness :
    0 < 10 ∧
    internal_mempool_malloc demo_env 10 false Pool.initial =
      .ok (1, ⟨[], [⟨0, 1, 10, false⟩], ⟨10, 1, 0, 0⟩,
        [Call.malloc 0, Call.backend_alloc 0 10 false 1]⟩) ∧
    dbm_mempool_clear 1 ⟨[], [⟨0, 1, 10, false⟩], ⟨10, 1, 0, 0⟩,
        [Call.malloc 0, Call.backend_alloc 0 10 false 1]⟩ = .error Fault.memory_leak :=
  ⟨by decide, rfl,
    (clear_fails_iff_leak Pool.initial).2.2 demo_env 10 false 1 _ (by decide) rfl⟩

/-- With nothing lent out the teardown returns: both lists are empty and each
available chunk went through `actual_free` and `free`. -/
theorem clear_example :
    dbm_mempool_clear 1 pool_10_40 =
      .ok ⟨[], [], pool_10_40.mempool_stats,
        pool_10_40.trace ++ [Call.backend_free 7 false, Call.free 0,
          Call.backend_free 8 false, Call.free 2]⟩ := by
  rfl

/-- C11 (drain postcondition).  Called from a single thread in a state whose
allocated list is empty, `dbm_mempool_clear` returns; both lists are then empty
and the four counters are as before.  The outside calls it made are, for each
chunk of the former available list in list order, `actual_free` of the chunk's
address with the chunk's kind followed by `free` of the record: so the regions
handed to the system release are those of the chunks (each once, with its own
kind, in list order), and no system allocation was made. -/
theorem drain_postcondition (s : Pool) (hempty : s.mempool_allocated_head = []) :
    dbm_mempool_clear 1 s =
      .ok ⟨[], [], s.mempool_stats, s.trace ++ teardown_calls s.mempool_available_head⟩ ∧
    backend_frees (teardown_calls s.mempool_available_head) =
      ((s.mempool_available_head.filter fun c => decide (c.mem ≠ 0)).map
        fun c => (c.mem, c.on_device)) ∧
    ((∀ c ∈ s.mempool_available_head, c.mem ≠ 0) →
      backend_frees (teardown_calls s.mempool_available_head) =
        s.mempool_available_head.map fun c => (c.mem, c.on_device)) ∧
    (∀ K, alloc_count K (s.trace ++ teardown_calls s.mempool_available_head) =
      alloc_count K s.trace) := by
  refine ⟨?_, backend_frees_teardown _, ?_, ?_⟩
  · unfold dbm_mempool_clear
    rw [hempty, free_chunks_eq_append]
    rfl
  · intro hne
    rw [backend_frees_teardown]
    congr 1
    apply List.filter_eq_self.mpr
    intro c hc
    simpa using hne c hc
  · intro K
    have := alloc_count_teardown K s.mempool_available_head
    unfold alloc_count at this ⊢
    rw [List.countP_append, this, Nat.add_zero]

/-- The teardown of the pool with available host chunks of sizes 10 and 40
(addresses 7 and 8): both regions are released, in list order. -/
theorem drain_postcondition_witness :
    pool_10_40.mempool_allocated_head = [] ∧
    dbm_mempool_clear 1 pool_10_40 =
      .ok ⟨[], [], ⟨50, 2, 0, 0⟩,
        pool_10_40.trace ++ [Call.backend_free 7 false, Call.free 0,
          Call.backend_free 8 false, Call.free 2]⟩ ∧
    backend_frees (teardown_calls pool_10_40.mempool_available_head) = [(7, false), (8, false)] :=
  ⟨rfl, (drain_postcondition pool_10_40 rfl).1,
    ((drain_postcondition pool_10_40 rfl).2.2.1 (by decide))⟩

/-- C12 (zero-size no-op).  For either kind `internal_mempool_malloc(0, kind)`
returns `NULL` and leaves the two lists, the four counters and the log of
outside calls as they were; `dbm_mempool_free(NULL)` does the same; so an
acquire of size 0 followed by the release of its result leaves the state it
started from. -/
theorem zero_size_noop (env : Env) (s : Pool) (on_device : Bool) :
    internal_mempool_malloc env 0 on_device s = .ok (0, s) ∧
    dbm_mempool_host_malloc env 0 s = .ok (0, s) ∧
    dbm_mempool_device_malloc env 0 s = .ok (0, s) ∧
    dbm_mempool_free 0 s = .ok s ∧
    (∀ r s1, internal_mempool_malloc env 0 on_device s = .ok (r, s1) →
      dbm_mempool_free r s1 = .ok s) ∧
    run env [Op.acquire 0 on_device, Op.release 0] s = .ok s := by
  have hfree : dbm_mempool_free 0 s = .ok s := by simp [dbm_mempool_free]
  refine ⟨malloc_zero env on_device s, malloc_zero env false s, malloc_zero env true s,
    hfree, ?_, ?_⟩
  · intro r s1 h
    rw [malloc_zero] at h
    cases h
    exact hfree
  · simp [run, step, malloc_zero, hfree]

/-- An acquire of size 0 and the release of `NULL` on a pool with lent
chunks. -/
theorem zero_size_example :
    internal_mempool_malloc demo_env 0 true pool_lent = .ok (0, pool_lent) ∧
    dbm_mempool_free 0 pool_lent = .ok pool_lent :=
  ⟨rfl, rfl⟩

/-- C13 (statistics consistency).  For every starting state `s`, every
sequence of acquires, releases and teardowns that returns, and each kind `K`:
with `run_deltas` the list of the growths for `K`, one entry `size -` (size of
the selected chunk before the call) for each acquire of the kind `K` that went
to the system allocator, the grow counter of `K` has moved by the number of
entries and the bytes counter of `K` by their sum, in the arithmetic of the
counters (modulo `2 ^ counter_bits`, hence exactly when the sum fits); the
number of entries is the number of system allocations of the kind `K` logged
during the sequence.  An acquire of the other kind, a release and a teardown
leave both counters of `K` as they are, and `dbm_mempool_statistics` stores the
four current counters (it has no access to the state but to read them). -/
theorem statistics_consistency (env : Env) (K : Bool) (ops : List Op) (s s' : Pool)
    (hrun : run env ops s = .ok s') :
    s'.mempool_stats.mallocs_of K % 2 ^ env.counter_bits =
      (s.mempool_stats.mallocs_of K + (run_deltas env K ops s).length) %
        2 ^ env.counter_bits ∧
    s'.mempool_stats.size_of K % 2 ^ env.counter_bits =
      (s.mempool_stats.size_of K + (run_deltas env K ops s).sum) % 2 ^ env.counter_bits ∧
    (s.mempool_stats.mallocs_of K + (run_deltas env K ops s).length < 2 ^ env.counter_bits →
      s'.mempool_stats.mallocs_of K =
        s.mempool_stats.mallocs_of K + (run_deltas env K ops s).length) ∧
    (s.mempool_stats.size_of K + (run_deltas env K ops s).sum < 2 ^ env.counter_bits →
      s'.mempool_stats.size_of K =
        s.mempool_stats.size_of K + (run_deltas env K ops s).sum) ∧
    alloc_count K s'.trace = alloc_count K s.trace + (run_deltas env K ops s).length ∧
    (∀ size r t t', internal_mempool_malloc env size K t = .ok (r, t') →
      (acquire_delta size K t = none →
        t'.mempool_stats.mallocs_of K = t.mempool_stats.mallocs_of K ∧
        t'.mempool_stats.size_of K = t.mempool_stats.size_of K ∧
        alloc_count K t'.trace = alloc_count K t.trace) ∧
      (∀ d, acquire_delta size K t = some d →
        t'.mempool_stats.mallocs_of K =
          (t.mempool_stats.mallocs_of K + 1) % 2 ^ env.counter_bits ∧
        t'.mempool_stats.size_of K =
          (t.mempool_stats.size_of K + d) % 2 ^ env.counter_bits ∧
        alloc_count K t'.trace = alloc_count K t.trace + 1)) ∧
    (∀ size r t t', internal_mempool_malloc env size (!K) t = .ok (r, t') →
      t'.mempool_stats.mallocs_of K = t.mempool_stats.mallocs_of K ∧
      t'.mempool_stats.size_of K = t.mempool_stats.size_of K) ∧
    (∀ mem t t', dbm_mempool_free mem t = .ok t' → t'.mempool_stats = t.mempool_stats) ∧
    (∀ n t t', dbm_mempool_clear n t = .ok t' → t'.mempool_stats = t.mempool_stats) ∧
    (∀ t memstats, memstats ≠ 0 → dbm_mempool_statistics memstats t = .ok t.mempool_stats) := by
  obtain ⟨hcnt, hlog⟩ := run_delta env K ops s s' hrun
  have hstep : ∀ size k r t t', internal_mempool_malloc env size k t = .ok (r, t') →
      step env (Op.acquire size k) t = .ok t' := by
    intro size k r t t' h
    simp [step, h]
  refine ⟨?_, ?_, ?_, ?_, hlog, ?_, ?_, ?_, ?_, ?_⟩
  · rcases hcnt with ⟨hnil, hm, _⟩ | ⟨hm, _⟩
    · rw [hnil, hm]; rfl
    · rw [hm, Nat.mod_mod]
  · rcases hcnt with ⟨hnil, _, hz⟩ | ⟨_, hz⟩
    · rw [hnil, hz]; rfl
    · rw [hz, Nat.mod_mod]
  · intro hfits
    rcases hcnt with ⟨hnil, hm, _⟩ | ⟨hm, _⟩
    · rw [hnil, hm]; rfl
    · rw [hm, Nat.mod_eq_of_lt hfits]
  · intro hfits
    rcases hcnt with ⟨hnil, _, hz⟩ | ⟨_, hz⟩
    · rw [hnil, hz]; rfl
    · rw [hz, Nat.mod_eq_of_lt hfits]
  · intro size r t t' h
    have hd := step_delta env K (hstep size K r t t' h)
    simp only [op_delta, if_true] at hd
    constructor
    · intro hnone
      rcases hd with ⟨_, h1, h2, h3⟩ | ⟨d, hsome, _⟩
      · exact ⟨h1, h2, h3⟩
      · rw [hnone] at hsome
        cases hsome
    · intro d hsome
      rcases hd with ⟨hnone, _⟩ | ⟨d', hsome', h1, h2, h3⟩
      · rw [hnone] at hsome
        cases hsome
      · rw [hsome] at hsome'
        cases hsome'
        exact ⟨h1, h2, h3⟩
  · intro size r t t' h
    have hd := step_delta env K (hstep size (!K) r t t' h)
    have hne : (!K) ≠ K := by cases K <;> simp
    simp only [op_delta, if_neg hne] at hd
    rcases hd with ⟨_, h1, h2, _⟩ | ⟨d, hsome, _⟩
    · exact ⟨h1, h2⟩
    · cases hsome
  · intro mem t t' h
    rcases free_cases h with ⟨_, rfl⟩ | ⟨_, _, _, _, _, _, _, rfl⟩ <;> rfl
  · intro n t t' h
    obtain ⟨_, _, rfl⟩ := clear_cases h
    rfl
  · intro t memstats hp
    simp [dbm_mempool_statistics, hp]

/-- The counters after `demo_ops`: two growths of 10 and 20 bytes for the host
kind, two of 20 and 5 bytes for the device kind. -/
theorem statistics_consistency_witness :
    run demo_env demo_ops Pool.initial = .ok pool_after_demo_ops ∧
    run_deltas demo_env false demo_ops Pool.initial = [10, 20] ∧
    run_deltas demo_env true demo_ops Pool.initial = [20, 5] ∧
    pool_after_demo_ops.mempool_stats.mallocs_of false % 2 ^ demo_env.counter_bits =
      (Pool.initial.mempool_stats.mallocs_of false +
        (run_deltas demo_env false demo_ops Pool.initial).length) % 2 ^ demo_env.counter_bits ∧
    pool_after_demo_ops.mempool_stats.size_of false % 2 ^ demo_env.counter_bits =
      (Pool.initial.mempool_stats.size_of false +
        (run_deltas demo_env false demo_ops Pool.initial).sum) % 2 ^ demo_env.counter_bits ∧
    pool_after_demo_ops.mempool_stats = ⟨30, 2, 25, 2⟩ :=
  ⟨rfl, rfl, rfl,
    (statistics_consistency demo_env false demo_ops Pool.initial pool_after_demo_ops rfl).1,
    (statistics_consistency demo_env false demo_ops Pool.initial pool_after_demo_ops rfl).2.1,
    rfl⟩

/-- C14 (no leak and no double free towards the backend).  With a system
allocator that never returns the address of a region still in use, in every
state the pool reaches from the state at program start (so after each completed
call of every sequence of acquires, releases and teardowns, see `run_prefix`):
the regions
allocated and not yet freed are exactly the addresses held by the chunks of the
two lists, each once; every system release so far released a region that was
in use at that moment, so none was released twice; and after a teardown that
returns no region remains in use. -/
theorem no_leak_no_double_free (env : Env) (hfresh : FreshBackend env) (s : Pool)
    (hreach : Reachable env s) :
    (live_regions s.trace).Perm (s.chunks.map fun c => c.mem) ∧
    (live_regions s.trace).Nodup ∧
    (∀ m, m ∈ live_regions s.trace ↔ ∃ c ∈ s.chunks, c.mem = m) ∧
    frees_live s.trace = true ∧
    (∀ n s', dbm_mempool_clear n s = .ok s' →
      live_regions s'.trace = [] ∧ frees_live s'.trace = true) := by
  obtain ⟨hperm, hnd⟩ := reachable_owned hfresh hreach
  refine ⟨hperm, hperm.nodup_iff.mpr hnd, ?_, reachable_frees_live hfresh hreach, ?_⟩
  · intro m
    rw [hperm.mem_iff, List.mem_map]
  · intro n s' hclear
    have hreach' : Reachable env s' := reachable_step hreach (show step env (Op.drain n) s = _ from hclear)
    obtain ⟨_, _, hs'⟩ := clear_cases hclear
    have hp := (reachable_owned hfresh hreach').1
    have hch : s'.chunks = [] := by rw [hs']; rfl
    rw [hch] at hp
    exact ⟨List.perm_nil.mp hp, reachable_frees_live hfresh hreach'⟩

/-- The regions in use after `demo_ops` are the addresses 8, 4 and 2 of the
three chunks; the one release of the log released the region 1 while it was in
use. -/
theorem no_leak_no_double_free_witness :
    FreshBackend demo_env ∧ Reachable demo_env pool_after_demo_ops ∧
    live_regions pool_after_demo_ops.trace = [8, 4, 2] ∧
    (live_regions pool_after_demo_ops.trace).Perm
      (pool_after_demo_ops.chunks.map fun c => c.mem) ∧
    frees_live pool_after_demo_ops.trace = true :=
  ⟨demo_env_fresh, ⟨demo_ops, rfl⟩, rfl,
    (no_leak_no_double_free demo_env demo_env_fresh pool_after_demo_ops ⟨demo_ops, rfl⟩).1,
    (no_leak_no_double_free demo_env demo_env_fresh pool_after_demo_ops ⟨demo_ops, rfl⟩).2.2.2.1⟩

/-- C15 (borrowed addresses are stable and never aliased).  With a system
allocator that never returns the address of a region still in use, in every
state the pool reaches from the state at program start: the addresses of the
lent chunks are pairwise distinct; an acquire with `0 < size` that returns gives
an address that no chunk lent before the call holds; an acquire leaves the
chunks lent before it in the allocated list with all their fields as they were
(it only puts a chunk in front of them); a release that returns takes at most
one chunk out of the allocated list and leaves every lent chunk with another
address in it, with all its fields as they were. -/
theorem borrowed_addresses_stable (env : Env) (hfresh : FreshBackend env) (s : Pool)
    (hreach : Reachable env s) :
    (s.mempool_allocated_head.map fun c => c.mem).Nodup ∧
    (∀ size on_device r s', 0 < size →
      internal_mempool_malloc env size on_device s = .ok (r, s') →
        (∀ c ∈ s.mempool_allocated_head, c.mem ≠ r) ∧
        ∃ chunk, chunk.mem = r ∧ s'.mempool_allocated_head = chunk :: s.mempool_allocated_head) ∧
    (∀ size on_device r s', internal_mempool_malloc env size on_device s = .ok (r, s') →
      ∃ l, s'.mempool_allocated_head = l ++ s.mempool_allocated_head) ∧
    (∀ mem s', dbm_mempool_free mem s = .ok s' →
      s'.mempool_allocated_head.Sublist s.mempool_allocated_head ∧
      ∀ c ∈ s.mempool_allocated_head, c.mem ≠ mem → c ∈ s'.mempool_allocated_head) := by
  have hlent : ∀ t : Pool, Reachable env t →
      (t.mempool_allocated_head.map fun c => c.mem).Nodup := by
    intro t ht
    have hnd := (reachable_owned hfresh ht).2
    unfold Pool.chunks at hnd
    rw [List.map_append] at hnd
    exact (List.nodup_append.mp hnd).2.1
  have hhead : ∀ size on_device r s', 0 < size →
      internal_mempool_malloc env size on_device s = .ok (r, s') →
        ∃ chunk, chunk.mem = r ∧
          s'.mempool_allocated_head = chunk :: s.mempool_allocated_head := by
    intro size k r s' hsize hok
    rcases malloc_cases env hsize hok with
      ⟨_, c, _, _, _, _, _, hr, rfl⟩ | ⟨_, c, _, _, _, _, _, _, rfl⟩ | ⟨_, _, _, rfl⟩
    · exact ⟨c, hr.symm, rfl⟩
    · exact ⟨_, rfl, rfl⟩
    · exact ⟨_, rfl, rfl⟩
  refine ⟨hlent s hreach, ?_, ?_, ?_⟩
  · intro size k r s' hsize hok
    obtain ⟨chunk, hr, hal⟩ := hhead size k r s' hsize hok
    refine ⟨?_, chunk, hr, hal⟩
    have hnd := hlent s' (reachable_acquire hreach hok)
    rw [hal, List.map_cons, List.nodup_cons] at hnd
    intro c hc hcr
    apply hnd.1
    rw [hr, ← hcr]
    exact List.mem_map_of_mem _ hc
  · intro size k r s' hok
    by_cases hsize : size = 0
    · subst hsize
      rw [malloc_zero] at hok
      cases hok
      exact ⟨[], rfl⟩
    · obtain ⟨chunk, _, hal⟩ := hhead size k r s' (Nat.pos_of_ne_zero hsize) hok
      exact ⟨[chunk], hal⟩
  · intro mem s' hfree
    rcases free_cases hfree with ⟨_, rfl⟩ | ⟨_, pre, c, post, hsplit, hc, _, rfl⟩
    · exact ⟨List.Sublist.refl _, fun c hc _ => hc⟩
    · refine ⟨?_, ?_⟩
      · rw [hsplit]
        exact (List.sublist_cons_self c post).append_left pre
      · intro d hd hne
        rw [hsplit] at hd
        rcases List.mem_append.mp hd with hd | hd
        · exact List.mem_append_left _ hd
        · rcases List.mem_cons.mp hd with hd | hd
          · subst hd
            exact absurd hc hne
          · exact List.mem_append_right _ hd

/-- Two chunks lent out (addresses 2 and 1): a third acquire returns the new
address 4, and the release of 1 leaves the chunk with address 2 lent. -/
theorem borrowed_addresses_stable_witness :
    FreshBackend demo_env ∧ Reachable demo_env pool_two_lent ∧
    (pool_two_lent.mempool_allocated_head.map fun c => c.mem).Nodup ∧
    internal_mempool_malloc demo_env 7 false pool_two_lent =
      .ok (4, ⟨[], [⟨4, 4, 7, false⟩, ⟨2, 2, 20, false⟩, ⟨0, 1, 10, false⟩], ⟨37, 3, 0, 0⟩,
        pool_two_lent.trace ++ [Call.malloc 4, Call.backend_alloc 4 7 false 4]⟩) ∧
    (∀ c ∈ pool_two_lent.mempool_allocated_head, c.mem ≠ 4) :=
  ⟨demo_env_fresh, ⟨[Op.acquire 10 false, Op.acquire 20 false], rfl⟩,
    (borrowed_addresses_stable demo_env demo_env_fresh pool_two_lent
      ⟨[Op.acquire 10 false, Op.acquire 20 false], rfl⟩).1,
    rfl,
    ((borrowed_addresses_stable demo_env demo_env_fresh pool_two_lent
      ⟨[Op.acquire 10 false, Op.acquire 20 false], rfl⟩).2.1 7 false 4 _ (by decide) rfl).1⟩

/-- C17 (no double ownership).  In every state the pool reaches from the state
at program start (so after each completed call of every sequence of acquires
and releases, teardowns included, see `run_prefix`): no record occurs twice in
the concatenation of the available and the allocated list; the records that
exist (created by `malloc` and not passed to `free`) are exactly those of the
two lists, each exactly once; no record is in both lists.  An acquire that
finds a chunk of the kind in the available list moves that one chunk to the
head of the allocated list, a release of a non-null address that returns moves
one chunk to the head of the available list, and both leave the number of
chunks unchanged; the release of `NULL`, which releases nothing, changes
nothing. -/
theorem no_double_ownership (env : Env) (s : Pool) (hreach : Reachable env s) :
    (s.chunks.map fun c => c.id).Nodup ∧
    (live_records s.trace).Perm (s.chunks.map fun c => c.id) ∧
    (∀ id ∈ live_records s.trace, (s.chunks.map fun c => c.id).count id = 1) ∧
    (∀ c ∈ s.chunks, c.id ∈ live_records s.trace) ∧
    (∀ c ∈ s.mempool_available_head, ∀ d ∈ s.mempool_allocated_head, c.id ≠ d.id) ∧
    (∀ size on_device r s', 0 < size →
      internal_mempool_malloc env size on_device s = .ok (r, s') →
      (∃ c ∈ s.mempool_available_head, c.on_device = on_device) →
        ∃ pre c post c', s.mempool_available_head = pre ++ c :: post ∧
          s'.mempool_available_head = pre ++ post ∧
          s'.mempool_allocated_head = c' :: s.mempool_allocated_head ∧ c'.id = c.id ∧
          s'.num_chunks = s.num_chunks) ∧
    (∀ mem s', mem ≠ 0 → dbm_mempool_free mem s = .ok s' →
      ∃ pre c post, s.mempool_allocated_head = pre ++ c :: post ∧
        s'.mempool_allocated_head = pre ++ post ∧
        s'.mempool_available_head = c :: s.mempool_available_head ∧
        s'.num_chunks = s.num_chunks) ∧
    (∀ s', dbm_mempool_free 0 s = .ok s' → s' = s) := by
  have hnd := (reachable_backed hreach).1
  have hrec : (live_records s.trace).Perm (s.chunks.map fun c => c.id) :=
    reachable_recorded hreach
  refine ⟨hnd, hrec, ?_, ?_, ?_, ?_, ?_, ?_⟩
  · intro id hid
    exact List.count_eq_one_of_mem hnd (hrec.mem_iff.mp hid)
  · intro c hc
    exact hrec.mem_iff.mpr (List.mem_map_of_mem _ hc)
  · intro c hc d hd heq
    unfold Pool.chunks at hnd
    rw [List.map_append] at hnd
    have hdis := (List.nodup_append.mp hnd).2.2
    apply hdis (List.mem_map_of_mem (fun c : dbm_memchunk_t => c.id) hc)
    show c.id ∈ s.mempool_allocated_head.map fun c => c.id
    rw [heq]
    exact List.mem_map_of_mem (fun c : dbm_memchunk_t => c.id) hd
  · intro size k r s' hsize hok hex
    have hnum : ∀ (pre post : List dbm_memchunk_t) (c : dbm_memchunk_t),
        s.mempool_available_head = pre ++ c :: post →
        (pre ++ post).length + (s.mempool_allocated_head.length + 1) = s.num_chunks := by
      intro pre post c hsplit
      simp [Pool.num_chunks, hsplit]
      omega
    rcases malloc_cases env hsize hok with
      ⟨pre, c, post, hsplit, _, _, _, _, rfl⟩ | ⟨pre, c, post, hsplit, _, _, _, _, rfl⟩ |
      ⟨hno, _, _, _⟩
    · exact ⟨pre, c, post, c, hsplit, rfl, rfl, rfl, hnum pre post c hsplit⟩
    · exact ⟨pre, c, post, _, hsplit, rfl, rfl, rfl, hnum pre post c hsplit⟩
    · obtain ⟨c, hc, hk⟩ := hex
      exact absurd hk (hno c hc)
  · intro mem s' hmem hfree
    rcases free_cases hfree with ⟨h0, _⟩ | ⟨_, pre, c, post, hsplit, _, _, rfl⟩
    · exact absurd h0 hmem
    · refine ⟨pre, c, post, hsplit, rfl, rfl, ?_⟩
      simp [Pool.num_chunks, hsplit]
      omega
  · intro s' hfree
    rcases free_cases hfree with ⟨_, h⟩ | ⟨hne, _⟩
    · exact h
    · exact absurd rfl hne

/-- After `demo_ops` the three records 6, 0 and 2 exist, and they are the
three lent chunks. -/
theorem no_double_ownership_witness :
    Reachable demo_env pool_after_demo_ops ∧
    live_records pool_after_demo_ops.trace = [6, 2, 0] ∧
    (pool_after_demo_ops.chunks.map fun c => c.id) = [6, 0, 2] ∧
    (pool_after_demo_ops.chunks.map fun c => c.id).Nodup ∧
    (live_records pool_after_demo_ops.trace).Perm
      (pool_after_demo_ops.chunks.map fun c => c.id) :=
  ⟨⟨demo_ops, rfl⟩, rfl, rfl,
    (no_double_ownership demo_env pool_after_demo_ops ⟨demo_ops, rfl⟩).1,
    (no_double_ownership demo_env pool_after_demo_ops ⟨demo_ops, rfl⟩).2.1⟩

/-- C18 (monotone size).  For every pool state: an acquire with `0 < size`
that returns either takes a chunk of the kind out of the available list and
puts it at the head of the allocated list with size `max` (old size) `size`, or
adds a new record, created with size 0, that ends with size `max 0 size`; the
other chunks of both lists are the same records with the same fields.  Hence
after an acquire every chunk that existed before is still there with the same
kind and a size at least its old size, and a release, which only moves a record,
changes no size. -/
theorem monotone_size (env : Env) (s : Pool) :
    (∀ size on_device r s', 0 < size →
      internal_mempool_malloc env size on_device s = .ok (r, s') →
      (∃ pre c post c', s.mempool_available_head = pre ++ c :: post ∧
        c.on_device = on_device ∧ s'.mempool_available_head = pre ++ post ∧
        s'.mempool_allocated_head = c' :: s.mempool_allocated_head ∧
        c'.id = c.id ∧ c'.size = max c.size size) ∨
      ((∀ c ∈ s.mempool_available_head, c.on_device ≠ on_device) ∧
        s'.mempool_available_head = s.mempool_available_head ∧
        ∃ c', s'.mempool_allocated_head = c' :: s.mempool_allocated_head ∧
          c'.id = s.trace.length ∧ c'.size = max 0 size)) ∧
    (∀ size on_device r s', internal_mempool_malloc env size on_device s = .ok (r, s') →
      ∀ c ∈ s.chunks, ∃ c' ∈ s'.chunks,
        c'.id = c.id ∧ c'.on_device = c.on_device ∧ c.size ≤ c'.size) ∧
    (∀ mem s', dbm_mempool_free mem s = .ok s' → s'.chunks.Perm s.chunks) := by
  refine ⟨?_, ?_, ?_⟩
  · intro size k r s' hsize hok
    rcases malloc_cases env hsize hok with
      ⟨pre, c, post, hsplit, hk, hle, _, _, rfl⟩ | ⟨pre, c, post, hsplit, hk, hlt, _, _, rfl⟩ |
      ⟨hno, _, _, rfl⟩
    · exact Or.inl ⟨pre, c, post, c, hsplit, hk, rfl, rfl, rfl, (Nat.max_eq_left hle).symm⟩
    · exact Or.inl ⟨pre, c, post, _, hsplit, hk, rfl, rfl, rfl,
        (Nat.max_eq_right (Nat.le_of_lt hlt)).symm⟩
    · exact Or.inr ⟨hno, rfl, _, rfl, rfl, (Nat.max_eq_right (Nat.zero_le _)).symm⟩
  · intro size k r s' hok c hc
    by_cases hsize : size = 0
    · subst hsize
      rw [malloc_zero] at hok
      cases hok
      exact ⟨c, hc, rfl, rfl, Nat.le_refl _⟩
    · rcases malloc_cases env (Nat.pos_of_ne_zero hsize) hok with
        ⟨pre, c0, post, hsplit, _, _, _, _, rfl⟩ |
        ⟨pre, c0, post, hsplit, hk, hlt, _, _, rfl⟩ | ⟨_, _, _, rfl⟩
      · refine ⟨c, ?_, rfl, rfl, Nat.le_refl _⟩
        unfold Pool.chunks at hc ⊢
        rw [hsplit] at hc
        simp only [List.mem_append, List.mem_cons] at hc ⊢
        tauto
      · unfold Pool.chunks at hc ⊢
        rw [hsplit] at hc
        simp only [List.mem_append, List.mem_cons] at hc
        rcases hc with (hc | hc | hc) | hc
        · exact ⟨c, by simp [hc], rfl, rfl, Nat.le_refl _⟩
        · subst hc
          exact ⟨⟨c.id, r, size, k⟩, by simp, rfl, hk.symm, Nat.le_of_lt hlt⟩
        · exact ⟨c, by simp [hc], rfl, rfl, Nat.le_refl _⟩
        · exact ⟨c, by simp [hc], rfl, rfl, Nat.le_refl _⟩
      · refine ⟨c, ?_, rfl, rfl, Nat.le_refl _⟩
        unfold Pool.chunks at hc ⊢
        simp only [List.mem_append, List.mem_cons] at hc ⊢
        tauto
  · intro mem s' hfree
    exact (free_chunks_perm hfree).1

/-- The chunk of size 200 serves a request of 100 bytes and keeps its size;
the chunk of size 40 serves a request of 100 bytes and grows to 100. -/
theorem monotone_size_witness :
    0 < 100 ∧
    internal_mempool_malloc demo_env 100 false pool_50_200 =
      .ok (8, ⟨[⟨0, 7, 50, false⟩], [⟨2, 8, 200, false⟩], pool_50_200.mempool_stats,
        pool_50_200.trace⟩) ∧
    ((∃ pre c post c', pool_50_200.mempool_available_head = pre ++ c :: post ∧
        c.on_device = false ∧ [(⟨0, 7, 50, false⟩ : dbm_memchunk_t)] = pre ++ post ∧
        [(⟨2, 8, 200, false⟩ : dbm_memchunk_t)] = c' :: pool_50_200.mempool_allocated_head ∧
        c'.id = c.id ∧ c'.size = max c.size 100) ∨
      ((∀ c ∈ pool_50_200.mempool_available_head, c.on_device ≠ false) ∧
        [(⟨0, 7, 50, false⟩ : dbm_memchunk_t)] = pool_50_200.mempool_available_head ∧
        ∃ c', [(⟨2, 8, 200, false⟩ : dbm_memchunk_t)] =
            c' :: pool_50_200.mempool_allocated_head ∧
          c'.id = pool_50_200.trace.length ∧ c'.size = max 0 100)) :=
  ⟨by decide, rfl, (monotone_size demo_env pool_50_200).1 100 false 8 _ (by decide) rfl⟩

/-- C19, the claim as stated fails: a host acquire, its release and a device
acquire (no teardown) leave two chunk records, the available host chunk and the
lent device chunk, while at no point more than one acquisition was
outstanding. -/
theorem pool_size_bound_counterexample :
    (∀ op ∈ kind_switch_ops, op.is_drain = false) ∧
    run demo_env kind_switch_ops Pool.initial = .ok pool_after_kind_switch ∧
    peak_outstanding kind_switch_ops = 1 ∧
    pool_after_kind_switch.num_chunks = 2 ∧
    ¬ (pool_after_kind_switch.num_chunks ≤ peak_outstanding kind_switch_ops) :=
  ⟨by decide, rfl, rfl, rfl, by decide⟩

/-- C19 as amended (pool size bound per kind).  For every sequence of calls
that returns, started in the state at program start, and each kind `K`: the
number of chunk records of the kind `K` in the two lists is at most the largest
number of chunks of the kind `K` lent out at a time during the sequence, that
is, of acquisitions of the kind `K` outstanding at a time (an acquire with
`0 < size` of the kind adds one lent chunk of the kind, a release of a non-null
address takes away one of the kind of the chunk released).  Hence the number of
all records is at most the sum of the two maxima, and at most twice the largest
number of acquisitions outstanding at a time. -/
theorem pool_size_bound_per_kind (env : Env) (ops : List Op) (s : Pool)
    (hrun : run env ops Pool.initial = .ok s) (K : Bool) :
    s.chunks_of K ≤ peak_lent env K ops Pool.initial ∧
    s.num_chunks ≤ peak_lent env false ops Pool.initial + peak_lent env true ops Pool.initial ∧
    peak_lent env K ops Pool.initial ≤ peak_outstanding ops ∧
    s.num_chunks ≤ 2 * peak_outstanding ops ∧
    (∀ t size on_device r t', 0 < size →
      internal_mempool_malloc env size on_device t = .ok (r, t') →
        t'.lent_of K = t.lent_of K + if on_device = K then 1 else 0) ∧
    (∀ t mem t', mem ≠ 0 → dbm_mempool_free mem t = .ok t' →
      ∃ c ∈ t.mempool_allocated_head, c.mem = mem ∧
        t'.lent_of K + (if c.on_device = K then 1 else 0) = t.lent_of K) := by
  have hkind : ∀ K', s.chunks_of K' ≤ peak_lent env K' ops Pool.initial := by
    intro K'
    have h := chunks_of_run env K' ops Pool.initial s hrun
    have h0 : Pool.initial.chunks_of K' = 0 := rfl
    rw [h0, Nat.zero_max] at h
    exact h
  have hout : ∀ K', peak_lent env K' ops Pool.initial ≤ peak_outstanding ops :=
    fun K' => peak_lent_le_outstanding env K' ops Pool.initial s hrun
  have hnum := num_chunks_eq_kinds s
  have h1 := hkind false
  have h2 := hkind true
  have h3 := hout false
  have h4 := hout true
  refine ⟨hkind K, by omega, hout K, by omega, ?_, ?_⟩
  · intro t size k r t' hsize hok
    have hhead : ∃ chunk, chunk.on_device = k ∧
        t'.mempool_allocated_head = chunk :: t.mempool_allocated_head := by
      rcases malloc_cases env hsize hok with
        ⟨_, c, _, _, hk, _, _, _, rfl⟩ | ⟨_, c, _, _, _, _, _, _, rfl⟩ | ⟨_, _, _, rfl⟩
      · exact ⟨c, hk, rfl⟩
      · exact ⟨_, rfl, rfl⟩
      · exact ⟨_, rfl, rfl⟩
    obtain ⟨chunk, hk, hal⟩ := hhead
    unfold Pool.lent_of
    rw [hal, List.countP_cons, hk]
    simp
  · intro t mem t' hmem hfree
    rcases free_cases hfree with ⟨h0, _⟩ | ⟨_, pre, c, post, hsplit, hc, _, rfl⟩
    · exact absurd h0 hmem
    · refine ⟨c, by rw [hsplit]; simp, hc, ?_⟩
      unfold Pool.lent_of
      rw [hsplit]
      simp only [List.countP_append, List.countP_cons, beq_iff_eq]
      omega

/-- After `kind_switch_ops` there is one host record and at most one host
chunk was lent at a time; the two records in all are within the sum of the two
maxima. -/
theorem pool_size_bound_per_kind_witness :
    run demo_env kind_switch_ops Pool.initial = .ok pool_after_kind_switch ∧
    pool_after_kind_switch.chunks_of false = 1 ∧
    peak_lent demo_env false kind_switch_ops Pool.initial = 1 ∧
    peak_lent demo_env true kind_switch_ops Pool.initial = 1 ∧
    pool_after_kind_switch.chunks_of false ≤
      peak_lent demo_env false kind_switch_ops Pool.initial ∧
    pool_after_kind_switch.num_chunks ≤
      peak_lent demo_env false kind_switch_ops Pool.initial +
        peak_lent demo_env true kind_switch_ops Pool.initial :=
  ⟨rfl, rfl, rfl, rfl,
    (pool_size_bound_per_kind demo_env kind_switch_ops pool_after_kind_switch rfl false).1,
    (pool_size_bound_per_kind demo_env kind_switch_ops pool_after_kind_switch rfl false).2.1⟩

/-- C20 (statistics equal pooled capacity).  In every state the pool reaches
from the state at program start, with its zeroed counters, by acquires and
releases only, and for each kind `K`: the bytes counter of `K` is the sum of the
sizes of the chunks of the kind `K` in the two lists, reduced modulo
`2 ^ counter_bits`, hence equal to that sum when the sum fits the counter; the
grow counter of `K` is the number of system allocations made for the kind,
reduced in the same way, and there are at most as many chunks of the kind as
such allocations, hence at most as many as the grow counter says when that
number fits; every chunk of either list has a positive size and a non-null
address. -/
theorem stats_equal_capacity (env : Env) (ops : List Op) (s : Pool)
    (hops : ∀ op ∈ ops, op.is_drain = false)
    (hrun : run env ops Pool.initial = .ok s) (K : Bool) :
    s.mempool_stats.size_of K = s.sizes_of K % 2 ^ env.counter_bits ∧
    (s.sizes_of K < 2 ^ env.counter_bits → s.mempool_stats.size_of K = s.sizes_of K) ∧
    s.mempool_stats.mallocs_of K = alloc_count K s.trace % 2 ^ env.counter_bits ∧
    s.chunks_of K ≤ alloc_count K s.trace ∧
    (alloc_count K s.trace < 2 ^ env.counter_bits →
      s.chunks_of K ≤ s.mempool_stats.mallocs_of K) ∧
    (∀ c ∈ s.chunks, 0 < c.size ∧ c.mem ≠ 0) := by
  have hinit : Capacity env K Pool.initial := by
    refine ⟨?_, ?_, Nat.le_refl _, ?_⟩
    · cases K <;> simp [Pool.initial, dbm_memstats_t.size_of, Pool.sizes_of, Pool.chunks,
        sizes_in]
    · cases K <;> simp [Pool.initial, dbm_memstats_t.mallocs_of, alloc_count]
    · intro c hc
      cases hc
  obtain ⟨hsz, hml, hle, hpos⟩ := run_invariant_of env (fun op => op.is_drain = false)
    (Capacity env K) (capacity_step env K) ops Pool.initial s hops hinit hrun
  refine ⟨hsz, ?_, hml, hle, ?_, hpos⟩
  · intro hfits
    rw [hsz, Nat.mod_eq_of_lt hfits]
  · intro hfits
    rw [hml, Nat.mod_eq_of_lt hfits]
    exact hle

/-- After `demo_ops` the device chunks have sizes 5 and 20 and `device_size`
is 25; the host chunk has size 30 and `host_size` is 30. -/
theorem stats_equal_capacity_witness :
    (∀ op ∈ demo_ops, op.is_drain = false) ∧
    run demo_env demo_ops Pool.initial = .ok pool_after_demo_ops ∧
    pool_after_demo_ops.sizes_of true = 25 ∧
    pool_after_demo_ops.mempool_stats.size_of true = 25 ∧
    pool_after_demo_ops.chunks_of true = 2 ∧
    pool_after_demo_ops.mempool_stats.mallocs_of true = 2 ∧
    pool_after_demo_ops.mempool_stats.size_of true =
      pool_after_demo_ops.sizes_of true % 2 ^ demo_env.counter_bits ∧
    (∀ c ∈ pool_after_demo_ops.chunks, 0 < c.size ∧ c.mem ≠ 0) :=
  ⟨by decide, rfl, rfl, rfl, rfl, rfl,
    (stats_equal_capacity demo_env demo_ops pool_after_demo_ops (by decide) rfl true).1,
    (stats_equal_capacity demo_env demo_ops pool_after_demo_ops (by decide) rfl true).2.2.2.2.2⟩

/-- A teardown is what the claim has to leave out: after an acquire, its
release and a teardown no chunk is left while `host_size` still is 10. -/
theorem stats_after_drain_example :
    run demo_env [Op.acquire 10 false, Op.release 1, Op.drain 1] Pool.initial =
      .ok ⟨[], [], ⟨10, 1, 0, 0⟩,
        [Call.malloc 0, Call.backend_alloc 0 10 false 1, Call.backend_free 1 false,
          Call.free 0]⟩ :=
  rfl

end DbmMempool
